import Mathlib

/-!
# go-rename: clone-and-rename engine (`cmd/root.go`)

A shallow embedding of the four components of `cmd/root.go`
(`copyDirectoriesAndFiles`, `renameFolderContent`, `renameFolder`,
`processBuildTestYml`) together with `copyItems` and `startProcess`.

## Data model

* Go strings are lists of characters (`Str`).  `strings.Replace(s, old, new, -1)`
  is `replaceAll`, `strings.Contains` is `containsSub`.
* A path is the list of its clean segments below the working directory
  (`Path`).  `filepath.Join dir name` for a `name` delivered by a directory
  listing is `dir ++ [name]`; where the source joins or renames to a *computed*
  string the string is split and cleaned (`parsePath`, `joinStr`).
* The filesystem (`FS`) is a finite map from paths to objects, a regular file
  with its content or a directory.  The working directory `[]` always exists.
  An object outside the working directory is bound under a path that starts with
  `..`, like any other.  Absolute path strings and symbolic links do not occur.
  The operations follow the operating-system filesystem that `startProcess`
  installs (`afero.NewOsFs`): a file can only be created, and an object only be
  renamed, into an existing directory; no rename replaces a directory, not even
  the renamed directory itself; a regular file can replace only a regular file.
  On `FS` reading and writing an existing regular file always succeed.
* The passes of `renameFolderContent` are given a second time over any
  implementation of the filesystem interface (`Fs`), on which every operation
  may fail; on the implementation `osFs` they are the passes over `FS`.
* Recursive traversals take a fuel argument; `none` means out of fuel.  A
  traversal result is the final filesystem together with `true` when the Go
  function returned a `nil` error and `false` when it returned an error.
-/

namespace GoRename

/-! ## Strings -/

abbrev Str := List Char

/-- The string `strings.Contains(s, sub)`: `sub` occurs in `s`; the empty string
occurs in every string. -/
def containsSub : Str → Str → Bool
  | [], sub => sub.isEmpty
  | c :: cs, sub => sub.isPrefixOf (c :: cs) || containsSub cs sub

/-- Scan of `strings.Replace` for a non-empty `old`: `k` is the number of
characters of the current match still to be skipped. -/
def replaceGo (old new : Str) : Nat → Str → Str
  | _, [] => []
  | k + 1, _ :: cs => replaceGo old new k cs
  | 0, c :: cs =>
    if old.isPrefixOf (c :: cs) then new ++ replaceGo old new (old.length - 1) cs
    else c :: replaceGo old new 0 cs

/-- The string `strings.Replace(s, old, new, -1)`: every non-overlapping
occurrence of `old`, found left to right, is replaced by `new`; an empty `old`
matches before every character and at the end. -/
def replaceAll (s old new : Str) : Str :=
  if old.isEmpty then new ++ s.flatMap (fun c => c :: new)
  else replaceGo old new 0 s

/-- Lexicographic order on strings by character code, the order of
`sort.Strings`. -/
def strLe : Str → Str → Bool
  | [], _ => true
  | _ :: _, [] => false
  | a :: as, b :: bs => a.toNat < b.toNat || (a == b && strLe as bs)

/-- Insert a name into a sorted list of names. -/
def insertSorted (x : Str) : List Str → List Str
  | [] => [x]
  | y :: ys => if strLe x y then x :: y :: ys else y :: insertSorted x ys

/-- The list `sort.Strings` makes of a list of names. -/
def sortNames : List Str → List Str
  | [] => []
  | x :: xs => insertSorted x (sortNames xs)

/-! ## Paths -/

abbrev Path := List Str

/-- Split a string at every `/`. -/
def splitSlash : Str → List Str
  | [] => [[]]
  | c :: cs =>
    match splitSlash cs with
    | [] => [[]]
    | seg :: rest => if c = '/' then [] :: seg :: rest else (c :: seg) :: rest

/-- Lexical cleaning (`filepath.Clean`) of a segment list pushed onto a clean
prefix (kept reversed): empty and `.` segments vanish, `..` removes the segment
before it, and stays where there is none to remove or that segment is `..`
itself. -/
def cleanOnto : List Str → List Str → List Str
  | acc, [] => acc.reverse
  | acc, seg :: rest =>
    if seg = [] ∨ seg = ['.'] then cleanOnto acc rest
    else if seg = ['.', '.'] then
      match acc with
      | [] => cleanOnto [seg] rest
      | a :: acc1 =>
        if a = ['.', '.'] then cleanOnto (seg :: a :: acc1) rest else cleanOnto acc1 rest
    else cleanOnto (seg :: acc) rest

/-- The clean path of a relative path string; a path that starts with `..`
leaves the working directory. -/
def parsePath (s : Str) : Path := cleanOnto [] (splitSlash s)

/-- The string of a path: its segments separated by `/`. -/
def pathStr : Path → Str
  | [] => []
  | [s] => s
  | s :: t :: rest => s ++ '/' :: pathStr (t :: rest)

/-- The path `filepath.Join(dir, s)` for a computed string `s`. -/
def joinStr (dir : Path) (s : Str) : Path := cleanOnto dir.reverse (splitSlash s)

/-- The string `filepath.Base` of a path, also `os.FileInfo.Name()` of the object
found there. -/
def baseName : Path → Str
  | [] => ['.']
  | [s] => s
  | _ :: t :: rest => baseName (t :: rest)

/-- The path `filepath.Dir`. -/
def dirOf (p : Path) : Path := p.dropLast

/-- Remove the prefix `p` from `q`, if `q` starts with it. -/
def stripPrefix : Path → Path → Option Path
  | [], q => some q
  | _ :: _, [] => none
  | a :: p, b :: q => if a = b then stripPrefix p q else none

/-! ## Filesystem -/

inductive Obj where
  | file (content : Str)
  | dir
  deriving DecidableEq, Repr, Inhabited

abbrev FS := List (Path × Obj)

/-- Lookup of the object stored under a path (first binding wins). -/
def find : FS → Path → Option Obj
  | [], _ => none
  | (k, o) :: rest, p => if k = p then some o else find rest p

/-- The result of `Stat`/`Lstat`: the object at a path; the working directory
always exists. -/
def stat (fs : FS) (p : Path) : Option Obj :=
  if p = [] then some Obj.dir else find fs p

/-- The test `info.IsDir()` on the result of `Stat`. -/
def isDir (fs : FS) (p : Path) : Bool := stat fs p = some Obj.dir

/-- Bind `p` to `o`, replacing an earlier binding. -/
def put (fs : FS) (p : Path) (o : Obj) : FS :=
  (p, o) :: fs.filter (fun e => !decide (e.1 = p))

/-- Names of the entries of the directory `p`, unsorted. -/
def childNames (fs : FS) (p : Path) : List Str :=
  fs.filterMap (fun e =>
    match stripPrefix p e.1 with
    | some [n] => some n
    | _ => none)

/-- Names of the entries of directory `p` in the order of `afero.ReadDir` and of
the name list read by `afero.Walk`: sorted by name. -/
def readDirNames (fs : FS) (p : Path) : List Str := sortNames (childNames fs p).dedup

/-- Is there any object strictly below `p`? -/
def hasChildren (fs : FS) (p : Path) : Bool :=
  fs.any (fun e =>
    match stripPrefix p e.1 with
    | some (_ :: _) => true
    | _ => false)

/-- Does the lookup of `pre ++ rest` meet a regular file where it needs a
directory?  Then `Stat` fails with `ENOTDIR`, not with `ENOENT`. -/
def blockedByFile (fs : FS) : Path → List Str → Bool
  | _, [] => false
  | _, [_] => false
  | pre, s :: t :: rest =>
    match stat fs (pre ++ [s]) with
    | some (Obj.file _) => true
    | some Obj.dir => blockedByFile fs (pre ++ [s]) (t :: rest)
    | none => false

/-- The result of `afero.ReadFile`: the content of a regular file. -/
def readFile (fs : FS) (p : Path) : Option Str :=
  match stat fs p with
  | some (Obj.file c) => some c
  | _ => none

/-- The result of `afero.WriteFile`: truncate an existing regular file or create a
new one in an existing directory; `none` is an error. -/
def writeFile (fs : FS) (p : Path) (c : Str) : Option FS :=
  match stat fs p with
  | some (Obj.file _) => some (put fs p (Obj.file c))
  | some Obj.dir => none
  | none => if isDir fs (dirOf p) then some (put fs p (Obj.file c)) else none

/-- The result of `Mkdir`: the parent must be a directory and the path free. -/
def mkdir (fs : FS) (p : Path) : Option FS :=
  match stat fs p with
  | some _ => none
  | none => if isDir fs (dirOf p) then some (put fs p Obj.dir) else none

/-- Create the directories `pre ++ [s₁]`, `pre ++ [s₁, s₂]`, … that are missing;
fails at a prefix that is a regular file. -/
def mkdirFrom : FS → Path → List Str → Option FS
  | fs, _, [] => some fs
  | fs, pre, s :: rest =>
    match stat fs (pre ++ [s]) with
    | some (Obj.file _) => none
    | some Obj.dir => mkdirFrom fs (pre ++ [s]) rest
    | none => mkdirFrom (put fs (pre ++ [s]) Obj.dir) (pre ++ [s]) rest

/-- The result of `MkdirAll`. -/
def mkdirAll (fs : FS) (p : Path) : Option FS := mkdirFrom fs [] p

/-- Move every binding at or below `old` to the same place at or below `new`,
dropping what was bound at `new`. -/
def moveTree (fs : FS) (old new : Path) : FS :=
  (fs.filter (fun e => !decide (e.1 = new))).map (fun e =>
    match stripPrefix old e.1 with
    | some rest => (new ++ rest, e.2)
    | none => e)

/-- Remove the binding of `p`. -/
def erase (fs : FS) (p : Path) : FS := fs.filter (fun e => !decide (e.1 = p))

/-- The result of `Rename(old, new)` (`os.Rename`); `none` is an error.  The
target must lie in an existing directory.  A target that is an existing
directory is refused (`EEXIST`), whatever is renamed and also when it is the
renamed directory itself.  A regular file replaces a regular file or nothing.  A
directory moves, with all that is below it, to a free path outside itself. -/
def rename (fs : FS) (old new : Path) : Option FS :=
  match stat fs old with
  | none => none
  | some (Obj.file c) =>
    if old = new then some fs
    else if new = [] then none
    else if !isDir fs (dirOf new) then none
    else
      match stat fs new with
      | some Obj.dir => none
      | _ => some (put (erase fs old) new (Obj.file c))
  | some Obj.dir =>
    if old = [] ∨ new = [] then none
    else if !isDir fs (dirOf new) then none
    else if (stripPrefix old new).isSome then none
    else if hasChildren fs new then none
    else
      match stat fs new with
      | some _ => none
      | none => some (moveTree fs old new)

/-! ## The program -/

/-- The package-level variables of `cmd/root.go`. -/
structure Config where
  oldCompanyName : Str
  newCompanyName : Str
  oldProjectName : Str
  newProjectName : Str
  deriving DecidableEq, Repr

/-- The map `skipDirs`. -/
def skipDirs : List Str := ["node_modules".toList, "bin".toList, "obj".toList]

/-- A `for _, file := range files` loop whose body returns an error or not: the
first error ends the loop and is returned. -/
def forNames {σ : Type} (body : σ → Str → Option (σ × Bool)) :
    List Str → σ → Option (σ × Bool)
  | [], fs => some (fs, true)
  | n :: ns, fs =>
    match body fs n with
    | none => none
    | some (fs1, false) => some (fs1, false)
    | some (fs1, true) => forNames body ns fs1

/-- The function `copyDirectoriesAndFiles(fs, src, dest)`.  For a source that
`Stat` does not find, `afero.Exists` reports "does not exist" only for the error
`ENOENT`; the error of a path that runs through a regular file is returned. -/
def copyDirectoriesAndFiles : Nat → FS → Path → Path → Option (FS × Bool)
  | 0, _, _, _ => none
  | fuel + 1, fs, src, dest =>
    match stat fs src with
    | none => if blockedByFile fs [] src then some (fs, false) else some (fs, true)
    | some Obj.dir =>
      if baseName src ∈ skipDirs then some (fs, true)
      else
        match mkdirAll fs dest with
        | none => some (fs, false)
        | some fs1 =>
          if isDir fs1 src then
            forNames (fun s n => copyDirectoriesAndFiles fuel s (src ++ [n]) (dest ++ [n]))
              (readDirNames fs1 src) fs1
          else some (fs1, false)
    | some (Obj.file input) =>
      match writeFile fs dest input with
      | none => some (fs, false)
      | some fs1 => some (fs1, true)

/-- The slice `directoriesToCopy` of `copyItems` for a given `newRoot`. -/
def directoriesToCopy (newRoot : Str) : List (Path × Path) :=
  [ (parsePath "./src".toList, joinStr (joinStr (parsePath newRoot) "aspnet-core".toList) "src".toList),
    (parsePath "./tests".toList, joinStr (joinStr (parsePath newRoot) "aspnet-core".toList) "tests".toList),
    (parsePath "./.vscode".toList, joinStr (joinStr (parsePath newRoot) "aspnet-core".toList) ".vscode".toList),
    (parsePath "./.github".toList, joinStr (parsePath newRoot) ".github".toList),
    (parsePath "CommerceMono.sln".toList,
      joinStr (joinStr (parsePath newRoot) "aspnet-core".toList) "CommerceMono.sln".toList),
    (parsePath ".gitignore".toList, joinStr (joinStr (parsePath newRoot) "aspnet-core".toList) ".gitignore".toList),
    (parsePath "add_migration.bat".toList,
      joinStr (joinStr (parsePath newRoot) "aspnet-core".toList) "add_migration.bat".toList),
    (parsePath "Makefile".toList, joinStr (joinStr (parsePath newRoot) "aspnet-core".toList) "Makefile".toList),
    (parsePath "run.bat".toList, joinStr (joinStr (parsePath newRoot) "aspnet-core".toList) "run.bat".toList) ]

/-- The loop of `copyItems` over a list of (source, destination) pairs. -/
def copyPairs (fuel : Nat) : List (Path × Path) → FS → Option (FS × Bool)
  | [], fs => some (fs, true)
  | (src, dest) :: rest, fs =>
    match copyDirectoriesAndFiles fuel fs src dest with
    | none => none
    | some (fs1, false) => some (fs1, false)
    | some (fs1, true) => copyPairs fuel rest fs1

/-- The function `copyItems(fs)` with the package variable `newRoot`. -/
def copyItems (fuel : Nat) (newRoot : Str) (fs : FS) : Option (FS × Bool) :=
  copyPairs fuel (directoriesToCopy newRoot) fs

/-- The three literal replacements of `processBuildTestYml`. -/
def patchYml (c : Str) : Str :=
  replaceAll
    (replaceAll
      (replaceAll c "\"src/".toList "\"aspnet-core/src/".toList)
      "\"tests/".toList "\"aspnet-core/tests/".toList)
    "\"./tests".toList "\"./aspnet-core/tests".toList

/-- The function `processBuildTestYml(fs, path, info)`; `name` is `info.Name()`.
A failed write is only printed. -/
def processBuildTestYml (fs : FS) (path : Path) (name : Str) : FS × Bool :=
  if name ≠ "build-and-test.yml".toList then (fs, true)
  else
    match readFile fs path with
    | none => (fs, false)
    | some fileContent => ((writeFile fs path (patchYml fileContent)).getD fs, true)

/-- Both substitutions of the content pass, company first. -/
def substBoth (cfg : Config) (s : Str) : Str :=
  replaceAll (replaceAll s cfg.oldCompanyName cfg.newCompanyName)
    cfg.oldProjectName cfg.newProjectName

/-- The test `strings.Contains(name, oldCompanyName) || strings.Contains(name,
oldProjectName)`. -/
def hasPlaceholder (cfg : Config) (name : Str) : Bool :=
  containsSub name cfg.oldCompanyName || containsSub name cfg.oldProjectName

/-- The callback that `renameFolderContent` hands to `afero.Walk`; `info = none`
stands for a call with a non-nil `err`.  Failed writes and renames are only
printed. -/
def walkFn (cfg : Config) (fs : FS) (path : Path) (info : Option Obj) : FS × Bool :=
  match info with
  | none => (fs, false)
  | some Obj.dir => (fs, true)
  | some (Obj.file _) =>
    match readFile fs path with
    | none => (fs, false)
    | some fileContent =>
      let fs1 := (writeFile fs path (substBoth cfg fileContent)).getD fs
      let fs2 :=
        if hasPlaceholder cfg (baseName path) then
          let newFilePath := joinStr (dirOf path) (substBoth cfg (baseName path))
          if newFilePath ≠ path then (rename fs1 path newFilePath).getD fs1 else fs1
        else fs1
      processBuildTestYml fs2 path (baseName path)

/-- The function `walk` of `afero.Walk`, specialised to `walkFn` (which never
returns `SkipDir`). -/
def walk (cfg : Config) : Nat → FS → Path → Obj → Option (FS × Bool)
  | 0, _, _, _ => none
  | fuel + 1, fs, path, info =>
    match walkFn cfg fs path (some info) with
    | (fs1, false) => some (fs1, false)
    | (fs1, true) =>
      match info with
      | Obj.file _ => some (fs1, true)
      | Obj.dir =>
        if isDir fs1 path then
          forNames (fun s n =>
              match stat s (path ++ [n]) with
              | none => some (walkFn cfg s (path ++ [n]) none)
              | some o => walk cfg fuel s (path ++ [n]) o)
            (readDirNames fs1 path) fs1
        else some (walkFn cfg fs1 path none)

/-- The path string handed to `fs.Rename` by `renameFolder`: the company
substitution only for a non-empty `newCompanyName`, then the project
substitution, both over the whole path string. -/
def newPathStr (cfg : Config) (target : Path) : Str :=
  replaceAll
    (if cfg.newCompanyName ≠ [] then
      replaceAll (pathStr target) cfg.oldCompanyName cfg.newCompanyName
     else pathStr target)
    cfg.oldProjectName cfg.newProjectName

/-- The function `renameFolder(fs, targetFolder)`. -/
def renameFolder (cfg : Config) : Nat → FS → Path → Option (FS × Bool)
  | 0, _, _ => none
  | fuel + 1, fs, target =>
    match stat fs target with
    | none => some (fs, false)
    | some (Obj.file _) => some (fs, true)
    | some Obj.dir =>
      match forNames (fun s n => renameFolder cfg fuel s (target ++ [n]))
          (readDirNames fs target) fs with
      | none => none
      | some (fs1, false) => some (fs1, false)
      | some (fs1, true) =>
        if hasPlaceholder cfg (baseName target) then
          match rename fs1 target (parsePath (newPathStr cfg target)) with
          | none => some (fs1, false)
          | some fs2 => some (fs2, true)
        else some (fs1, true)

/-- The function `afero.Walk(fs, root, walkFn)`. -/
def walkRoot (cfg : Config) (fuel : Nat) (fs : FS) (root : Path) : Option (FS × Bool) :=
  match stat fs root with
  | none => some (walkFn cfg fs root none)
  | some info => walk cfg fuel fs root info

/-- The function `renameFolderContent(fs, targetFolder)`. -/
def renameFolderContent (cfg : Config) (fuel : Nat) (fs : FS) (target : Path) :
    Option (FS × Bool) :=
  match walkRoot cfg fuel fs target with
  | none => none
  | some (fs1, false) => some (fs1, false)
  | some (fs1, true) => renameFolder cfg fuel fs1 target

/-- The configuration `startProcess(key, value)` installs; `newCompanyName` is
never assigned and keeps its zero value. -/
def startConfig (key value : Str) : Config :=
  { oldCompanyName := "Cloned".toList, newCompanyName := [],
    oldProjectName := key, newProjectName := value }

/-- The value `newRoot = oldCompanyName + "_" + newProjectName`. -/
def newRootOf (value : Str) : Str := "Cloned".toList ++ "_".toList ++ value

/-- The function `startProcess(key, value)`; the result of `renameFolderContent`
is discarded. -/
def startProcess (fuel : Nat) (fs : FS) (key value : Str) : Option (FS × Bool) :=
  match mkdir fs (parsePath (newRootOf value)) with
  | none => some (fs, false)
  | some fs1 =>
    match copyItems fuel (newRootOf value) fs1 with
    | none => none
    | some (fs2, false) => some (fs2, false)
    | some (fs2, true) =>
      match renameFolderContent (startConfig key value) fuel fs2 (parsePath (newRootOf value)) with
      | none => none
      | some (fs3, _) => some (fs3, true)

/-! ## The program over any implementation of the filesystem interface

The functions of `cmd/root.go` take the filesystem as a value of the interface
`afero.Fs`.  Above, that value is the operating-system filesystem.  Below, the
content pass and the directory pass are written over an arbitrary
implementation, whose reads, writes and renames may fail for any reason. -/

/-- The methods of `afero.Fs` (with `afero.ReadFile`, `afero.WriteFile` and
`afero.ReadDir` on top of them) that the two passes call, over states of type
`σ`; `none` is an error, which leaves the state as it was. -/
structure Fs (σ : Type) where
  stat : σ → Path → Option Obj
  readDir : σ → Path → Option (List Str)
  readFile : σ → Path → Option Str
  writeFile : σ → Path → Str → Option σ
  rename : σ → Path → Path → Option σ

/-- The operating-system filesystem as an implementation of the interface. -/
def osFs : Fs FS :=
  { stat := stat,
    readDir := fun fs p => if isDir fs p then some (readDirNames fs p) else none,
    readFile := readFile,
    writeFile := writeFile,
    rename := rename }

/-- The operating-system filesystem with files that may not be read (`noRead`)
and files that may not be written (`noWrite`). -/
def guardedFs (noRead noWrite : List Path) : Fs FS :=
  { stat := stat,
    readDir := fun fs p => if isDir fs p then some (readDirNames fs p) else none,
    readFile := fun fs p => if p ∈ noRead then none else readFile fs p,
    writeFile := fun fs p c => if p ∈ noWrite then none else writeFile fs p c,
    rename := rename }

/-- The function `processBuildTestYml(fs, path, info)` over an implementation
`F`. -/
def processBuildTestYmlOn {σ : Type} (F : Fs σ) (s : σ) (path : Path) (name : Str) : σ × Bool :=
  if name ≠ "build-and-test.yml".toList then (s, true)
  else
    match F.readFile s path with
    | none => (s, false)
    | some fileContent => ((F.writeFile s path (patchYml fileContent)).getD s, true)

/-- The state in which the callback on the regular file at `path`, read with
content `c`, calls `processBuildTestYml`: the substituted content has been
written back, and the file has been renamed when its name contains a placeholder
and its new path differs; a failed write or rename has changed nothing. -/
def afterRewriteOn {σ : Type} (F : Fs σ) (cfg : Config) (s : σ) (path : Path) (c : Str) : σ :=
  if hasPlaceholder cfg (baseName path) then
    if joinStr (dirOf path) (substBoth cfg (baseName path)) ≠ path then
      (F.rename ((F.writeFile s path (substBoth cfg c)).getD s) path
        (joinStr (dirOf path) (substBoth cfg (baseName path)))).getD
        ((F.writeFile s path (substBoth cfg c)).getD s)
    else (F.writeFile s path (substBoth cfg c)).getD s
  else (F.writeFile s path (substBoth cfg c)).getD s

/-- The callback of `renameFolderContent` over an implementation `F`. -/
def walkFnOn {σ : Type} (F : Fs σ) (cfg : Config) (s : σ) (path : Path) (info : Option Obj) :
    σ × Bool :=
  match info with
  | none => (s, false)
  | some Obj.dir => (s, true)
  | some (Obj.file _) =>
    match F.readFile s path with
    | none => (s, false)
    | some fileContent =>
      let s1 := (F.writeFile s path (substBoth cfg fileContent)).getD s
      let s2 :=
        if hasPlaceholder cfg (baseName path) then
          let newFilePath := joinStr (dirOf path) (substBoth cfg (baseName path))
          if newFilePath ≠ path then (F.rename s1 path newFilePath).getD s1 else s1
        else s1
      processBuildTestYmlOn F s2 path (baseName path)

/-- The function `walk` of `afero.Walk` over an implementation `F`. -/
def walkOn {σ : Type} (F : Fs σ) (cfg : Config) : Nat → σ → Path → Obj → Option (σ × Bool)
  | 0, _, _, _ => none
  | fuel + 1, s, path, info =>
    match walkFnOn F cfg s path (some info) with
    | (s1, false) => some (s1, false)
    | (s1, true) =>
      match info with
      | Obj.file _ => some (s1, true)
      | Obj.dir =>
        match F.readDir s1 path with
        | none => some (walkFnOn F cfg s1 path none)
        | some names =>
          forNames (fun s n =>
              match F.stat s (path ++ [n]) with
              | none => some (walkFnOn F cfg s (path ++ [n]) none)
              | some o => walkOn F cfg fuel s (path ++ [n]) o)
            names s1

/-- The loop of `walk` over the names of the entries of the directory `path`
that are still to be visited. -/
def walkEntriesOn {σ : Type} (F : Fs σ) (cfg : Config) (fuel : Nat) (path : Path) :
    List Str → σ → Option (σ × Bool) :=
  forNames (fun s n =>
    match F.stat s (path ++ [n]) with
    | none => some (walkFnOn F cfg s (path ++ [n]) none)
    | some o => walkOn F cfg fuel s (path ++ [n]) o)

/-- The function `afero.Walk(fs, root, walkFn)` over an implementation `F`. -/
def walkRootOn {σ : Type} (F : Fs σ) (cfg : Config) (fuel : Nat) (s : σ) (root : Path) :
    Option (σ × Bool) :=
  match F.stat s root with
  | none => some (walkFnOn F cfg s root none)
  | some info => walkOn F cfg fuel s root info

/-- The function `renameFolder(fs, targetFolder)` over an implementation `F`. -/
def renameFolderOn {σ : Type} (F : Fs σ) (cfg : Config) : Nat → σ → Path → Option (σ × Bool)
  | 0, _, _ => none
  | fuel + 1, s, target =>
    match F.stat s target with
    | none => some (s, false)
    | some (Obj.file _) => some (s, true)
    | some Obj.dir =>
      match F.readDir s target with
      | none => some (s, false)
      | some names =>
        match forNames (fun s n => renameFolderOn F cfg fuel s (target ++ [n])) names s with
        | none => none
        | some (s1, false) => some (s1, false)
        | some (s1, true) =>
          if hasPlaceholder cfg (baseName target) then
            match F.rename s1 target (parsePath (newPathStr cfg target)) with
            | none => some (s1, false)
            | some s2 => some (s2, true)
          else some (s1, true)

/-- The function `renameFolderContent(fs, targetFolder)` over an implementation
`F`. -/
def renameFolderContentOn {σ : Type} (F : Fs σ) (cfg : Config) (fuel : Nat) (s : σ)
    (target : Path) : Option (σ × Bool) :=
  match walkRootOn F cfg fuel s target with
  | none => none
  | some (s1, false) => some (s1, false)
  | some (s1, true) => renameFolderOn F cfg fuel s1 target

/-! ## Predicates of the claims -/

/-- The source of a pair does not exist: `Stat` finds nothing at `p` and fails
with "does not exist", not at a regular file on the way. -/
def absent (fs : FS) (p : Path) : Bool := (stat fs p).isNone && !blockedByFile fs [] p

/-- The destination `dest` lies in another entry of the working directory than
the source `src`. -/
def otherTop (dest src : Path) : Bool :=
  match dest, src with
  | d :: _, s :: _ => d != s
  | _, _ => false

/-- No object below `root` has a placeholder in its name, and no regular file at
or below `root` has one in its content. -/
def placeholderFree (cfg : Config) (fs : FS) (root : Path) : Bool :=
  fs.all (fun e =>
    !(stripPrefix root e.1).isSome ||
      ((decide (e.1 = root) || !hasPlaceholder cfg (baseName e.1)) &&
        match e.2 with
        | Obj.file c => !hasPlaceholder cfg c
        | Obj.dir => true))

/-- The run does not rename `root` itself: its name contains no placeholder, or
it is no regular file and the substitution of the directory pass leaves its path
as it is, a rename that is refused. -/
def rootStays (cfg : Config) (fs : FS) (root : Path) : Bool :=
  !hasPlaceholder cfg (baseName root) ||
    match stat fs root with
    | some (Obj.file _) => false
    | _ => decide (parsePath (newPathStr cfg root) = root)

/-- Every regular file named `build-and-test.yml` at or below `root` contains none
of the three path fragments that `processBuildTestYml` replaces. -/
def ymlPatched (fs : FS) (root : Path) : Bool :=
  fs.all (fun e =>
    !(stripPrefix root e.1).isSome || baseName e.1 != "build-and-test.yml".toList ||
      match e.2 with
      | Obj.file c =>
        !containsSub c "\"src/".toList && !containsSub c "\"tests/".toList &&
          !containsSub c "\"./tests".toList
      | Obj.dir => true)

/-- The path the content pass renames the regular file at `p` to. -/
def fileTarget (cfg : Config) (p : Path) : Path :=
  joinStr (dirOf p) (substBoth cfg (baseName p))

/-- Every regular file at or below `root` other than `f` whose name contains a
placeholder and whose new path differs from its path is renamed neither to `f`
nor to `f'`, and it stays in its directory or gets a name without placeholder. -/
def otherFilesApart (cfg : Config) (fs : FS) (root f f' : Path) : Bool :=
  fs.all (fun e =>
    match e.2 with
    | Obj.dir => true
    | Obj.file _ =>
      !(stripPrefix root e.1).isSome || decide (e.1 = f) ||
        !hasPlaceholder cfg (baseName e.1) || decide (fileTarget cfg e.1 = e.1) ||
        (decide (fileTarget cfg e.1 ≠ f) && decide (fileTarget cfg e.1 ≠ f') &&
          (decide (fileTarget cfg e.1 = dirOf e.1 ++ [substBoth cfg (baseName e.1)]) ||
            !hasPlaceholder cfg (baseName (fileTarget cfg e.1)))))

/-- The file is still at its path `f` with its original content `c`, and nothing
is at its new path `f'`. -/
def FileBefore (s : FS) (f f' : Path) (c : Str) : Prop :=
  stat s f = some (Obj.file c) ∧ (f' ≠ f → stat s f' = none)

/-- The file is at its new path `f'` with the substituted content, and nothing is
at its old path `f`. -/
def FileAfter (cfg : Config) (s : FS) (f f' : Path) (c : Str) : Prop :=
  stat s f' = some (Obj.file (substBoth cfg c)) ∧ (f' ≠ f → stat s f = none)

/-- Every directory of `fs0` is a directory of `s`. -/
def DirsStay (fs0 s : FS) : Prop := ∀ q, stat fs0 q = some Obj.dir → stat s q = some Obj.dir

/-- What `s` holds at or below `t` was in `fs0` already, or has no placeholder in
its name. -/
def KnownAt (cfg : Config) (fs0 s : FS) (t : Path) : Prop :=
  ∀ q o, t <+: q → stat s q = some o →
    (∃ o0, stat fs0 q = some o0) ∨ hasPlaceholder cfg (baseName q) = false

/-- What `s'` holds and `s` did not hold is an entry of the directory `u`, or lies
below `t`, or has no placeholder in its name. -/
def NewWithin (cfg : Config) (s s' : FS) (u t : Path) : Prop :=
  ∀ q o, stat s' q = some o →
    (∃ o1, stat s q = some o1) ∨ dirOf q = u ∨ t <+: dirOf q ∨
      hasPlaceholder cfg (baseName q) = false

/-- The entries `l` of the directory `t` that a pass has still to visit: they are
distinct, and each of them, with what `s` holds below it, was in `fs0` already or
has no placeholder in its name. -/
def EntriesKnown (cfg : Config) (fs0 s : FS) (t : Path) (l : List Str) : Prop :=
  l.Nodup ∧ ∀ m ∈ l,
    ((∃ o0, stat fs0 (t ++ [m]) = some o0) ∨ hasPlaceholder cfg m = false) ∧
      KnownAt cfg fs0 s (t ++ [m])

/-- Every path from `root` down to `d` is a directory of `s`. -/
def DirsKept (s : FS) (root d : Path) : Prop :=
  ∀ a, root <+: a → a <+: d → stat s a = some Obj.dir

/-- The path the directory pass renames the directory at `e` to. -/
def dirTarget (cfg : Config) (e : Path) : Path := parsePath (newPathStr cfg e)

/-- Every directory at or below `root` other than `d` whose name contains a
placeholder and whose new path differs from its path is renamed to a path that
lies neither at or below `d` nor at or below `d'`, and it stays in its directory
or gets a name without placeholder. -/
def otherDirsApart (cfg : Config) (fs : FS) (root d d' : Path) : Bool :=
  fs.all (fun e =>
    match e.2 with
    | Obj.file _ => true
    | Obj.dir =>
      !(stripPrefix root e.1).isSome || decide (e.1 = d) ||
        !hasPlaceholder cfg (baseName e.1) || decide (dirTarget cfg e.1 = e.1) ||
        (!(stripPrefix d (dirTarget cfg e.1)).isSome &&
          !(stripPrefix d' (dirTarget cfg e.1)).isSome &&
          (decide (dirTarget cfg e.1 = dirOf e.1 ++ [baseName (dirTarget cfg e.1)]) ||
            !hasPlaceholder cfg (baseName (dirTarget cfg e.1)))))

/-- No directory whose name contains a placeholder lies strictly below a
directory at or below `root` that the directory pass renames to another path. -/
def noNestedPlaceholder (cfg : Config) (fs : FS) (root : Path) : Bool :=
  fs.all (fun e =>
    match e.2 with
    | Obj.file _ => true
    | Obj.dir =>
      !(stripPrefix root e.1).isSome || !hasPlaceholder cfg (baseName e.1) ||
        decide (dirTarget cfg e.1 = e.1) ||
        fs.all (fun e2 =>
          match e2.2, stripPrefix e.1 e2.1 with
          | Obj.dir, some (_ :: _) => !hasPlaceholder cfg (baseName e2.1)
          | _, _ => true))

/-- Every directory that `s` holds at or below `t` with a placeholder in its name
was a directory of `fs0`. -/
def KnownDirsAt (cfg : Config) (fs0 s : FS) (t : Path) : Prop :=
  ∀ q, t <+: q → stat s q = some Obj.dir → hasPlaceholder cfg (baseName q) = true →
    stat fs0 q = some Obj.dir

/-- What `s` holds outside `t`, `s'` holds as well. -/
def StaysOutside (s s' : FS) (t : Path) : Prop :=
  ∀ q o, ¬ t <+: q → stat s q = some o → stat s' q = some o

/-- What `s'` holds, `s` held as well, or it lies at or below `t`, or it is no
directory with a placeholder in its name. -/
def NewInside (cfg : Config) (s s' : FS) (t : Path) : Prop :=
  ∀ q o, stat s' q = some o →
    stat s q = some o ∨ t <+: q ∨ ¬ (o = Obj.dir ∧ hasPlaceholder cfg (baseName q) = true)

/-- What `s'` holds, `s` held as well, or it lies at or below an entry of `u` that
was free in `s`, or at or below `t`, or it is no directory with a placeholder in
its name. -/
def NewBound (cfg : Config) (s s' : FS) (u t : Path) : Prop :=
  ∀ q o, stat s' q = some o →
    stat s q = some o ∨ (∃ x, u ++ [x] <+: q ∧ stat s (u ++ [x]) = none) ∨ t <+: q ∨
      ¬ (o = Obj.dir ∧ hasPlaceholder cfg (baseName q) = true)

/-- The entries `l` of the directory `t` that the directory pass has still to
visit: they are distinct and bound, and every directory at or below one of them
with a placeholder in its name was a directory of `fs0`. -/
def EntriesKnownDirs (cfg : Config) (fs0 s : FS) (t : Path) (l : List Str) : Prop :=
  l.Nodup ∧ ∀ m ∈ l, (∃ o, stat s (t ++ [m]) = some o) ∧ KnownDirsAt cfg fs0 s (t ++ [m])

/-! ## Scenarios used below -/

/-- The tree of `TestCopyItems`: `src/testfile.txt` and `tests/testfile_test.txt`. -/
def copyItemsTree : FS :=
  [ (["src".toList], Obj.dir),
    (["tests".toList], Obj.dir),
    (["src".toList, "testfile.txt".toList], Obj.file "content".toList),
    (["tests".toList, "testfile_test.txt".toList], Obj.file "test content".toList) ]

/-- A template with one source file, `src/Shop.cs`. -/
def shopTree : FS :=
  [ (["src".toList], Obj.dir),
    (["src".toList, "Shop.cs".toList], Obj.file "namespace Shop".toList) ]

/-- The tree that cloning `shopTree` for key `Shop` and value `Market` leaves. -/
def marketTree : FS :=
  ((startProcess 6 shopTree "Shop".toList "Market".toList).getD ([], false)).1

/-- A directory with a placeholder in its name inside another one:
`src/CommerceMono/CommerceMono.Api`. -/
def nestedTree : FS :=
  [ (["src".toList], Obj.dir),
    (["src".toList, "CommerceMono".toList], Obj.dir),
    (["src".toList, "CommerceMono".toList, "CommerceMono.Api".toList], Obj.dir) ]

/-- A directory `ci` with the pipeline file and one more file. -/
def ciTree : FS :=
  [ (["ci".toList], Obj.dir),
    (["ci".toList, "build-and-test.yml".toList], Obj.file "- \"src/**\"".toList),
    (["ci".toList, "notes.txt".toList], Obj.file "test plan".toList) ]

/-- A source tree holding a regular file named `bin` and a directory named `obj`. -/
def binFileTree : FS :=
  [ (["src".toList], Obj.dir),
    (["src".toList, "bin".toList], Obj.file "#!/bin/sh".toList),
    (["src".toList, "obj".toList], Obj.dir),
    (["src".toList, "obj".toList, "a.o".toList], Obj.file "o".toList),
    (["src".toList, "main.go".toList], Obj.file "package main".toList) ]

/-- The tree that copying `src` of `binFileTree` to `newpath/src` leaves. -/
def binFileCopied : FS :=
  ((copyDirectoriesAndFiles 3 binFileTree ["src".toList]
    ["newpath".toList, "src".toList]).getD ([], false)).1

/-- A source `a/b` below its destination `a`, holding `x` and `b/x`. -/
def overlapTree : FS :=
  [ (["a".toList], Obj.dir),
    (["a".toList, "b".toList], Obj.dir),
    (["a".toList, "b".toList, "x".toList], Obj.file "one".toList),
    (["a".toList, "b".toList, "b".toList], Obj.dir),
    (["a".toList, "b".toList, "b".toList, "x".toList], Obj.file "two".toList) ]

/-- The tree that copying `a/b` of `overlapTree` to `a` leaves. -/
def overlapCopied : FS :=
  ((copyDirectoriesAndFiles 4 overlapTree ["a".toList, "b".toList]
    ["a".toList]).getD ([], false)).1

/-- The tree that copying `src` of `copyItemsTree` to `aspnet-core/src` leaves, the
first step of `copyItems` in `TestCopyItems`. -/
def srcCopied : FS :=
  ((copyDirectoriesAndFiles 3 copyItemsTree ["src".toList]
    ["aspnet-core".toList, "src".toList]).getD ([], false)).1

/-- A pipeline file whose name becomes `build-and-test.yml` for key `stage` and
value `test`. -/
def stageTree : FS :=
  [ (["ci".toList], Obj.dir),
    (["ci".toList, "build-and-stage.yml".toList], Obj.file "- \"src/**\"".toList) ]

/-- The tree that one run of `renameFolderContent` leaves of `stageTree`. -/
def stageOnce : FS :=
  ((renameFolderContent (startConfig "stage".toList "test".toList) 4 stageTree
    ["ci".toList]).getD ([], false)).1

/-- Two files of one directory with the same new name for the company
placeholder `Cloned`: `ClonedX.txt` and `XCloned.txt` both become `X.txt`. -/
def collideTree : FS :=
  [ (["src".toList], Obj.dir),
    (["src".toList, "ClonedX.txt".toList], Obj.file "first".toList),
    (["src".toList, "XCloned.txt".toList], Obj.file "second".toList) ]

/-- The tree of `TestRenameFolderContent`. -/
def slnTree : FS :=
  [ (["src".toList], Obj.dir),
    (["src".toList, "CommerceMono.sln".toList], Obj.file "namespace CommerceMono".toList) ]

/-- Two source files of a template cloned for key `Shop` and value `ShopApi`; the
new names contain the key again. -/
def shopPairTree : FS :=
  [ (["src".toList], Obj.dir),
    (["src".toList, "Shop.cs".toList], Obj.file "namespace Shop".toList),
    (["src".toList, "Shop.sln".toList], Obj.file "Project Shop".toList) ]

/-- The tree that the content walk leaves of `shopPairTree`. -/
def shopPairWalked : FS :=
  ((walkRoot (startConfig "Shop".toList "ShopApi".toList) 3 shopPairTree
    ["src".toList]).getD ([], false)).1

/-- The tree that `renameFolderContent` leaves of `shopPairTree`. -/
def shopPairRenamed : FS :=
  ((renameFolderContent (startConfig "Shop".toList "ShopApi".toList) 3 shopPairTree
    ["src".toList]).getD ([], false)).1

/-- Two project directories for key `AppApp` and value `App`: `src/AppApp` becomes
`src/App` and `src/AppAppApp` becomes `src/AppApp`. -/
def appTree : FS :=
  [ (["src".toList], Obj.dir),
    (["src".toList, "AppApp".toList], Obj.dir),
    (["src".toList, "AppApp".toList, "main.go".toList], Obj.file "package main".toList),
    (["src".toList, "AppAppApp".toList], Obj.dir),
    (["src".toList, "AppAppApp".toList, "lib.go".toList], Obj.file "package lib".toList) ]

/-- The tree that `renameFolder` leaves of `appTree`. -/
def appRenamed : FS :=
  ((renameFolder (startConfig "AppApp".toList "App".toList) 4 appTree
    ["src".toList]).getD ([], false)).1

/-- The tree of `TestRenameFolder`, with one file in a project directory. -/
def projectTree : FS :=
  [ (["src".toList], Obj.dir),
    (["src".toList, "CommerceMono.Application".toList], Obj.dir),
    (["src".toList, "CommerceMono.Application".toList, "App.cs".toList],
      Obj.file "class App".toList),
    (["src".toList, "CommerceMono.Api".toList], Obj.dir) ]

/-- Two project directories of a template cloned for key `Shop` and value
`ShopApi`; the new names contain the key again. -/
def shopDirsTree : FS :=
  [ (["src".toList], Obj.dir),
    (["src".toList, "Shop.Api".toList], Obj.dir),
    (["src".toList, "Shop.Application".toList], Obj.dir),
    (["src".toList, "Shop.Application".toList, "App.cs".toList],
      Obj.file "class App".toList) ]

/-- The tree that `renameFolder` leaves of `shopDirsTree`. -/
def shopDirsRenamed : FS :=
  ((renameFolder (startConfig "Shop".toList "ShopApi".toList) 4 shopDirsTree
    ["src".toList]).getD ([], false)).1

/-- A working directory that holds the new root and, of the nine sources of
`copyItems`, only the regular file `Makefile`. -/
def makefileTree : FS :=
  [ (["Cloned_HRMS".toList], Obj.dir),
    (["Makefile".toList], Obj.file "all:".toList) ]

/-- A working directory that holds only the regular file `src`. -/
def plainFileTree : FS := [ (["src".toList], Obj.file "x".toList) ]

/-- A root whose name is the key `test`, holding the pipeline file. -/
def testRootTree : FS :=
  [ (["test".toList], Obj.dir),
    (["test".toList, "build-and-test.yml".toList], Obj.file "- \"lib/**\"".toList) ]

/-- The tree that one run of `renameFolderContent` leaves of `testRootTree` for
key `test` and value `check`. -/
def testRootOnce : FS :=
  ((renameFolderContent (startConfig "test".toList "check".toList) 4 testRootTree
    ["test".toList]).getD ([], true)).1

/-- The tree that a run of `renameFolderContent` leaves of `marketTree`. -/
def marketTwice : FS :=
  ((renameFolderContent (startConfig "Shop".toList "Market".toList) 6 marketTree
    ["Cloned_Market".toList]).getD ([], true)).1

/-- A directory `ci` with two text files that contain the company placeholder. -/
def notesTree : FS :=
  [ (["ci".toList], Obj.dir),
    (["ci".toList, "a.txt".toList], Obj.file "Cloned a".toList),
    (["ci".toList, "b.txt".toList], Obj.file "Cloned b".toList) ]

/-- The tree that `renameFolderContent` leaves of `notesTree` on a filesystem that
refuses to write `ci/a.txt`. -/
def notesWriteRefused : FS :=
  ((renameFolderContentOn (guardedFs [] [["ci".toList, "a.txt".toList]])
    (startConfig "Shop".toList "Market".toList) 4 notesTree ["ci".toList]).getD ([], false)).1

/-- The tree `shopTree` with the new root of a run for value `Market`. -/
def shopRooted : FS := (mkdir shopTree ["Cloned_Market".toList]).getD []

/-- The tree that `copyItems` leaves of `shopRooted`. -/
def shopCopied : FS := ((copyItems 6 "Cloned_Market".toList shopRooted).getD ([], false)).1

/-- The tree that the content walk leaves of `shopCopied`. -/
def shopWalked : FS :=
  ((walkRoot (startConfig "Shop".toList "Market".toList) 6 shopCopied
    ["Cloned_Market".toList]).getD ([], false)).1

/-! ## Facts about the filesystem operations -/

theorem find_filter_ne (fs : FS) (p q : Path) :
    find (fs.filter (fun e => !decide (e.1 = p))) q = if q = p then none else find fs q := by
  induction fs with
  | nil => simp [find]
  | cons e rest ih =>
    obtain ⟨k, o⟩ := e
    by_cases hk : k = p
    · subst hk
      by_cases hq : q = k
      · subst hq; simp [find, ih]
      · have hq' : ¬ k = q := fun h => hq h.symm
        simp [find, ih, hq, hq']
    · by_cases hq : q = p
      · subst hq; simp [List.filter, hk, find, ih]
      · simp [List.filter, hk, find, ih, hq]

theorem find_put (fs : FS) (p q : Path) (o : Obj) :
    find (put fs p o) q = if q = p then some o else find fs q := by
  unfold put
  by_cases hq : q = p
  · subst hq; simp [find]
  · have hq' : ¬ p = q := fun h => hq h.symm
    simp [find, find_filter_ne, hq, hq']

theorem stat_put (fs : FS) (p q : Path) (o : Obj) (hp : p ≠ []) :
    stat (put fs p o) q = if q = p then some o else stat fs q := by
  unfold stat
  by_cases hq : q = []
  · subst hq
    have : ¬ ([] : Path) = p := fun h => hp h.symm
    simp [this]
  · simp [hq, find_put]

theorem stat_file_ne_nil {fs : FS} {p : Path} {c : Str} (h : stat fs p = some (Obj.file c)) :
    p ≠ [] := by
  intro hp
  subst hp
  simp [stat] at h

theorem writeFile_existing {fs : FS} {p : Path} {c : Str} (c' : Str)
    (h : stat fs p = some (Obj.file c)) :
    writeFile fs p c' = some (put fs p (Obj.file c')) := by
  simp [writeFile, h]

theorem stripPrefix_eq_some {p q r : Path} : stripPrefix p q = some r ↔ q = p ++ r := by
  induction p generalizing q with
  | nil => simp [stripPrefix, eq_comm]
  | cons a p ih =>
    cases q with
    | nil => simp [stripPrefix]
    | cons b q =>
      by_cases hab : a = b
      · subst hab; simp [stripPrefix, ih]
      · have hba : ¬ b = a := fun h => hab h.symm
        simp [stripPrefix, hab, hba]

theorem stripPrefix_append (p r : Path) : stripPrefix p (p ++ r) = some r :=
  stripPrefix_eq_some.mpr rfl

theorem stripPrefix_eq_none {p q : Path} : stripPrefix p q = none ↔ ∀ r, q ≠ p ++ r := by
  constructor
  · intro h r hr
    rw [stripPrefix_eq_some.mpr hr] at h
    cases h
  · intro h
    cases hs : stripPrefix p q with
    | none => rfl
    | some r => exact absurd (stripPrefix_eq_some.mp hs) (h r)

/-- Lookup after `moveTree` when nothing lies strictly below `new` and neither
path lies below the other. -/
theorem find_moveTree (fs : FS) (old new : Path)
    (hch : hasChildren fs new = false)
    (h1 : stripPrefix old new = none) (h2 : stripPrefix new old = none) (q : Path) :
    find (moveTree fs old new) q =
      match stripPrefix new q with
      | some r => find fs (old ++ r)
      | none => if (stripPrefix old q).isSome then none else find fs q := by
  induction fs with
  | nil => cases stripPrefix new q <;> simp [moveTree, find]
  | cons e rest ih =>
    obtain ⟨k, o⟩ := e
    have hch' : hasChildren rest new = false := by
      simp only [hasChildren, List.any_cons, Bool.or_eq_false_iff] at hch
      exact hch.2
    have hk : ∀ a r, k ≠ new ++ a :: r := by
      intro a r hkr
      simp only [hasChildren, List.any_cons, Bool.or_eq_false_iff] at hch
      rw [hkr, stripPrefix_append] at hch
      exact Bool.noConfusion hch.1
    have ih' := ih hch'
    unfold moveTree at ih' ⊢
    by_cases hkn : k = new
    · subst hkn
      simp only [List.filter_cons, decide_True, Bool.not_true, Bool.false_eq_true, if_false]
      rw [ih']
      cases hq : stripPrefix k q with
      | none =>
        by_cases hoq : (stripPrefix old q).isSome
        · simp [hoq]
        · have : ¬ k = q := by
            intro hkq
            rw [hkq, (stripPrefix_eq_some (r := [])).mpr (by simp)] at hq
            cases hq
          simp [hoq, find, this]
      | some r =>
        have hne : ¬ k = old ++ r := by
          intro hk'
          rw [stripPrefix_eq_none] at h1
          exact h1 r hk'
        simp [find, hne]
    · simp only [List.filter_cons, hkn, decide_False, Bool.not_false, if_true, List.map_cons]
      cases hko : stripPrefix old k with
      | some r0 =>
        have hk0 := stripPrefix_eq_some.mp hko
        simp only [find]
        by_cases hq0 : new ++ r0 = q
        · subst hq0
          simp [stripPrefix_append, ← hk0, find]
        · rw [if_neg hq0, ih']
          cases hq : stripPrefix new q with
          | some r =>
            have hqr := stripPrefix_eq_some.mp hq
            have : ¬ k = old ++ r := by
              intro h
              rw [hk0] at h
              have := List.append_cancel_left h
              subst this
              exact hq0 hqr.symm
            simp [this]
          | none =>
            by_cases hoq : (stripPrefix old q).isSome
            · simp [hoq]
            · have : ¬ k = q := by
                intro h
                subst h
                simp [hko] at hoq
              simp [hoq, this]
      | none =>
        simp only [find]
        by_cases hkq : k = q
        · subst hkq
          have : stripPrefix new k = none := by
            rw [stripPrefix_eq_none]
            intro r hr
            cases r with
            | nil => exact hkn (by simpa using hr)
            | cons a r => exact hk a r hr
          simp [this, hko]
        · rw [if_neg hkq, ih']
          cases hq : stripPrefix new q with
          | some r =>
            have : ¬ k = old ++ r := by
              intro h
              rw [h, stripPrefix_append] at hko
              cases hko
            simp [this]
          | none => simp [hkq]

theorem find_erase (fs : FS) (p q : Path) :
    find (erase fs p) q = if q = p then none else find fs q :=
  find_filter_ne fs p q

theorem stat_erase (fs : FS) (p q : Path) (hp : p ≠ []) :
    stat (erase fs p) q = if q = p then none else stat fs q := by
  unfold stat
  by_cases hq : q = []
  · subst hq
    have : ¬ ([] : Path) = p := fun h => hp h.symm
    simp [this]
  · simp [hq, find_erase]

theorem find_of_stat {fs : FS} {p : Path} {o : Obj} (h : stat fs p = some o) (hp : p ≠ []) :
    find fs p = some o := by
  simpa [stat, hp] using h

theorem hasChildren_of_find {fs : FS} {p : Path} {a : Str} {r : Path} {o : Obj}
    (h : find fs (p ++ a :: r) = some o) : hasChildren fs p = true := by
  induction fs with
  | nil => simp [find] at h
  | cons e rest ih =>
    obtain ⟨k, o'⟩ := e
    simp only [hasChildren, List.any_cons, Bool.or_eq_true]
    by_cases hk : k = p ++ a :: r
    · left
      subst hk
      rw [stripPrefix_append]
    · right
      simp only [find, hk, if_false] at h
      exact ih h

/-- What a successful rename of a regular file does to every path. -/
theorem stat_rename_file {fs fs' : FS} {old new : Path} {c : Str}
    (ho : stat fs old = some (Obj.file c)) (h : rename fs old new = some fs') (q : Path) :
    stat fs' q =
      if old = new then stat fs q
      else if q = new then some (Obj.file c) else if q = old then none else stat fs q := by
  have hold := stat_file_ne_nil ho
  unfold rename at h
  rw [ho] at h
  by_cases hon : old = new
  · simp only [hon, if_true, Option.some.injEq] at h
    subst h
    simp [hon]
  · simp only [hon, if_false] at h ⊢
    by_cases hn : new = []
    · simp [hn] at h
    · simp only [hn, if_false] at h
      split at h
      · cases h
      · have key : fs' = put (erase fs old) new (Obj.file c) := by
          split at h
          · cases h
          · exact (Option.some.inj h).symm
        subst key
        rw [stat_put _ _ _ _ hn, stat_erase _ _ _ hold]

/-- The conditions under which a directory is renamed, and the result. -/
theorem rename_dir_cases {fs fs' : FS} {old new : Path}
    (ho : stat fs old = some Obj.dir) (h : rename fs old new = some fs') :
    (old = new ∧ fs' = fs) ∨
    (old ≠ new ∧ old ≠ [] ∧ new ≠ [] ∧ isDir fs (dirOf new) = true ∧
      stripPrefix old new = none ∧ stripPrefix new old = none ∧
      hasChildren fs new = false ∧ fs' = moveTree fs old new) := by
  unfold rename at h
  rw [ho] at h
  right
  by_cases h1 : old = [] ∨ new = []
  · simp [h1] at h
  · simp only [h1, if_false] at h
    by_cases h2 : isDir fs (dirOf new) = true
    · simp only [h2, Bool.not_true, Bool.false_eq_true, if_false] at h
      cases h3 : stripPrefix old new with
      | some r => simp [h3] at h
      | none =>
        simp only [h3, Option.isSome_none, Bool.false_eq_true, if_false] at h
        have hon : old ≠ new := by
          intro e
          have h9 := stripPrefix_append new []
          rw [List.append_nil] at h9
          rw [e, h9] at h3
          cases h3
        cases h4 : hasChildren fs new with
        | true => simp [h4] at h
        | false =>
          simp only [h4, Bool.false_eq_true, if_false] at h
          have key : fs' = moveTree fs old new := by
            split at h
            · cases h
            · exact (Option.some.inj h).symm
          have hold : old ≠ [] := fun hh => h1 (Or.inl hh)
          have hnew : new ≠ [] := fun hh => h1 (Or.inr hh)
          refine ⟨hon, hold, hnew, h2, rfl, ?_, rfl, key⟩
          cases h5 : stripPrefix new old with
          | none => rfl
          | some r =>
            exfalso
            have h6 := stripPrefix_eq_some.mp h5
            cases r with
            | nil => exact hon (by simpa using h6)
            | cons a r =>
              have h7 := find_of_stat ho hold
              rw [h6] at h7
              rw [hasChildren_of_find h7] at h4
              cases h4
    · simp [h2] at h

/-- A rename never replaces a directory: the target of a successful rename of
a directory is free, and a target that is a directory is always refused. -/
theorem rename_dir_free {fs fs' : FS} {old new : Path}
    (ho : stat fs old = some Obj.dir) (h : rename fs old new = some fs') :
    stat fs new = none := by
  unfold rename at h
  rw [ho] at h
  cases hs : stat fs new with
  | none => rfl
  | some o =>
    exfalso
    rw [hs] at h
    simp only [] at h
    repeat (split at h <;> try cases h)

theorem rename_onto_dir {fs : FS} {old new : Path}
    (hn : stat fs new = some Obj.dir) (hne : old ≠ new) : rename fs old new = none := by
  unfold rename
  cases ho : stat fs old with
  | none => rfl
  | some o =>
    cases o with
    | file c =>
      simp only [hne, if_false]
      repeat (split <;> try rfl)
      simp_all
    | dir =>
      simp only []
      repeat (split <;> try rfl)
      simp_all

/-- What a rename of a directory to another path does to every path. -/
theorem stat_moveTree {fs : FS} {old new : Path} (hold : old ≠ []) (hnew : new ≠ [])
    (h1 : stripPrefix old new = none) (h2 : stripPrefix new old = none)
    (hch : hasChildren fs new = false) (q : Path) :
    stat (moveTree fs old new) q =
      match stripPrefix new q with
      | some r => stat fs (old ++ r)
      | none => if (stripPrefix old q).isSome then none else stat fs q := by
  unfold stat
  by_cases hq : q = []
  · subst hq
    have e1 : stripPrefix new [] = none := by cases new <;> simp_all [stripPrefix]
    have e2 : stripPrefix old [] = none := by cases old <;> simp_all [stripPrefix]
    simp [e1, e2]
  · rw [if_neg hq, find_moveTree fs old new hch h1 h2 q]
    cases hs : stripPrefix new q with
    | none => simp [hq]
    | some r =>
      have : old ++ r ≠ [] := by simp [hold]
      simp [this]

theorem readFile_eq_some {fs : FS} {p : Path} {c : Str} :
    readFile fs p = some c ↔ stat fs p = some (Obj.file c) := by
  unfold readFile
  cases h : stat fs p with
  | none => simp
  | some o => cases o <;> simp

/-! ## Invariants of the traversals -/

/-- A property kept by every round of a loop is kept by the loop. -/
theorem forNames_inv (Q : FS → Prop) (body : FS → Str → Option (FS × Bool))
    (hbody : ∀ s n r, Q s → body s n = some r → Q r.1) :
    ∀ (ns : List Str) (fs : FS) (r : FS × Bool), Q fs → forNames body ns fs = some r → Q r.1 := by
  intro ns
  induction ns with
  | nil =>
    intro fs r hq h
    simp only [forNames, Option.some.injEq] at h
    subst h
    exact hq
  | cons n ns ih =>
    intro fs r hq h
    simp only [forNames] at h
    cases hb : body fs n with
    | none => simp [hb] at h
    | some r1 =>
      obtain ⟨fs1, ok⟩ := r1
      have hq1 : Q fs1 := hbody fs n (fs1, ok) hq hb
      cases ok with
      | false =>
        simp only [hb, Option.some.injEq] at h
        subst h
        exact hq1
      | true =>
        simp only [hb] at h
        exact ih fs1 r hq1 h

/-- A property of the filesystem that every rename attempted by the directory
pass keeps is kept by `renameFolder`. -/
theorem renameFolder_inv (cfg : Config) (Q : FS → Prop) (root : Path)
    (hstep : ∀ s d s', Q s → root <+: d → hasPlaceholder cfg (baseName d) = true →
      rename s d (parsePath (newPathStr cfg d)) = some s' → Q s') :
    ∀ (fuel : Nat) (fs : FS) (t : Path) (r : FS × Bool), root <+: t → Q fs →
      renameFolder cfg fuel fs t = some r → Q r.1 := by
  intro fuel
  induction fuel with
  | zero => intro fs t r _ _ h; simp [renameFolder] at h
  | succ fuel ih =>
    intro fs t r ht hq h
    simp only [renameFolder] at h
    cases hs : stat fs t with
    | none =>
      simp only [hs, Option.some.injEq] at h
      subst h; exact hq
    | some o =>
      cases o with
      | file c =>
        simp only [hs, Option.some.injEq] at h
        subst h; exact hq
      | dir =>
        simp only [hs] at h
        cases hl : forNames (fun s n => renameFolder cfg fuel s (t ++ [n])) (readDirNames fs t) fs with
        | none => simp [hl] at h
        | some r1 =>
          obtain ⟨fs1, ok⟩ := r1
          have hq1 : Q fs1 :=
            forNames_inv Q _ (fun s n r' hs' hb =>
              ih s (t ++ [n]) r' (ht.trans (List.prefix_append t [n])) hs' hb) _ fs (fs1, ok) hq hl
          cases ok with
          | false =>
            simp only [hl, Option.some.injEq] at h
            subst h; exact hq1
          | true =>
            simp only [hl] at h
            cases hp : hasPlaceholder cfg (baseName t) with
            | true =>
              simp only [hp, if_true] at h
              cases hr : rename fs1 t (parsePath (newPathStr cfg t)) with
              | none =>
                simp only [hr, Option.some.injEq] at h
                subst h; exact hq1
              | some fs2 =>
                simp only [hr, Option.some.injEq] at h
                subst h
                exact hstep fs1 t fs2 hq1 ht hp hr
            | false =>
              simp only [hp, Bool.false_eq_true, if_false, Option.some.injEq] at h
              subst h; exact hq1

/-- A property of the filesystem kept by every write to, and every rename of, a
regular file is kept by the walk callback. -/
theorem walkFn_inv (cfg : Config) (Q : FS → Prop) (p : Path)
    (hw : ∀ s c c', Q s → stat s p = some (Obj.file c) →
      (c' = substBoth cfg c ∨ (baseName p = "build-and-test.yml".toList ∧ c' = patchYml c)) →
      Q (put s p (Obj.file c')))
    (hr : ∀ s c s', Q s → stat s p = some (Obj.file c) →
      hasPlaceholder cfg (baseName p) = true →
      rename s p (joinStr (dirOf p) (substBoth cfg (baseName p))) = some s' → Q s')
    (fs : FS) (info : Option Obj) (hq : Q fs) : Q (walkFn cfg fs p info).1 := by
  unfold walkFn
  cases info with
  | none => exact hq
  | some o =>
    cases o with
    | dir => exact hq
    | file c0 =>
      simp only
      cases hrd : readFile fs p with
      | none => exact hq
      | some content =>
        have hst := readFile_eq_some.mp hrd
        have hpne := stat_file_ne_nil hst
        simp only [writeFile_existing _ hst, Option.getD_some]
        have hq1 : Q (put fs p (Obj.file (substBoth cfg content))) :=
          hw fs _ _ hq hst (Or.inl rfl)
        have hst1 : stat (put fs p (Obj.file (substBoth cfg content))) p =
            some (Obj.file (substBoth cfg content)) := by
          simp [stat_put _ _ _ _ hpne]
        generalize hfs1 : put fs p (Obj.file (substBoth cfg content)) = fs1 at hq1 hst1
        have hq2 : Q (if hasPlaceholder cfg (baseName p) = true then
              if joinStr (dirOf p) (substBoth cfg (baseName p)) ≠ p then
                (rename fs1 p (joinStr (dirOf p) (substBoth cfg (baseName p)))).getD fs1
              else fs1
            else fs1) := by
          by_cases hph : hasPlaceholder cfg (baseName p) = true
          · rw [if_pos hph]
            by_cases hne : joinStr (dirOf p) (substBoth cfg (baseName p)) ≠ p
            · rw [if_pos hne]
              cases hrn : rename fs1 p (joinStr (dirOf p) (substBoth cfg (baseName p))) with
              | none => exact hq1
              | some fs2 => exact hr fs1 _ fs2 hq1 hst1 hph hrn
            · rw [if_neg hne]; exact hq1
          · rw [if_neg hph]; exact hq1
        generalize (if hasPlaceholder cfg (baseName p) = true then
              if joinStr (dirOf p) (substBoth cfg (baseName p)) ≠ p then
                (rename fs1 p (joinStr (dirOf p) (substBoth cfg (baseName p)))).getD fs1
              else fs1
            else fs1) = fs2 at hq2
        unfold processBuildTestYml
        by_cases hn : baseName p ≠ "build-and-test.yml".toList
        · rw [if_pos hn]; exact hq2
        · rw [if_neg hn]
          cases hrd2 : readFile fs2 p with
          | none => exact hq2
          | some c2 =>
            have hst2 := readFile_eq_some.mp hrd2
            simp only [writeFile_existing _ hst2, Option.getD_some]
            exact hw fs2 _ _ hq2 hst2 (Or.inr ⟨not_not.mp hn, rfl⟩)

/-- A property of the filesystem kept by every write to, and every rename of, a
regular file at or below `root` is kept by the walk. -/
theorem walk_inv (cfg : Config) (Q : FS → Prop) (root : Path)
    (hw : ∀ s p c c', Q s → root <+: p → stat s p = some (Obj.file c) →
      (c' = substBoth cfg c ∨ (baseName p = "build-and-test.yml".toList ∧ c' = patchYml c)) →
      Q (put s p (Obj.file c')))
    (hr : ∀ s p c s', Q s → root <+: p → stat s p = some (Obj.file c) →
      hasPlaceholder cfg (baseName p) = true →
      rename s p (joinStr (dirOf p) (substBoth cfg (baseName p))) = some s' → Q s') :
    ∀ (fuel : Nat) (fs : FS) (t : Path) (info : Obj) (r : FS × Bool), root <+: t → Q fs →
      walk cfg fuel fs t info = some r → Q r.1 := by
  have hfn : ∀ (s : FS) (p : Path) (i : Option Obj), root <+: p → Q s →
      Q (walkFn cfg s p i).1 := fun s p i hp hq =>
    walkFn_inv cfg Q p (fun s c c' h1 h2 h3 => hw s p c c' h1 hp h2 h3)
      (fun s c s' h1 h2 h3 h4 => hr s p c s' h1 hp h2 h3 h4) s i hq
  intro fuel
  induction fuel with
  | zero => intro fs t info r _ _ h; simp [walk] at h
  | succ fuel ih =>
    intro fs t info r ht hq h
    simp only [walk] at h
    have hq1 := hfn fs t (some info) ht hq
    cases hwf : walkFn cfg fs t (some info) with
    | mk fs1 ok =>
      rw [hwf] at hq1 h
      cases ok with
      | false =>
        simp only [Option.some.injEq] at h
        subst h; exact hq1
      | true =>
        simp only at h hq1
        cases info with
        | file c =>
          simp only [Option.some.injEq] at h
          subst h; exact hq1
        | dir =>
          simp only at h
          by_cases hd : isDir fs1 t = true
          · rw [if_pos hd] at h
            refine forNames_inv Q _ ?_ _ fs1 r hq1 h
            intro s n r' hs hb
            have htn : root <+: t ++ [n] := ht.trans (List.prefix_append t [n])
            cases hst : stat s (t ++ [n]) with
            | none =>
              simp only [hst, Option.some.injEq] at hb
              subst hb
              exact hfn s (t ++ [n]) none htn hs
            | some o =>
              simp only [hst] at hb
              exact ih s (t ++ [n]) o r' htn hs hb
          · rw [if_neg hd] at h
            simp only [Option.some.injEq] at h
            subst h
            exact hfn fs1 t none ht hq1

/-- A property of the filesystem kept by every `MkdirAll` and every `WriteFile` at
or below `dest0` is kept by `copyDirectoriesAndFiles` into a destination at or
below `dest0`. -/
theorem copy_inv (Q : FS → Prop) (dest0 : Path)
    (hm : ∀ s d s', Q s → dest0 <+: d → mkdirAll s d = some s' → Q s')
    (hw : ∀ s d c s', Q s → dest0 <+: d → writeFile s d c = some s' → Q s') :
    ∀ (fuel : Nat) (fs : FS) (src dest : Path) (r : FS × Bool), dest0 <+: dest → Q fs →
      copyDirectoriesAndFiles fuel fs src dest = some r → Q r.1 := by
  intro fuel
  induction fuel with
  | zero => intro fs src dest r _ _ h; simp [copyDirectoriesAndFiles] at h
  | succ fuel ih =>
    intro fs src dest r hd hq h
    simp only [copyDirectoriesAndFiles] at h
    cases hs : stat fs src with
    | none =>
      simp only [hs] at h
      split at h <;> (cases h; exact hq)
    | some o =>
      cases o with
      | file c =>
        simp only [hs] at h
        cases hwf : writeFile fs dest c with
        | none =>
          simp only [hwf, Option.some.injEq] at h
          subst h; exact hq
        | some fs1 =>
          simp only [hwf, Option.some.injEq] at h
          subst h
          exact hw fs dest c fs1 hq hd hwf
      | dir =>
        simp only [hs] at h
        by_cases hsk : baseName src ∈ skipDirs
        · rw [if_pos hsk] at h
          simp only [Option.some.injEq] at h
          subst h; exact hq
        · rw [if_neg hsk] at h
          cases hmk : mkdirAll fs dest with
          | none =>
            simp only [hmk, Option.some.injEq] at h
            subst h; exact hq
          | some fs1 =>
            simp only [hmk] at h
            have hq1 : Q fs1 := hm fs dest fs1 hq hd hmk
            by_cases hsd : isDir fs1 src = true
            · rw [if_pos hsd] at h
              exact forNames_inv Q _ (fun s n r' hs' hb =>
                ih s (src ++ [n]) (dest ++ [n]) r' (hd.trans (List.prefix_append dest [n])) hs' hb)
                _ fs1 r hq1 h
            · rw [if_neg hsd] at h
              simp only [Option.some.injEq] at h
              subst h; exact hq1

/-- Objects present before `mkdirFrom` are still there afterwards. -/
theorem mkdirFrom_keeps {fs fs' : FS} {pre : Path} {l : List Str}
    (h : mkdirFrom fs pre l = some fs') {q : Path} {o : Obj} (hq : stat fs q = some o) :
    stat fs' q = some o := by
  induction l generalizing fs pre with
  | nil =>
    simp only [mkdirFrom, Option.some.injEq] at h
    subst h; exact hq
  | cons a l ih =>
    simp only [mkdirFrom] at h
    cases hs : stat fs (pre ++ [a]) with
    | none =>
      simp only [hs] at h
      refine ih h ?_
      have hne : pre ++ [a] ≠ [] := by simp
      rw [stat_put _ _ _ _ hne]
      have : q ≠ pre ++ [a] := by
        intro hqa
        rw [hqa, hs] at hq
        cases hq
      simp [this, hq]
    | some o' =>
      cases o' with
      | file c => simp [hs] at h
      | dir =>
        simp only [hs] at h
        exact ih h hq

/-- An object found after `mkdirFrom` was there before or is a directory on the
created path. -/
theorem mkdirFrom_new {fs fs' : FS} {pre : Path} {l : List Str}
    (h : mkdirFrom fs pre l = some fs') {q : Path} {o : Obj} (hq : stat fs' q = some o) :
    stat fs q = some o ∨
      (o = Obj.dir ∧ ∃ l1 l2, l1 ≠ [] ∧ l = l1 ++ l2 ∧ q = pre ++ l1) := by
  induction l generalizing fs pre with
  | nil =>
    simp only [mkdirFrom, Option.some.injEq] at h
    subst h; exact Or.inl hq
  | cons a l ih =>
    have lift : (o = Obj.dir ∧ ∃ l1 l2, l1 ≠ [] ∧ l = l1 ++ l2 ∧ q = (pre ++ [a]) ++ l1) →
        (o = Obj.dir ∧ ∃ l1 l2, l1 ≠ [] ∧ a :: l = l1 ++ l2 ∧ q = pre ++ l1) := by
      rintro ⟨ho, l1, l2, _, hl, hq'⟩
      exact ⟨ho, a :: l1, l2, by simp, by simp [hl], by simp [hq']⟩
    simp only [mkdirFrom] at h
    cases hs : stat fs (pre ++ [a]) with
    | none =>
      simp only [hs] at h
      rcases ih h with h1 | h1
      · have hne : pre ++ [a] ≠ [] := by simp
        rw [stat_put _ _ _ _ hne] at h1
        by_cases hqa : q = pre ++ [a]
        · right
          simp only [hqa, if_true, Option.some.injEq] at h1
          exact ⟨h1.symm, [a], l, by simp, by simp, hqa⟩
        · left
          simpa [hqa] using h1
      · exact Or.inr (lift h1)
    | some o' =>
      cases o' with
      | file c => simp [hs] at h
      | dir =>
        simp only [hs] at h
        rcases ih h with h1 | h1
        · exact Or.inl h1
        · exact Or.inr (lift h1)

/-! ## Facts about strings and paths -/

theorem replaceGo_of_not_contains (old new : Str) :
    ∀ s : Str, containsSub s old = false → replaceGo old new 0 s = s := by
  intro s
  induction s with
  | nil => intro _; rfl
  | cons c cs ih =>
    intro h
    simp only [containsSub, Bool.or_eq_false_iff] at h
    simp only [replaceGo, h.1, Bool.false_eq_true, if_false, ih h.2]

/-- A substitution whose pattern does not occur leaves the string as it is. -/
theorem replaceAll_of_not_contains {s old : Str} (new : Str)
    (h : containsSub s old = false) : replaceAll s old new = s := by
  have hne : old.isEmpty = false := by
    cases old with
    | nil => cases s <;> simp [containsSub] at h
    | cons a as => rfl
  simp only [replaceAll, hne, Bool.false_eq_true, if_false]
  exact replaceGo_of_not_contains old new s h

theorem splitSlash_of_not_mem : ∀ s : Str, '/' ∉ s → splitSlash s = [s] := by
  intro s
  induction s with
  | nil => intro _; rfl
  | cons c cs ih =>
    intro h
    have hc : ¬ c = '/' := fun hc => h (by simp [hc])
    have hcs : '/' ∉ cs := fun hm => h (List.mem_cons_of_mem _ hm)
    simp [splitSlash, ih hcs, hc]

/-- A string without separator that is neither empty nor a dot name is the path
of one segment. -/
theorem parsePath_segment {s : Str} (h1 : '/' ∉ s) (h2 : s ≠ []) (h3 : s ≠ ['.'])
    (h4 : s ≠ ['.', '.']) : parsePath s = [s] := by
  simp [parsePath, splitSlash_of_not_mem s h1, cleanOnto, h2, h3, h4]

theorem parsePath_newRootOf {value : Str} (h : '/' ∉ value) :
    parsePath (newRootOf value) = [newRootOf value] := by
  apply parsePath_segment
  · intro hm
    simp only [newRootOf, List.mem_append] at hm
    rcases hm with (hm | hm) | hm
    · revert hm; decide
    · revert hm; decide
    · exact h hm
  · simp [newRootOf]
  · simp [newRootOf]
  · simp [newRootOf]

/-- A regular file is never renamed onto a directory. -/
theorem rename_file_target {fs fs' : FS} {old new : Path} {c : Str}
    (ho : stat fs old = some (Obj.file c)) (h : rename fs old new = some fs')
    (hne : old ≠ new) : stat fs new ≠ some Obj.dir := by
  intro hn
  unfold rename at h
  rw [ho] at h
  simp only [hne, if_false] at h
  by_cases h1 : new = []
  · simp [h1] at h
  · simp only [h1, if_false] at h
    split at h
    · cases h
    · simp [hn] at h

/-- A write keeps every directory. -/
theorem writeFile_keeps_dir {fs fs' : FS} {d : Path} {c : Str}
    (h : writeFile fs d c = some fs') {q : Path} (hq : stat fs q = some Obj.dir) :
    stat fs' q = some Obj.dir := by
  unfold writeFile at h
  have hd : q ≠ d → d ≠ [] → fs' = put fs d (Obj.file c) → stat fs' q = some Obj.dir := by
    intro h1 h2 h3
    rw [h3, stat_put _ _ _ _ h2, if_neg h1, hq]
  cases hs : stat fs d with
  | none =>
    simp only [hs] at h
    have hqd : q ≠ d := by
      intro e; rw [e, hs] at hq; cases hq
    have hdn : d ≠ [] := by
      intro e; subst e; simp [stat] at hs
    split at h
    · exact hd hqd hdn (Option.some.inj h).symm
    · cases h
  | some o =>
    cases o with
    | dir => simp [hs] at h
    | file c0 =>
      simp only [hs] at h
      have hqd : q ≠ d := by
        intro e; rw [e, hs] at hq; cases hq
      exact hd hqd (stat_file_ne_nil hs) (Option.some.inj h).symm

/-- A directory stays a directory under a rename that does not move it or one of
the directories it lies in. -/
theorem rename_keeps_dir {fs fs' : FS} {old new R : Path}
    (h : rename fs old new = some fs') (hR : stat fs R = some Obj.dir)
    (hsrc : old <+: R → old = new) : stat fs' R = some Obj.dir := by
  by_cases hon : old = new
  · subst hon
    have : fs' = fs := by
      unfold rename at h
      cases hs : stat fs old with
      | none => simp [hs] at h
      | some o => cases o <;> simp [hs] at h <;> exact h.symm
    rw [this]; exact hR
  · have hnp : ¬ old <+: R := fun hp => hon (hsrc hp)
    cases hs : stat fs old with
    | none => simp [rename, hs] at h
    | some o =>
      cases o with
      | file c =>
        rw [stat_rename_file hs h R, if_neg hon]
        have h1 : R ≠ new := by
          intro e
          exact rename_file_target hs h hon (e ▸ hR)
        have h2 : R ≠ old := by
          intro e
          exact hnp (e ▸ List.prefix_refl _)
        simp [h1, h2, hR]
      | dir =>
        rcases rename_dir_cases hs h with ⟨e, _⟩ | ⟨_, hold, hnew, _, h1, h2, hch, hfs⟩
        · exact absurd e hon
        · rw [hfs, stat_moveTree hold hnew h1 h2 hch R]
          cases hq : stripPrefix new R with
          | some r =>
            have hRn := stripPrefix_eq_some.mp hq
            cases r with
            | nil => simpa using hs
            | cons a r =>
              exfalso
              have hRne : R ≠ [] := by rw [hRn]; simp
              have h7 := find_of_stat hR hRne
              rw [hRn] at h7
              rw [hasChildren_of_find h7] at hch
              cases hch
          | none =>
            have : (stripPrefix old R).isSome = false := by
              cases h5 : stripPrefix old R with
              | none => rfl
              | some r => exact absurd ⟨r, (stripPrefix_eq_some.mp h5).symm⟩ hnp
            simp [this, hR]

theorem baseName_append_singleton (t : Path) (n : Str) : baseName (t ++ [n]) = n := by
  induction t with
  | nil => rfl
  | cons a t ih =>
    cases t with
    | nil => rfl
    | cons b t => simpa [baseName] using ih

theorem dirOf_append_singleton (t : Path) (n : Str) : dirOf (t ++ [n]) = t := by
  simp [dirOf]

/-- The callback on a regular file, step by step. -/
theorem walkFn_file (cfg : Config) {fs : FS} {p : Path} {c : Str} (info : Str)
    (h : stat fs p = some (Obj.file c)) :
    walkFn cfg fs p (some (Obj.file info)) =
      processBuildTestYml
        (if hasPlaceholder cfg (baseName p) = true then
          if joinStr (dirOf p) (substBoth cfg (baseName p)) ≠ p then
            (rename (put fs p (Obj.file (substBoth cfg c))) p
              (joinStr (dirOf p) (substBoth cfg (baseName p)))).getD
              (put fs p (Obj.file (substBoth cfg c)))
          else put fs p (Obj.file (substBoth cfg c))
        else put fs p (Obj.file (substBoth cfg c)))
        p (baseName p) := by
  simp only [walkFn, readFile_eq_some.mpr h, writeFile_existing _ h, Option.getD_some]

/-- The walk of a regular file is one call of the callback. -/
theorem walk_file (cfg : Config) (fuel : Nat) (fs : FS) (p : Path) (c : Str) :
    walk cfg (fuel + 1) fs p (Obj.file c) = some (walkFn cfg fs p (some (Obj.file c))) := by
  rw [walk]
  generalize walkFn cfg fs p (some (Obj.file c)) = r
  obtain ⟨a, b⟩ := r
  cases b <;> rfl

/-- The walk of a directory is the loop over its sorted entries. -/
theorem walk_dir (cfg : Config) (fuel : Nat) (fs : FS) (t : Path)
    (hd : stat fs t = some Obj.dir) :
    walk cfg (fuel + 1) fs t Obj.dir =
      forNames (fun s n =>
          match stat s (t ++ [n]) with
          | none => some (walkFn cfg s (t ++ [n]) none)
          | some o => walk cfg fuel s (t ++ [n]) o)
        (readDirNames fs t) fs := by
  have hdir : isDir fs t = true := by simp [isDir, hd]
  rw [walk]
  have : walkFn cfg fs t (some Obj.dir) = (fs, true) := rfl
  rw [this]
  simp only [hdir, if_true]

/-- A write creates no directory. -/
theorem writeFile_dir_inv {fs fs' : FS} {d : Path} {c : Str}
    (h : writeFile fs d c = some fs') {q : Path} (hq : stat fs' q = some Obj.dir) :
    stat fs q = some Obj.dir := by
  unfold writeFile at h
  have key : d ≠ [] → fs' = put fs d (Obj.file c) → stat fs q = some Obj.dir := by
    intro h2 h3
    rw [h3, stat_put _ _ _ _ h2] at hq
    by_cases hqd : q = d
    · simp [hqd] at hq
    · simpa [hqd] using hq
  cases hs : stat fs d with
  | none =>
    simp only [hs] at h
    have hdn : d ≠ [] := by
      intro e; subst e; simp [stat] at hs
    split at h
    · exact key hdn (Option.some.inj h).symm
    · cases h
  | some o =>
    cases o with
    | dir => simp [hs] at h
    | file c0 =>
      simp only [hs] at h
      exact key (stat_file_ne_nil hs) (Option.some.inj h).symm

/-- A property of the filesystem kept by every write and by every `MkdirAll` of a
destination whose segments below `dest0` are names outside the skip set is kept
by `copyDirectoriesAndFiles`. -/
theorem copy_inv_skip (Q : FS → Prop) (dest0 : Path)
    (hm : ∀ s rel s', Q s → (∀ m ∈ rel, m ∉ skipDirs) →
      mkdirAll s (dest0 ++ rel) = some s' → Q s')
    (hw : ∀ s d c s', Q s → writeFile s d c = some s' → Q s') :
    ∀ (fuel : Nat) (fs : FS) (src rel : Path) (r : FS × Bool),
      (∀ m ∈ rel.dropLast, m ∉ skipDirs) → (rel ≠ [] → rel.getLast? = some (baseName src)) →
      Q fs → copyDirectoriesAndFiles fuel fs src (dest0 ++ rel) = some r → Q r.1 := by
  intro fuel
  induction fuel with
  | zero => intro fs src rel r _ _ _ h; simp [copyDirectoriesAndFiles] at h
  | succ fuel ih =>
    intro fs src rel r h1 h2 hq h
    simp only [copyDirectoriesAndFiles] at h
    cases hs : stat fs src with
    | none =>
      simp only [hs] at h
      split at h <;> (cases h; exact hq)
    | some o =>
      cases o with
      | file c =>
        simp only [hs] at h
        cases hwf : writeFile fs (dest0 ++ rel) c with
        | none =>
          simp only [hwf, Option.some.injEq] at h
          subst h; exact hq
        | some fs1 =>
          simp only [hwf, Option.some.injEq] at h
          subst h
          exact hw fs _ c fs1 hq hwf
      | dir =>
        simp only [hs] at h
        by_cases hsk : baseName src ∈ skipDirs
        · rw [if_pos hsk] at h
          simp only [Option.some.injEq] at h
          subst h; exact hq
        · rw [if_neg hsk] at h
          have hall : ∀ m ∈ rel, m ∉ skipDirs := by
            intro m hm'
            rcases List.eq_nil_or_concat rel with e | ⟨l, a, e⟩
            · subst e; cases hm'
            · rw [List.concat_eq_append] at e
              subst e
              have ha : a = baseName src := by
                have := h2 (by simp)
                simpa using this
              have h1' : ∀ m ∈ l, m ∉ skipDirs := by
                intro m hm0
                apply h1 m
                simpa using hm0
              rcases List.mem_append.mp hm' with hm'' | hm''
              · exact h1' m hm''
              · have : m = a := by simpa using hm''
                rw [this, ha]; exact hsk
          cases hmk : mkdirAll fs (dest0 ++ rel) with
          | none =>
            simp only [hmk, Option.some.injEq] at h
            subst h; exact hq
          | some fs1 =>
            simp only [hmk] at h
            have hq1 : Q fs1 := hm fs rel fs1 hq hall hmk
            by_cases hsd : isDir fs1 src = true
            · rw [if_pos hsd] at h
              refine forNames_inv Q _ ?_ _ fs1 r hq1 h
              intro s n r' hs' hb
              have hb' : copyDirectoriesAndFiles fuel s (src ++ [n]) (dest0 ++ (rel ++ [n])) =
                  some r' := by
                rw [← List.append_assoc]; exact hb
              refine ih s (src ++ [n]) (rel ++ [n]) r' ?_ ?_ hs' hb'
              · simpa [List.dropLast_concat] using hall
              · intro _
                simp [baseName_append_singleton]
            · rw [if_neg hsd] at h
              simp only [Option.some.injEq] at h
              subst h; exact hq1

/-- What a successful write does to every path. -/
theorem writeFile_stat {fs fs' : FS} {d : Path} {c : Str}
    (h : writeFile fs d c = some fs') (q : Path) :
    stat fs' q = if q = d then some (Obj.file c) else stat fs q := by
  unfold writeFile at h
  have key : d ≠ [] → fs' = put fs d (Obj.file c) →
      stat fs' q = if q = d then some (Obj.file c) else stat fs q := by
    intro h2 h3
    rw [h3, stat_put _ _ _ _ h2]
  cases hs : stat fs d with
  | none =>
    simp only [hs] at h
    have hdn : d ≠ [] := by
      intro e; subst e; simp [stat] at hs
    split at h
    · exact key hdn (Option.some.inj h).symm
    · cases h
  | some o =>
    cases o with
    | dir => simp [hs] at h
    | file c0 =>
      simp only [hs] at h
      exact key (stat_file_ne_nil hs) (Option.some.inj h).symm

theorem mem_insertSorted (x y : Str) (l : List Str) :
    y ∈ insertSorted x l ↔ y = x ∨ y ∈ l := by
  induction l with
  | nil => simp [insertSorted]
  | cons a l ih =>
    simp only [insertSorted]
    split
    · simp
    · simp only [List.mem_cons, ih]
      tauto

theorem mem_sortNames (y : Str) (l : List Str) : y ∈ sortNames l ↔ y ∈ l := by
  induction l with
  | nil => simp [sortNames]
  | cons a l ih => simp [sortNames, mem_insertSorted, ih]

theorem mem_childNames (fs : FS) (p : Path) (n : Str) :
    n ∈ childNames fs p ↔ ∃ o, find fs (p ++ [n]) = some o := by
  induction fs with
  | nil => simp [childNames, find]
  | cons e rest ih =>
    obtain ⟨k, o⟩ := e
    unfold childNames at ih ⊢
    rw [List.filterMap_cons]
    by_cases hk : k = p ++ [n]
    · subst hk
      simp [stripPrefix_append, find]
    · have hfind : find ((k, o) :: rest) (p ++ [n]) = find rest (p ++ [n]) := by
        simp [find, hk]
      rw [hfind, ← ih]
      cases hsp : stripPrefix p k with
      | none => simp
      | some r =>
        have hkr := stripPrefix_eq_some.mp hsp
        cases r with
        | nil => simp
        | cons a r =>
          cases r with
          | nil =>
            have : ¬ a = n := by
              intro e; subst e; exact hk hkr
            simp only [List.mem_cons]
            constructor
            · rintro (e | e)
              · exact absurd e.symm this
              · exact e
            · intro e; exact Or.inr e
          | cons b r => simp

/-- The listing of a directory holds exactly the names bound directly below it. -/
theorem mem_readDirNames (fs : FS) (p : Path) (n : Str) :
    n ∈ readDirNames fs p ↔ ∃ o, find fs (p ++ [n]) = some o := by
  simp [readDirNames, mem_sortNames, mem_childNames]

theorem nodup_insertSorted {x : Str} {l : List Str} (hx : x ∉ l) (hl : l.Nodup) :
    (insertSorted x l).Nodup := by
  induction l with
  | nil => simp [insertSorted]
  | cons a l ih =>
    simp only [insertSorted]
    split
    · exact List.nodup_cons.mpr ⟨hx, hl⟩
    · have hxa : x ≠ a := fun e => hx (by simp [e])
      have hxl : x ∉ l := fun e => hx (List.mem_cons_of_mem _ e)
      have hl' := List.nodup_cons.mp hl
      refine List.nodup_cons.mpr ⟨?_, ih hxl hl'.2⟩
      rw [mem_insertSorted]
      rintro (e | e)
      · exact hxa e.symm
      · exact hl'.1 e

theorem nodup_sortNames {l : List Str} (hl : l.Nodup) : (sortNames l).Nodup := by
  induction l with
  | nil => simp [sortNames]
  | cons a l ih =>
    have hl' := List.nodup_cons.mp hl
    simp only [sortNames]
    exact nodup_insertSorted (by rw [mem_sortNames]; exact hl'.1) (ih hl'.2)

/-- A directory listing names every entry once. -/
theorem nodup_readDirNames (fs : FS) (p : Path) : (readDirNames fs p).Nodup :=
  nodup_sortNames (List.nodup_dedup _)

/-- A loop that ends without error has run, without error, the round of each of
its names. -/
theorem forNames_split {body : FS → Str → Option (FS × Bool)} {n : Str} :
    ∀ {ns : List Str} {fs fs' : FS}, n ∈ ns → forNames body ns fs = some (fs', true) →
      ∃ pre post sa sb, ns = pre ++ n :: post ∧ forNames body pre fs = some (sa, true) ∧
        body sa n = some (sb, true) ∧ forNames body post sb = some (fs', true) := by
  intro ns
  induction ns with
  | nil => intro fs fs' hn _; cases hn
  | cons m ns ih =>
    intro fs fs' hn h
    simp only [forNames] at h
    cases hb : body fs m with
    | none => simp [hb] at h
    | some r1 =>
      obtain ⟨fs1, ok⟩ := r1
      cases ok with
      | false => simp [hb] at h
      | true =>
        simp only [hb] at h
        by_cases hmn : n = m
        · subst hmn
          exact ⟨[], ns, fs, fs1, rfl, rfl, hb, h⟩
        · have hn' : n ∈ ns := by
            rcases List.mem_cons.mp hn with e | e
            · exact absurd e hmn
            · exact e
          obtain ⟨pre, post, sa, sb, e1, e2, e3, e4⟩ := ih hn' h
          refine ⟨m :: pre, post, sa, sb, by simp [e1], ?_, e3, e4⟩
          simp only [forNames, hb, e2]

/-- A property kept by the round of every name of the list is kept by the loop. -/
theorem forNames_inv_mem (Q : FS → Prop) (body : FS → Str → Option (FS × Bool)) :
    ∀ (ns : List Str), (∀ s n r, n ∈ ns → Q s → body s n = some r → Q r.1) →
      ∀ (fs : FS) (r : FS × Bool), Q fs → forNames body ns fs = some r → Q r.1 := by
  intro ns
  induction ns with
  | nil =>
    intro _ fs r hq h
    simp only [forNames, Option.some.injEq] at h
    subst h
    exact hq
  | cons n ns ih =>
    intro hbody fs r hq h
    simp only [forNames] at h
    cases hb : body fs n with
    | none => simp [hb] at h
    | some r1 =>
      obtain ⟨fs1, ok⟩ := r1
      have hq1 : Q fs1 := hbody fs n (fs1, ok) (by simp) hq hb
      cases ok with
      | false =>
        simp only [hb, Option.some.injEq] at h
        subst h
        exact hq1
      | true =>
        simp only [hb] at h
        exact ih (fun s m r' hm => hbody s m r' (List.mem_cons_of_mem _ hm)) fs1 r hq1 h

/-- Creating the directories of a destination leaves everything at and below a
source that does not overlap with the destination. -/
theorem mkdirAll_source_same {src0 dest0 : Path} (hd1 : ¬ src0 <+: dest0)
    (hd2 : ¬ dest0 <+: src0) {s s' : FS} {d : Path} (hd : dest0 <+: d)
    (h : mkdirAll s d = some s') {q : Path} (hq : src0 <+: q) : stat s' q = stat s q := by
  cases hsq : stat s q with
  | some o => exact mkdirFrom_keeps h hsq
  | none =>
    cases hsq' : stat s' q with
    | none => rfl
    | some o =>
      exfalso
      rcases mkdirFrom_new h hsq' with h1 | ⟨_, l1, l2, _, hl, hql⟩
      · rw [hsq] at h1; cases h1
      · simp only [List.nil_append] at hql
        have hqd : q <+: d := ⟨l2, by rw [hql, hl]⟩
        rcases List.prefix_or_prefix_of_prefix hqd hd with h2 | h2
        · exact hd1 (hq.trans h2)
        · rcases List.prefix_or_prefix_of_prefix hq h2 with h3 | h3
          · exact hd1 h3
          · exact hd2 h3

/-- A copy leaves everything at and below a source that does not overlap with the
destination. -/
theorem copy_source_same {src0 dest0 : Path} (hd1 : ¬ src0 <+: dest0)
    (hd2 : ¬ dest0 <+: src0) (s0 : FS) (fuel : Nat) (s : FS) (a d : Path) (r : FS × Bool)
    (hd : dest0 <+: d) (hs : ∀ q, src0 <+: q → stat s q = stat s0 q)
    (h : copyDirectoriesAndFiles fuel s a d = some r) :
    ∀ q, src0 <+: q → stat r.1 q = stat s0 q := by
  refine copy_inv (fun t => ∀ q, src0 <+: q → stat t q = stat s0 q) dest0 ?_ ?_
    fuel s a d r hd hs h
  · intro t d' t' ht hd' hmk q hq
    rw [mkdirAll_source_same hd1 hd2 hd' hmk hq]
    exact ht q hq
  · intro t d' c t' ht hd' hwf q hq
    rw [writeFile_stat hwf q]
    have : q ≠ d' := by
      intro e
      subst e
      rcases List.prefix_or_prefix_of_prefix hq hd' with h3 | h3
      · exact hd1 h3
      · exact hd2 h3
    rw [if_neg this]
    exact ht q hq

/-- A copy keeps every object that does not lie at or below its destination. -/
theorem copy_frame (fuel : Nat) (s : FS) (a d : Path) (r : FS × Bool) {x : Path} {o : Obj}
    (hx : ¬ d <+: x) (hs : stat s x = some o)
    (h : copyDirectoriesAndFiles fuel s a d = some r) : stat r.1 x = some o := by
  refine copy_inv (fun t => stat t x = some o) d ?_ ?_ fuel s a d r (List.prefix_refl _) hs h
  · intro t d' t' ht _ hmk
    exact mkdirFrom_keeps hmk ht
  · intro t d' c t' ht hd' hwf
    show stat t' x = some o
    rw [writeFile_stat hwf x]
    have : x ≠ d' := by
      intro e
      subst e
      exact hx hd'
    rw [if_neg this]
    exact ht

/-- The copy of a directory reaches every regular file below it whose containing
directories are not skipped, when source and destination do not overlap. -/
theorem copy_file_rel {src dest : Path} (hd1 : ¬ src <+: dest) (hd2 : ¬ dest <+: src) :
    ∀ (fuel : Nat) (s : FS) (sr rel : Path) (c : Str) (s' : FS),
      copyDirectoriesAndFiles fuel s (src ++ sr) (dest ++ sr) = some (s', true) →
      stat s (src ++ sr ++ rel) = some (Obj.file c) →
      (∀ r1 r2, rel = r1 ++ r2 → r2 ≠ [] →
        stat s (src ++ sr ++ r1) = some Obj.dir ∧ baseName (src ++ sr ++ r1) ∉ skipDirs) →
      stat s' (dest ++ sr ++ rel) = some (Obj.file c) := by
  intro fuel
  induction fuel with
  | zero => intro s sr rel c s' h; simp [copyDirectoriesAndFiles] at h
  | succ fuel ih =>
    intro s sr rel c s' h hf hdirs
    cases rel with
    | nil =>
      simp only [List.append_nil] at hf ⊢
      simp only [copyDirectoriesAndFiles, hf] at h
      cases hwf : writeFile s (dest ++ sr) c with
      | none => simp [hwf] at h
      | some s1 =>
        simp only [hwf, Option.some.injEq, Prod.mk.injEq, and_true] at h
        subst h
        rw [writeFile_stat hwf]
        simp
    | cons n rel' =>
      obtain ⟨hdir0, hsk0⟩ := hdirs [] (n :: rel') rfl (by simp)
      simp only [List.append_nil] at hdir0 hsk0
      simp only [copyDirectoriesAndFiles, hdir0] at h
      rw [if_neg hsk0] at h
      have hpfx : ∀ x : Path, src <+: src ++ sr ++ x := fun x => by
        rw [List.append_assoc]; exact List.prefix_append _ _
      cases hmk : mkdirAll s (dest ++ sr) with
      | none => simp [hmk] at h
      | some s1 =>
        simp only [hmk] at h
        have hsame1 : ∀ q, src <+: q → stat s1 q = stat s q := fun q hq =>
          mkdirAll_source_same hd1 hd2 (List.prefix_append _ _) hmk hq
        have hdir1 : isDir s1 (src ++ sr) = true := by
          simp [isDir, hsame1 _ (List.prefix_append _ _), hdir0]
        rw [if_pos hdir1] at h
        have hn : n ∈ readDirNames s1 (src ++ sr) := by
          rw [mem_readDirNames]
          have : ∃ o, stat s (src ++ sr ++ [n]) = some o := by
            cases rel' with
            | nil => exact ⟨_, hf⟩
            | cons m rel'' => exact ⟨_, (hdirs [n] (m :: rel'') rfl (by simp)).1⟩
          obtain ⟨o, ho⟩ := this
          have ho1 : stat s1 (src ++ sr ++ [n]) = some o := by
            rw [hsame1 _ (hpfx [n])]; exact ho
          exact ⟨o, find_of_stat ho1 (by simp)⟩
        obtain ⟨pre, post, sa, sb, hns, hpre, hbody, hpost⟩ := forNames_split hn h
        have hsamea : ∀ q, src <+: q → stat sa q = stat s q :=
          forNames_inv (fun t => ∀ q, src <+: q → stat t q = stat s q) _
            (fun t m r' ht hb =>
              copy_source_same hd1 hd2 s fuel t _ _ r'
                (by rw [List.append_assoc]; exact List.prefix_append _ _) ht hb)
            pre s1 (sa, true) hsame1 hpre
        have hb' : copyDirectoriesAndFiles fuel sa (src ++ (sr ++ [n])) (dest ++ (sr ++ [n])) =
            some (sb, true) := by
          simpa [List.append_assoc] using hbody
        have hX : stat sb (dest ++ (sr ++ [n]) ++ rel') = some (Obj.file c) := by
          refine ih sa (sr ++ [n]) rel' c sb hb' ?_ ?_
          · have e : src ++ (sr ++ [n]) ++ rel' = src ++ sr ++ n :: rel' := by simp
            rw [e, hsamea _ (hpfx _)]; exact hf
          · intro r1 r2 e hr2
            have := hdirs (n :: r1) r2 (by simp [e]) hr2
            have e' : src ++ (sr ++ [n]) ++ r1 = src ++ sr ++ n :: r1 := by simp
            rw [e', hsamea _ (hpfx _)]
            exact this
        have hnodup := nodup_readDirNames s1 (src ++ sr)
        rw [hns] at hnodup
        have hnpost : n ∉ post := by
          have := (List.nodup_append.mp hnodup).2.1
          exact (List.nodup_cons.mp this).1
        have hX' : stat sb (dest ++ sr ++ n :: rel') = some (Obj.file c) := by
          have e : dest ++ (sr ++ [n]) ++ rel' = dest ++ sr ++ n :: rel' := by simp
          rw [← e]; exact hX
        refine forNames_inv_mem (fun t => stat t (dest ++ sr ++ n :: rel') = some (Obj.file c))
          _ post ?_ sb (s', true) hX' hpost
        intro t m r' hm ht hb
        refine copy_frame fuel t _ _ r' ?_ ht hb
        intro hp
        have hp' : [m] <+: n :: rel' := (List.prefix_append_right_inj _).mp hp
        have : m = n := by
          obtain ⟨l, hl⟩ := hp'
          simp only [List.singleton_append, List.cons.injEq] at hl
          exact hl.1
        exact hnpost (this ▸ hm)

theorem mem_of_find {fs : FS} {q : Path} {o : Obj} (h : find fs q = some o) : (q, o) ∈ fs := by
  induction fs with
  | nil => simp [find] at h
  | cons e rest ih =>
    obtain ⟨k, o'⟩ := e
    by_cases hk : k = q
    · simp only [find, hk, if_true, Option.some.injEq] at h
      subst hk; subst h
      exact List.mem_cons_self _ _
    · simp only [find, hk, if_false] at h
      exact List.mem_cons_of_mem _ (ih h)

/-- In a placeholder-free tree, what `stat` finds at or below the root. -/
theorem placeholderFree_stat {cfg : Config} {fs : FS} {root q : Path} {o : Obj}
    (h : placeholderFree cfg fs root = true) (hq : root <+: q) (hne : q ≠ [])
    (hs : stat fs q = some o) :
    (q ≠ root → hasPlaceholder cfg (baseName q) = false) ∧
      ∀ c, o = Obj.file c → hasPlaceholder cfg c = false := by
  have hm := mem_of_find (find_of_stat hs hne)
  have := (List.all_eq_true.mp h) _ hm
  obtain ⟨r, hr⟩ := hq
  simp only [← hr, stripPrefix_append, Option.isSome_some, Bool.not_true, Bool.false_or,
    Bool.and_eq_true, Bool.or_eq_true, decide_eq_true_eq, Bool.not_eq_true'] at this
  refine ⟨?_, ?_⟩
  · intro hqr
    rcases this.1 with e | e
    · exact absurd (by rw [← hr]; exact e) hqr
    · rw [← hr]; exact e
  · intro c hc
    subst hc
    simpa using this.2

/-- A directory is never renamed to its own path. -/
theorem rename_dir_self {fs : FS} {d : Path} (h : stat fs d = some Obj.dir) :
    rename fs d d = none := by
  have h9 := stripPrefix_append d []
  rw [List.append_nil] at h9
  unfold rename
  rw [h]
  simp only [h9, Option.isSome_some, if_true]
  repeat (split <;> try rfl)

theorem ymlPatched_stat {fs : FS} {root q : Path} {c : Str}
    (h : ymlPatched fs root = true) (hq : root <+: q)
    (hs : stat fs q = some (Obj.file c)) (hb : baseName q = "build-and-test.yml".toList) :
    patchYml c = c := by
  have hm := mem_of_find (find_of_stat hs (stat_file_ne_nil hs))
  have := (List.all_eq_true.mp h) _ hm
  obtain ⟨r, hr⟩ := hq
  simp only [← hr, stripPrefix_append, Option.isSome_some, Bool.not_true, Bool.false_or,
    Bool.or_eq_true, bne_iff_ne, ne_eq, Bool.and_eq_true, Bool.not_eq_true'] at this
  rcases this with h1 | h1
  · exact absurd (by rw [hr]; exact hb) h1
  · unfold patchYml
    rw [replaceAll_of_not_contains _ h1.1.1, replaceAll_of_not_contains _ h1.1.2,
      replaceAll_of_not_contains _ h1.2]

theorem substBoth_of_not_hasPlaceholder {cfg : Config} {c : Str}
    (h : hasPlaceholder cfg c = false) : substBoth cfg c = c := by
  simp only [hasPlaceholder, Bool.or_eq_false_iff] at h
  unfold substBoth
  rw [replaceAll_of_not_contains _ h.1, replaceAll_of_not_contains _ h.2]

theorem rename_some_stat {fs fs' : FS} {old new : Path} (h : rename fs old new = some fs') :
    ∃ o, stat fs old = some o := by
  unfold rename at h
  cases hs : stat fs old with
  | none => simp [hs] at h
  | some o => exact ⟨o, rfl⟩

/-- A directory is never renamed onto a regular file. -/
theorem rename_dir_target {fs fs' : FS} {old new : Path}
    (ho : stat fs old = some Obj.dir) (h : rename fs old new = some fs') (hne : old ≠ new)
    (c : Str) : stat fs new ≠ some (Obj.file c) := by
  intro hn
  unfold rename at h
  rw [ho] at h
  simp only [hne, if_false] at h
  split at h
  · cases h
  · split at h
    · cases h
    · split at h
      · cases h
      · split at h
        · cases h
        · simp [hn] at h

/-- The rename of a regular file keeps every directory. -/
theorem rename_file_keeps_dir {fs fs' : FS} {old new R : Path} {c : Str}
    (ho : stat fs old = some (Obj.file c)) (h : rename fs old new = some fs')
    (hR : stat fs R = some Obj.dir) : stat fs' R = some Obj.dir := by
  rw [stat_rename_file ho h R]
  by_cases hon : old = new
  · rw [if_pos hon]; exact hR
  · rw [if_neg hon]
    have h1 : R ≠ new := fun e => rename_file_target ho h hon (e ▸ hR)
    have h2 : R ≠ old := by
      intro e; rw [e, ho] at hR; cases hR
    rw [if_neg h1, if_neg h2]; exact hR

/-- The rename of a directory keeps every regular file that does not lie in it. -/
theorem rename_dir_keeps_file {fs fs' : FS} {old new X : Path} {c : Str}
    (ho : stat fs old = some Obj.dir) (h : rename fs old new = some fs')
    (hX : stat fs X = some (Obj.file c)) (hsrc : old <+: X → old = new) :
    stat fs' X = some (Obj.file c) := by
  rcases rename_dir_cases ho h with ⟨_, e⟩ | ⟨hon, hold, hnew, _, h1, h2, hch, hfs⟩
  · rw [e]; exact hX
  · have hXne := stat_file_ne_nil hX
    rw [hfs, stat_moveTree hold hnew h1 h2 hch X]
    cases hq : stripPrefix new X with
    | some r =>
      exfalso
      have hXn := stripPrefix_eq_some.mp hq
      cases r with
      | nil =>
        have : X = new := by simpa using hXn
        exact rename_dir_target ho h hon c (this ▸ hX)
      | cons a r =>
        have h7 := find_of_stat hX hXne
        rw [hXn] at h7
        rw [hasChildren_of_find h7] at hch
        cases hch
    | none =>
      have : (stripPrefix old X).isSome = false := by
        cases h5 : stripPrefix old X with
        | none => rfl
        | some r =>
          exact absurd (hsrc ⟨r, (stripPrefix_eq_some.mp h5).symm⟩) hon
      simp [this, hX]

/-- The rename of a directory puts a regular file only where a regular file of
the directory is moved to. -/
theorem rename_dir_no_new_file {fs fs' : FS} {old new X : Path}
    (ho : stat fs old = some Obj.dir) (h : rename fs old new = some fs')
    (hX : ∀ c, stat fs X ≠ some (Obj.file c))
    (hnew : ∀ a r, X ≠ new ++ a :: r) (c : Str) : stat fs' X ≠ some (Obj.file c) := by
  rcases rename_dir_cases ho h with ⟨_, e⟩ | ⟨hon, hold, hnew', _, h1, h2, hch, hfs⟩
  · rw [e]; exact hX c
  · rw [hfs, stat_moveTree hold hnew' h1 h2 hch X]
    cases hq : stripPrefix new X with
    | some r =>
      have hXn := stripPrefix_eq_some.mp hq
      cases r with
      | nil => simp [ho]
      | cons a r => exact absurd hXn (hnew a r)
    | none =>
      by_cases h5 : (stripPrefix old X).isSome = true
      · simp [h5]
      · simp only [h5]
        exact hX c

/-- The directory pass below `t` keeps every directory that does not lie at or
below `t`. -/
theorem renameFolder_keeps_dir_above (cfg : Config) (fuel : Nat) (fs : FS) (t : Path)
    (r : FS × Bool) {X : Path} (hX : stat fs X = some Obj.dir) (hnp : ¬ t <+: X)
    (h : renameFolder cfg fuel fs t = some r) : stat r.1 X = some Obj.dir :=
  renameFolder_inv cfg (fun s => stat s X = some Obj.dir) t
    (fun _ _ _ hs hd _ hrn =>
      rename_keeps_dir hrn hs (fun hdx => absurd (hd.trans hdx) hnp))
    fuel fs t r (List.prefix_refl _) hX h

/-- A property of the filesystem that every rename of a directory attempted by the
directory pass keeps is kept by `renameFolder`. -/
theorem renameFolder_inv_dir (cfg : Config) (Q : FS → Prop) (root : Path)
    (hstep : ∀ s d s', Q s → root <+: d → stat s d = some Obj.dir →
      hasPlaceholder cfg (baseName d) = true →
      rename s d (parsePath (newPathStr cfg d)) = some s' → Q s') :
    ∀ (fuel : Nat) (fs : FS) (t : Path) (r : FS × Bool), root <+: t → Q fs →
      renameFolder cfg fuel fs t = some r → Q r.1 := by
  intro fuel
  induction fuel with
  | zero => intro fs t r _ _ h; simp [renameFolder] at h
  | succ fuel ih =>
    intro fs t r ht hq h
    simp only [renameFolder] at h
    cases hs : stat fs t with
    | none =>
      simp only [hs, Option.some.injEq] at h
      subst h; exact hq
    | some o =>
      cases o with
      | file c =>
        simp only [hs, Option.some.injEq] at h
        subst h; exact hq
      | dir =>
        simp only [hs] at h
        cases hl : forNames (fun s n => renameFolder cfg fuel s (t ++ [n])) (readDirNames fs t) fs with
        | none => simp [hl] at h
        | some r1 =>
          obtain ⟨fs1, ok⟩ := r1
          have hq1 : Q fs1 ∧ stat fs1 t = some Obj.dir :=
            forNames_inv (fun s => Q s ∧ stat s t = some Obj.dir) _ (fun s n r' hs' hb =>
              ⟨ih s (t ++ [n]) r' (ht.trans (List.prefix_append t [n])) hs'.1 hb,
               renameFolder_keeps_dir_above cfg fuel s (t ++ [n]) r' hs'.2
                (fun hp => by
                  have := hp.length_le
                  simp at this) hb⟩) _ fs (fs1, ok) ⟨hq, hs⟩ hl
          cases ok with
          | false =>
            simp only [hl, Option.some.injEq] at h
            subst h; exact hq1.1
          | true =>
            simp only [hl] at h
            cases hp : hasPlaceholder cfg (baseName t) with
            | true =>
              simp only [hp, if_true] at h
              cases hr : rename fs1 t (parsePath (newPathStr cfg t)) with
              | none =>
                simp only [hr, Option.some.injEq] at h
                subst h; exact hq1.1
              | some fs2 =>
                simp only [hr, Option.some.injEq] at h
                subst h
                exact hstep fs1 t fs2 hq1.1 ht hq1.2 hp hr
            | false =>
              simp only [hp, Bool.false_eq_true, if_false, Option.some.injEq] at h
              subst h; exact hq1.1

/-! ## The content pass and one file -/

theorem otherFilesApart_stat {cfg : Config} {fs : FS} {root f f' p : Path} {c : Str}
    (h : otherFilesApart cfg fs root f f' = true) (hp : root <+: p)
    (hs : stat fs p = some (Obj.file c)) (hpf : p ≠ f)
    (hph : hasPlaceholder cfg (baseName p) = true) (hT : fileTarget cfg p ≠ p) :
    fileTarget cfg p ≠ f ∧ fileTarget cfg p ≠ f' ∧
      (fileTarget cfg p = dirOf p ++ [substBoth cfg (baseName p)] ∨
        hasPlaceholder cfg (baseName (fileTarget cfg p)) = false) := by
  have hm := mem_of_find (find_of_stat hs (stat_file_ne_nil hs))
  have := (List.all_eq_true.mp h) _ hm
  obtain ⟨r, hr⟩ := hp
  simp only [← hr, stripPrefix_append, Option.isSome_some, Bool.not_true, Bool.false_or,
    Bool.or_eq_true, decide_eq_true_eq, Bool.not_eq_true', Bool.and_eq_true, ne_eq,
    decide_not] at this
  rw [hr] at this
  rcases this with ((h1 | h1) | h1) | h1
  · exact absurd h1 hpf
  · rw [hph] at h1; cases h1
  · exact absurd h1 hT
  · exact ⟨by simpa using h1.1.1, by simpa using h1.1.2, h1.2⟩

/-- A regular file is renamed to a free path in an existing directory. -/
theorem rename_file_ok {fs : FS} {old new : Path} {c : Str}
    (ho : stat fs old = some (Obj.file c)) (hne : old ≠ new) (hnn : new ≠ [])
    (hd : stat fs (dirOf new) = some Obj.dir) (hfree : stat fs new = none) :
    rename fs old new = some (put (erase fs old) new (Obj.file c)) := by
  have hd' : isDir fs (dirOf new) = true := by simp [isDir, hd]
  simp [rename, ho, hne, hnn, hd', hfree]

/-- A property of the state and of the entries still to visit that every round
keeps is kept by the loop. -/
theorem forNames_inv_rest {σ : Type} (A : σ → Prop) (B : List Str → σ → Prop)
    (body : σ → Str → Option (σ × Bool))
    (hstep : ∀ s m rest r, A s → B (m :: rest) s → body s m = some r → A r.1 ∧ B rest r.1) :
    ∀ (ns : List Str) (fs : σ) (r : σ × Bool), A fs → B ns fs → forNames body ns fs = some r →
      A r.1 ∧ (r.2 = true → B [] r.1) := by
  intro ns
  induction ns with
  | nil =>
    intro fs r ha hb h
    simp only [forNames, Option.some.injEq] at h
    subst h
    exact ⟨ha, fun _ => hb⟩
  | cons n ns ih =>
    intro fs r ha hb h
    simp only [forNames] at h
    cases hbd : body fs n with
    | none => simp [hbd] at h
    | some r1 =>
      obtain ⟨fs1, ok⟩ := r1
      obtain ⟨ha1, hb1⟩ := hstep fs n ns (fs1, ok) ha hb hbd
      cases ok with
      | false =>
        simp only [hbd, Option.some.injEq] at h
        subst h
        exact ⟨ha1, fun e => by cases e⟩
      | true =>
        simp only [hbd] at h
        exact ih fs1 r ha1 hb1 h

/-- An entry of `t` at or below the entry `m` of `t` is that entry. -/
theorem eq_of_dirOf_eq {t q : Path} {m : Str} (h1 : dirOf q = t) (h2 : t ++ [m] <+: q) :
    q = t ++ [m] := by
  obtain ⟨l, hl⟩ := h2
  have hlen := congrArg List.length h1
  rw [← hl] at hlen
  simp only [dirOf, List.length_dropLast, List.length_append, List.length_singleton,
    List.length_cons, List.length_nil] at hlen
  have : l = [] := List.length_eq_zero.mp (by omega)
  rw [← hl, this, List.append_nil]

/-- What lies below the entry `m` of `t` lies at or below no other entry of `t`. -/
theorem entry_eq_of_below {t q : Path} {m m' : Str} (h1 : t ++ [m] <+: dirOf q)
    (h2 : t ++ [m'] <+: q) : m = m' := by
  have h3 : t ++ [m] <+: q := h1.trans (List.dropLast_prefix q)
  have h4 : t ++ [m] <+: t ++ [m'] :=
    List.prefix_of_prefix_length_le h3 h2 (by simp)
  obtain ⟨l, hl⟩ := (List.prefix_append_right_inj t).mp h4
  simp only [List.singleton_append, List.cons.injEq] at hl
  exact hl.1

theorem entriesKnown_start {cfg : Config} {fs0 x : FS} {t : Path}
    (hk : KnownAt cfg fs0 x t) : EntriesKnown cfg fs0 x t (readDirNames x t) := by
  refine ⟨nodup_readDirNames x t, ?_⟩
  intro m hm
  obtain ⟨o, ho⟩ := (mem_readDirNames x t m).mp hm
  have hst : stat x (t ++ [m]) = some o := by simp [stat, ho]
  refine ⟨?_, ?_⟩
  · have := hk (t ++ [m]) o (List.prefix_append _ _) hst
    rwa [baseName_append_singleton] at this
  · intro q o' hq hs
    exact hk q o' ((List.prefix_append _ _).trans hq) hs

/-- The round of the entry `m` leaves the entries after it known. -/
theorem entriesKnown_step {cfg : Config} {fs0 y y' : FS} {t : Path} {m : Str}
    {rest : List Str} (hB : EntriesKnown cfg fs0 y t (m :: rest))
    (hN : NewWithin cfg y y' t (t ++ [m])) : EntriesKnown cfg fs0 y' t rest := by
  obtain ⟨hnd, hall⟩ := hB
  have hmr : m ∉ rest := (List.nodup_cons.mp hnd).1
  refine ⟨(List.nodup_cons.mp hnd).2, ?_⟩
  intro m' hm'
  obtain ⟨hL, hK⟩ := hall m' (List.mem_cons_of_mem _ hm')
  refine ⟨hL, ?_⟩
  intro q o hq hs
  rcases hN q o hs with ⟨o1, h1⟩ | h1 | h1 | h1
  · exact hK q o1 hq h1
  · have hqe := eq_of_dirOf_eq h1 hq
    rw [hqe, baseName_append_singleton]
    exact hL
  · exact absurd (entry_eq_of_below h1 hq ▸ hm') hmr
  · exact Or.inr h1

theorem newWithin_round {cfg : Config} {x0 y y' : FS} {t : Path} {m : Str}
    (h0 : NewWithin cfg x0 y (dirOf t) t) (hN : NewWithin cfg y y' t (t ++ [m])) :
    NewWithin cfg x0 y' (dirOf t) t := by
  intro q o hs
  rcases hN q o hs with ⟨o1, h1⟩ | h1 | h1 | h1
  · exact h0 q o1 h1
  · exact Or.inr (Or.inr (Or.inl (by rw [h1])))
  · exact Or.inr (Or.inr (Or.inl ((List.prefix_append _ _).trans h1)))
  · exact Or.inr (Or.inr (Or.inr h1))

/-- The callback on a regular file `t` other than `f` and `f'` that was in `fs0`
or has no placeholder in its name keeps what is at `f` and at `f'`, and binds
nothing new but an entry of the directory of `t`. -/
theorem walkFn_elsewhere {cfg : Config} {fs0 : FS} {root D f f' : Path}
    (hother : otherFilesApart cfg fs0 root f f' = true)
    (x : FS) (t : Path) (c : Str) (ht : root <+: t) (htf : t ≠ f ∧ t ≠ f')
    (hinfo : stat x t = some (Obj.file c))
    (hds : DirsStay fs0 x) (hk : KnownAt cfg fs0 x t) (hdk : DirsKept x root D) :
    (DirsStay fs0 (walkFn cfg x t (some (Obj.file c))).1 ∧
        DirsKept (walkFn cfg x t (some (Obj.file c))).1 root D) ∧
      NewWithin cfg x (walkFn cfg x t (some (Obj.file c))).1 (dirOf t) t ∧
      stat (walkFn cfg x t (some (Obj.file c))).1 f = stat x f ∧
      stat (walkFn cfg x t (some (Obj.file c))).1 f' = stat x f' := by
  have htne := stat_file_ne_nil hinfo
  refine walkFn_inv cfg
    (fun y => (DirsStay fs0 y ∧ DirsKept y root D) ∧ NewWithin cfg x y (dirOf t) t ∧
      stat y f = stat x f ∧ stat y f' = stat x f') t ?_ ?_ x (some (Obj.file c))
    ⟨⟨hds, hdk⟩, fun q o h => Or.inl ⟨o, h⟩, rfl, rfl⟩
  · rintro y c1 c' ⟨⟨h1, h2⟩, h3, h4, h5⟩ hst _
    refine ⟨⟨?_, ?_⟩, ?_, ?_, ?_⟩
    · intro q hq
      have hsq := h1 q hq
      have : q ≠ t := by
        intro e; rw [e, hst] at hsq; cases hsq
      rw [stat_put _ _ _ _ htne, if_neg this]; exact hsq
    · intro a ha1 ha2
      have hsa := h2 a ha1 ha2
      have : a ≠ t := by
        intro e; rw [e, hst] at hsa; cases hsa
      rw [stat_put _ _ _ _ htne, if_neg this]; exact hsa
    · intro q o hs
      rw [stat_put _ _ _ _ htne] at hs
      by_cases hqt : q = t
      · exact Or.inl ⟨_, hqt ▸ hinfo⟩
      · rw [if_neg hqt] at hs
        exact h3 q o hs
    · rw [stat_put _ _ _ _ htne, if_neg (Ne.symm htf.1)]; exact h4
    · rw [stat_put _ _ _ _ htne, if_neg (Ne.symm htf.2)]; exact h5
  · rintro y c1 y' ⟨⟨h1, h2⟩, h3, h4, h5⟩ hst hph hrn
    have hstat := stat_rename_file hst hrn
    by_cases hT : fileTarget cfg t = t
    · have hT' : t = joinStr (dirOf t) (substBoth cfg (baseName t)) := hT.symm
      simp only [← hT', if_true] at hstat
      refine ⟨⟨?_, ?_⟩, ?_, ?_, ?_⟩
      · intro q hq; rw [hstat]; exact h1 q hq
      · intro a ha1 ha2; rw [hstat]; exact h2 a ha1 ha2
      · intro q o hs; rw [hstat] at hs; exact h3 q o hs
      · rw [hstat]; exact h4
      · rw [hstat]; exact h5
    · -- the file was in `fs0`
      have hc0 : ∃ c0, stat fs0 t = some (Obj.file c0) := by
        rcases hk t _ (List.prefix_refl _) hinfo with ⟨o0, ho0⟩ | hno
        · cases o0 with
          | file c0 => exact ⟨c0, ho0⟩
          | dir =>
            have := hds t ho0
            rw [hinfo] at this; cases this
        · rw [hph] at hno; cases hno
      obtain ⟨c0, hc0⟩ := hc0
      obtain ⟨hTf, hTf', hTd⟩ := otherFilesApart_stat hother ht hc0 htf.1 hph hT
      have hT' : ¬ t = joinStr (dirOf t) (substBoth cfg (baseName t)) := fun e => hT e.symm
      simp only [hT', if_false] at hstat
      refine ⟨⟨?_, ?_⟩, ?_, ?_, ?_⟩
      · intro q hq
        exact rename_file_keeps_dir hst hrn (h1 q hq)
      · intro a ha1 ha2
        exact rename_file_keeps_dir hst hrn (h2 a ha1 ha2)
      · intro q o hs
        rw [hstat] at hs
        by_cases hq1 : q = joinStr (dirOf t) (substBoth cfg (baseName t))
        · rcases hTd with hd | hd
          · refine Or.inr (Or.inl ?_)
            rw [hq1]
            show dirOf (fileTarget cfg t) = dirOf t
            rw [hd, dirOf_append_singleton]
          · refine Or.inr (Or.inr (Or.inr ?_))
            rw [hq1]; exact hd
        · rw [if_neg hq1] at hs
          by_cases hq2 : q = t
          · rw [if_pos hq2] at hs; cases hs
          · rw [if_neg hq2] at hs
            exact h3 q o hs
      · rw [hstat, if_neg (fun e => hTf e.symm), if_neg (Ne.symm htf.1)]; exact h4
      · rw [hstat, if_neg (fun e => hTf' e.symm), if_neg (Ne.symm htf.2)]; exact h5

/-- A round of the loop of the walk over the directory `t`, on an entry whose
walk keeps what is at `f` and at `f'`. -/
theorem walk_round_elsewhere {cfg : Config} {fs0 : FS} {root D f f' : Path}
    (fuel : Nat) (t : Path) (P : Option Obj → Option Obj → Prop)
    (x0 x : FS) (m : Str) (rest : List Str) (r : FS × Bool)
    (hwalk : ∀ y o r', stat y (t ++ [m]) = some o → DirsStay fs0 y →
      KnownAt cfg fs0 y (t ++ [m]) → DirsKept y root D →
      walk cfg fuel y (t ++ [m]) o = some r' →
      (DirsStay fs0 r'.1 ∧ DirsKept r'.1 root D) ∧ NewWithin cfg y r'.1 t (t ++ [m]) ∧
        stat r'.1 f = stat y f ∧ stat r'.1 f' = stat y f')
    (hx : ((DirsStay fs0 x ∧ DirsKept x root D) ∧ NewWithin cfg x0 x (dirOf t) t) ∧
      P (stat x f) (stat x f'))
    (hB : EntriesKnown cfg fs0 x t (m :: rest))
    (hb : (match stat x (t ++ [m]) with
        | none => some (walkFn cfg x (t ++ [m]) none)
        | some o => walk cfg fuel x (t ++ [m]) o) = some r) :
    (((DirsStay fs0 r.1 ∧ DirsKept r.1 root D) ∧ NewWithin cfg x0 r.1 (dirOf t) t) ∧
      P (stat r.1 f) (stat r.1 f')) ∧ EntriesKnown cfg fs0 r.1 t rest := by
  cases hst : stat x (t ++ [m]) with
  | none =>
    simp only [hst, Option.some.injEq] at hb
    subst hb
    refine ⟨hx, (List.nodup_cons.mp hB.1).2, fun m' hm' => hB.2 m' (List.mem_cons_of_mem _ hm')⟩
  | some o =>
    simp only [hst] at hb
    obtain ⟨h1, h2, h3, h4⟩ := hwalk x o r hst hx.1.1.1
      (hB.2 m (List.mem_cons_self _ _)).2 hx.1.1.2 hb
    refine ⟨⟨⟨h1, newWithin_round hx.1.2 h2⟩, ?_⟩, entriesKnown_step hB h2⟩
    rw [h3, h4]; exact hx.2

/-- The walk of a subtree that holds neither `f` nor `f'` keeps what is at `f` and
at `f'`, when the other files of the tree are renamed apart from them; what it
binds anew lies in the subtree or the directory of its root. -/
theorem walk_elsewhere {cfg : Config} {fs0 : FS} {root D f f' : Path}
    (hother : otherFilesApart cfg fs0 root f f' = true) :
    ∀ (fuel : Nat) (x : FS) (t : Path) (info : Obj) (r : FS × Bool), root <+: t →
      (∀ p, t <+: p → p ≠ f ∧ p ≠ f') → stat x t = some info →
      DirsStay fs0 x → KnownAt cfg fs0 x t → DirsKept x root D →
      walk cfg fuel x t info = some r →
      (DirsStay fs0 r.1 ∧ DirsKept r.1 root D) ∧ NewWithin cfg x r.1 (dirOf t) t ∧
        stat r.1 f = stat x f ∧ stat r.1 f' = stat x f' := by
  intro fuel
  induction fuel with
  | zero => intro x t info r _ _ _ _ _ _ h; simp [walk] at h
  | succ fuel ih =>
    intro x t info r ht hapart hinfo hds hk hdk h
    cases info with
    | file c =>
      rw [walk_file, Option.some.injEq] at h
      subst h
      exact walkFn_elsewhere hother x t c ht (hapart t (List.prefix_refl _)) hinfo hds hk hdk
    | dir =>
      rw [walk_dir cfg fuel x t hinfo] at h
      have key := forNames_inv_rest
        (fun y => ((DirsStay fs0 y ∧ DirsKept y root D) ∧ NewWithin cfg x y (dirOf t) t) ∧
          (stat y f = stat x f ∧ stat y f' = stat x f'))
        (fun l y => EntriesKnown cfg fs0 y t l) _
        (fun y m rest r1 hy hB hb =>
          walk_round_elsewhere fuel t (fun a b => a = stat x f ∧ b = stat x f') x y m rest r1
            (fun y' o r' hs1 hs2 hs3 hs4 hw => by
              have := ih y' (t ++ [m]) o r' (ht.trans (List.prefix_append _ _))
                (fun p hp => hapart p ((List.prefix_append _ _).trans hp)) hs1 hs2 hs3 hs4 hw
              rwa [dirOf_append_singleton] at this)
            hy hB hb)
        (readDirNames x t) x r
        ⟨⟨⟨hds, hdk⟩, fun q o h => Or.inl ⟨o, h⟩⟩, rfl, rfl⟩ (entriesKnown_start hk) h
      exact ⟨key.1.1.1, key.1.1.2, key.1.2.1, key.1.2.2⟩

/-- The walk from a directory on the way to `f` rewrites and renames `f`, when it
ends without error. -/
theorem walk_reaches_file {cfg : Config} {fs0 : FS} {root D : Path} {n c : Str}
    (hother : otherFilesApart cfg fs0 root (D ++ [n]) (D ++ [substBoth cfg n]) = true)
    (hph : hasPlaceholder cfg n = true) (hyml : n ≠ "build-and-test.yml".toList)
    (hjoin : joinStr D (substBoth cfg n) = D ++ [substBoth cfg n]) (hroot : root <+: D) :
    ∀ (fuel : Nat) (s : FS) (t : Path) (info : Obj) (s' : FS), root <+: t → t <+: D ++ [n] →
      stat s t = some info →
      DirsStay fs0 s → KnownAt cfg fs0 s t → DirsKept s root D →
      FileBefore s (D ++ [n]) (D ++ [substBoth cfg n]) c →
      walk cfg fuel s t info = some (s', true) →
      ((DirsStay fs0 s' ∧ DirsKept s' root D) ∧ NewWithin cfg s s' (dirOf t) t) ∧
        FileAfter cfg s' (D ++ [n]) (D ++ [substBoth cfg n]) c := by
  intro fuel
  induction fuel with
  | zero => intro s t info s' _ _ _ _ _ _ _ h; simp [walk] at h
  | succ fuel ih =>
    intro s t info s' ht htf hinfo hds hk hdk hbefore h
    obtain ⟨rest, hrest⟩ := htf
    cases rest with
    | nil =>
      -- the file itself
      have htF : t = D ++ [n] := by simpa using hrest
      subst htF
      rw [hbefore.1] at hinfo
      have hinfo' : info = Obj.file c := (Option.some.inj hinfo).symm
      subst hinfo'
      have hFne : D ++ [n] ≠ [] := by simp
      rw [walk_file, walkFn_file cfg c hbefore.1, baseName_append_singleton,
        dirOf_append_singleton, if_pos hph, hjoin] at h
      have hD : stat s D = some Obj.dir := hdk D hroot (List.prefix_refl _)
      have hDF : D ≠ D ++ [n] := by
        intro e
        have := congrArg List.length e
        simp at this
      have hst1 : stat (put s (D ++ [n]) (Obj.file (substBoth cfg c))) (D ++ [n]) =
          some (Obj.file (substBoth cfg c)) := by
        simp [stat_put _ _ _ _ hFne]
      have hproc : ∀ x : FS, processBuildTestYml x (D ++ [n]) n = (x, true) := by
        intro x
        unfold processBuildTestYml
        rw [if_pos hyml]
      rw [hproc] at h
      by_cases hsame : D ++ [substBoth cfg n] = D ++ [n]
      · -- the name does not change
        rw [if_neg (not_not.mpr hsame)] at h
        simp only [Option.some.injEq, Prod.mk.injEq, and_true] at h
        subst h
        refine ⟨⟨⟨?_, ?_⟩, ?_⟩, ?_, ?_⟩
        · intro q hq
          have hsq := hds q hq
          have : q ≠ D ++ [n] := by
            intro e; rw [e, hbefore.1] at hsq; cases hsq
          rw [stat_put _ _ _ _ hFne, if_neg this]; exact hsq
        · intro a ha1 ha2
          have hsa := hdk a ha1 ha2
          have : a ≠ D ++ [n] := by
            intro e; rw [e, hbefore.1] at hsa; cases hsa
          rw [stat_put _ _ _ _ hFne, if_neg this]; exact hsa
        · intro q o hs
          rw [stat_put _ _ _ _ hFne] at hs
          by_cases hqF : q = D ++ [n]
          · exact Or.inl ⟨_, hqF ▸ hbefore.1⟩
          · rw [if_neg hqF] at hs
            exact Or.inl ⟨o, hs⟩
        · rw [hsame]; exact hst1
        · intro hne; exact absurd hsame hne
      · -- the file moves to its new name
        rw [if_pos hsame] at h
        have hfree : stat (put s (D ++ [n]) (Obj.file (substBoth cfg c)))
            (D ++ [substBoth cfg n]) = none := by
          rw [stat_put _ _ _ _ hFne, if_neg hsame]
          exact hbefore.2 hsame
        have hdir1 : stat (put s (D ++ [n]) (Obj.file (substBoth cfg c)))
            (dirOf (D ++ [substBoth cfg n])) = some Obj.dir := by
          rw [dirOf_append_singleton, stat_put _ _ _ _ hFne, if_neg hDF]
          exact hD
        rw [rename_file_ok hst1 (fun e => hsame e.symm) (by simp) hdir1 hfree] at h
        simp only [Option.getD_some, Option.some.injEq, Prod.mk.injEq, and_true] at h
        subst h
        have hF'ne : D ++ [substBoth cfg n] ≠ [] := by simp
        have hstat : ∀ q, stat (put (erase (put s (D ++ [n]) (Obj.file (substBoth cfg c)))
            (D ++ [n])) (D ++ [substBoth cfg n]) (Obj.file (substBoth cfg c))) q =
            if q = D ++ [substBoth cfg n] then some (Obj.file (substBoth cfg c))
            else if q = D ++ [n] then none else stat s q := by
          intro q
          rw [stat_put _ _ _ _ hF'ne, stat_erase _ _ _ hFne, stat_put _ _ _ _ hFne]
          by_cases h1 : q = D ++ [substBoth cfg n]
          · simp [h1]
          · by_cases h2 : q = D ++ [n]
            · simp [h1, h2]
            · simp [h1, h2]
        refine ⟨⟨⟨?_, ?_⟩, ?_⟩, ?_, ?_⟩
        · intro q hq
          have hsq := hds q hq
          have h1 : q ≠ D ++ [substBoth cfg n] := by
            intro e; rw [e, hbefore.2 hsame] at hsq; cases hsq
          have h2 : q ≠ D ++ [n] := by
            intro e; rw [e, hbefore.1] at hsq; cases hsq
          rw [hstat, if_neg h1, if_neg h2]; exact hsq
        · intro a ha1 ha2
          have hsa := hdk a ha1 ha2
          have h1 : a ≠ D ++ [substBoth cfg n] := by
            intro e; rw [e, hbefore.2 hsame] at hsa; cases hsa
          have h2 : a ≠ D ++ [n] := by
            intro e; rw [e, hbefore.1] at hsa; cases hsa
          rw [hstat, if_neg h1, if_neg h2]; exact hsa
        · intro q o hs
          rw [hstat] at hs
          by_cases h1 : q = D ++ [substBoth cfg n]
          · refine Or.inr (Or.inl ?_)
            rw [h1, dirOf_append_singleton, dirOf_append_singleton]
          · rw [if_neg h1] at hs
            by_cases h2 : q = D ++ [n]
            · rw [if_pos h2] at hs; cases hs
            · rw [if_neg h2] at hs
              exact Or.inl ⟨o, hs⟩
        · rw [hstat, if_pos rfl]
        · intro _
          rw [hstat, if_neg (fun e => hsame e.symm), if_pos rfl]
    | cons m rest' =>
      -- a directory on the way
      have htD : t <+: D := by
        cases List.eq_nil_or_concat rest' with
        | inl e =>
          subst e
          have := List.append_inj' hrest rfl
          exact ⟨[], by simpa using this.1⟩
        | inr e =>
          obtain ⟨l, a, e⟩ := e
          rw [List.concat_eq_append] at e
          subst e
          have : t ++ (m :: l) ++ [a] = D ++ [n] := by simpa using hrest
          exact ⟨m :: l, (List.append_inj' this rfl).1⟩
      have hdir := hdk t ht htD
      rw [hdir] at hinfo
      have hinfo' : info = Obj.dir := (Option.some.inj hinfo).symm
      subst hinfo'
      rw [walk_dir cfg fuel s t hdir] at h
      have hbound : ∃ o, stat s (t ++ [m]) = some o := by
        cases rest' with
        | nil =>
          have : t ++ [m] = D ++ [n] := hrest
          rw [this]; exact ⟨_, hbefore.1⟩
        | cons m2 rest'' =>
          refine ⟨_, hdk (t ++ [m]) (ht.trans (List.prefix_append _ _)) ?_⟩
          cases List.eq_nil_or_concat rest'' with
          | inl e =>
            subst e
            have : t ++ [m] ++ [m2] = D ++ [n] := by simpa using hrest
            exact ⟨[], by simpa using (List.append_inj' this rfl).1⟩
          | inr e =>
            obtain ⟨l, a, e⟩ := e
            rw [List.concat_eq_append] at e
            subst e
            have : t ++ [m] ++ (m2 :: l) ++ [a] = D ++ [n] := by simpa using hrest
            exact ⟨m2 :: l, (List.append_inj' this rfl).1⟩
      have hm : m ∈ readDirNames s t := by
        obtain ⟨o, ho⟩ := hbound
        rw [mem_readDirNames]
        exact ⟨o, find_of_stat ho (by simp)⟩
      obtain ⟨pre, post, sa, sb, hns, hpre, hbody, hpost⟩ := forNames_split hm h
      have hnodup := nodup_readDirNames s t
      rw [hns] at hnodup
      have hmpost : m ∉ post := (List.nodup_cons.mp (List.nodup_append.mp hnodup).2.1).1
      have hmpre : m ∉ pre := fun hmp =>
        (List.nodup_append.mp hnodup).2.2 hmp (List.mem_cons_self _ _)
      -- the other entries of the listing lead neither to `f` nor to `f'`
      have hapart : ∀ m', m' ∈ readDirNames s t → m' ≠ m →
          ∀ p, t ++ [m'] <+: p → p ≠ D ++ [n] ∧ p ≠ D ++ [substBoth cfg n] := by
        intro m' hm' hmm p hp
        have hfirst : ∀ (tail : Path), t ++ [m'] <+: t ++ m :: tail → False := by
          intro tail hpre'
          have := (List.prefix_append_right_inj t).mp hpre'
          obtain ⟨l, hl⟩ := this
          simp only [List.singleton_append, List.cons.injEq] at hl
          exact hmm hl.1
        constructor
        · intro e
          rw [e, ← hrest] at hp
          exact hfirst rest' hp
        · intro e
          rw [e] at hp
          cases rest' with
          | nil =>
            have htm : t ++ [m] = D ++ [n] := hrest
            have htD' := (List.append_inj' htm rfl)
            rw [← htD'.1] at hp
            have := (List.prefix_append_right_inj t).mp hp
            obtain ⟨l, hl⟩ := this
            simp only [List.singleton_append, List.cons.injEq] at hl
            have hm'n : m' = substBoth cfg n := hl.1
            by_cases hsame : D ++ [substBoth cfg n] = D ++ [n]
            · have : substBoth cfg n = n := by simpa using hsame
              have hmn : m = n := by simpa using htD'.2
              exact hmm (hm'n.trans (this.trans hmn.symm))
            · have hfree := hbefore.2 hsame
              rw [mem_readDirNames] at hm'
              obtain ⟨o, ho⟩ := hm'
              rw [hm'n, htD'.1] at ho
              have : stat s (D ++ [substBoth cfg n]) = some o := by
                simp [stat, ho]
              rw [hfree] at this; cases this
          | cons m2 rest'' =>
            cases List.eq_nil_or_concat rest'' with
            | inl e2 =>
              subst e2
              have : t ++ [m] ++ [m2] = D ++ [n] := by simpa using hrest
              have hD := (List.append_inj' this rfl).1
              rw [← hD] at hp
              exact hfirst [substBoth cfg n] (by simpa using hp)
            | inr e2 =>
              obtain ⟨l, a, e2⟩ := e2
              rw [List.concat_eq_append] at e2
              subst e2
              have : t ++ (m :: m2 :: l) ++ [a] = D ++ [n] := by simpa using hrest
              have hD := (List.append_inj' this rfl).1
              rw [← hD] at hp
              exact hfirst (m2 :: l ++ [substBoth cfg n]) (by simpa using hp)
      have hround : ∀ (P : Option Obj → Option Obj → Prop) (x : FS) (m' : Str)
          (rest : List Str) (r' : FS × Bool), m' ∈ readDirNames s t → m' ≠ m →
          ((DirsStay fs0 x ∧ DirsKept x root D) ∧ NewWithin cfg s x (dirOf t) t) ∧
            P (stat x (D ++ [n])) (stat x (D ++ [substBoth cfg n])) →
          EntriesKnown cfg fs0 x t (m' :: rest) →
          (match stat x (t ++ [m']) with
            | none => some (walkFn cfg x (t ++ [m']) none)
            | some o => walk cfg fuel x (t ++ [m']) o) = some r' →
          (((DirsStay fs0 r'.1 ∧ DirsKept r'.1 root D) ∧ NewWithin cfg s r'.1 (dirOf t) t) ∧
            P (stat r'.1 (D ++ [n])) (stat r'.1 (D ++ [substBoth cfg n]))) ∧
            EntriesKnown cfg fs0 r'.1 t rest := by
        intro P x m' rest r' hm' hmm hx hB hb
        exact walk_round_elsewhere fuel t P s x m' rest r'
          (fun y o r'' hs1 hs2 hs3 hs4 hw => by
            have := walk_elsewhere hother fuel y (t ++ [m']) o r''
              (ht.trans (List.prefix_append _ _)) (hapart m' hm' hmm) hs1 hs2 hs3 hs4 hw
            rwa [dirOf_append_singleton] at this)
          hx hB hb
      have hEK : EntriesKnown cfg fs0 s t (pre ++ m :: post) := by
        rw [← hns]; exact entriesKnown_start hk
      -- before the entry
      have hsa := forNames_inv_rest
        (fun x => ((DirsStay fs0 x ∧ DirsKept x root D) ∧ NewWithin cfg s x (dirOf t) t) ∧
          FileBefore x (D ++ [n]) (D ++ [substBoth cfg n]) c)
        (fun l x => (∀ m' ∈ l, m' ∈ pre) ∧ EntriesKnown cfg fs0 x t (l ++ m :: post)) _
        (fun x m' rest r' hx hB hb => by
          have hm'pre : m' ∈ pre := hB.1 m' (List.mem_cons_self _ _)
          have := hround
            (fun a b => a = some (Obj.file c) ∧ (D ++ [substBoth cfg n] ≠ D ++ [n] → b = none))
            x m' (rest ++ m :: post) r'
            (by rw [hns]; exact List.mem_append_left _ hm'pre)
            (fun e => hmpre (e ▸ hm'pre)) hx hB.2 hb
          exact ⟨this.1, fun m'' hm'' => hB.1 m'' (List.mem_cons_of_mem _ hm''), this.2⟩)
        pre s (sa, true)
        ⟨⟨⟨hds, hdk⟩, fun q o h => Or.inl ⟨o, h⟩⟩, hbefore⟩ ⟨fun _ h => h, hEK⟩ hpre
      have hEKa : EntriesKnown cfg fs0 sa t (m :: post) := (hsa.2 rfl).2
      -- the entry
      have hsb : ((DirsStay fs0 sb ∧ DirsKept sb root D) ∧ NewWithin cfg sa sb (dirOf (t ++ [m]))
          (t ++ [m])) ∧ FileAfter cfg sb (D ++ [n]) (D ++ [substBoth cfg n]) c := by
        cases hst : stat sa (t ++ [m]) with
        | none => simp [hst, walkFn] at hbody
        | some o =>
          simp only [hst] at hbody
          exact ih sa (t ++ [m]) o sb (ht.trans (List.prefix_append _ _))
            ⟨rest', by rw [← hrest]; simp⟩ hst hsa.1.1.1.1 (hEKa.2 m (List.mem_cons_self _ _)).2
            hsa.1.1.1.2 hsa.1.2 hbody
      rw [dirOf_append_singleton] at hsb
      have hEKb : EntriesKnown cfg fs0 sb t post := entriesKnown_step hEKa hsb.1.2
      -- after the entry
      have hfin := forNames_inv_rest
        (fun x => ((DirsStay fs0 x ∧ DirsKept x root D) ∧ NewWithin cfg s x (dirOf t) t) ∧
          FileAfter cfg x (D ++ [n]) (D ++ [substBoth cfg n]) c)
        (fun l x => (∀ m' ∈ l, m' ∈ post) ∧ EntriesKnown cfg fs0 x t l) _
        (fun x m' rest r' hx hB hb => by
          have hm'post : m' ∈ post := hB.1 m' (List.mem_cons_self _ _)
          have := hround
            (fun a b => b = some (Obj.file (substBoth cfg c)) ∧
              (D ++ [substBoth cfg n] ≠ D ++ [n] → a = none))
            x m' rest r'
            (by rw [hns]; exact List.mem_append_right _ (List.mem_cons_of_mem _ hm'post))
            (fun e => hmpost (e ▸ hm'post)) hx hB.2 hb
          exact ⟨this.1, fun m'' hm'' => hB.1 m'' (List.mem_cons_of_mem _ hm''), this.2⟩)
        post sb (s', true)
        ⟨⟨hsb.1.1, newWithin_round hsa.1.1.2 hsb.1.2⟩, hsb.2⟩ ⟨fun _ h => h, hEKb⟩ hpost
      exact hfin.1

/-! ## The directory pass and one directory -/

theorem otherDirsApart_stat {cfg : Config} {fs : FS} {root d d' e : Path}
    (h : otherDirsApart cfg fs root d d' = true) (hr : root <+: e) (hne : e ≠ [])
    (hs : stat fs e = some Obj.dir) (hed : e ≠ d)
    (hph : hasPlaceholder cfg (baseName e) = true) (hT : dirTarget cfg e ≠ e) :
    stripPrefix d (dirTarget cfg e) = none ∧ stripPrefix d' (dirTarget cfg e) = none ∧
      (dirTarget cfg e = dirOf e ++ [baseName (dirTarget cfg e)] ∨
        hasPlaceholder cfg (baseName (dirTarget cfg e)) = false) := by
  have hm := mem_of_find (find_of_stat hs hne)
  have := (List.all_eq_true.mp h) _ hm
  obtain ⟨r, hr⟩ := hr
  simp only [← hr, stripPrefix_append, Option.isSome_some, Bool.not_true, Bool.false_or,
    Bool.or_eq_true, decide_eq_true_eq, Bool.not_eq_true', Bool.and_eq_true,
    Option.not_isSome, Option.isNone_iff_eq_none] at this
  rw [hr] at this
  rcases this with ((h1 | h1) | h1) | h1
  · exact absurd h1 hed
  · rw [hph] at h1; cases h1
  · exact absurd h1 hT
  · exact ⟨h1.1.1, h1.1.2, h1.2⟩

theorem noNestedPlaceholder_stat {cfg : Config} {fs : FS} {root e : Path}
    (h : noNestedPlaceholder cfg fs root = true) (hr : root <+: e) (hne : e ≠ [])
    (hs : stat fs e = some Obj.dir) (hph : hasPlaceholder cfg (baseName e) = true)
    (hT : dirTarget cfg e ≠ e) (a : Str) (l : Path)
    (hs2 : stat fs (e ++ a :: l) = some Obj.dir) :
    hasPlaceholder cfg (baseName (e ++ a :: l)) = false := by
  have hm := mem_of_find (find_of_stat hs hne)
  have := (List.all_eq_true.mp h) _ hm
  obtain ⟨r, hr⟩ := hr
  simp only [← hr, stripPrefix_append, Option.isSome_some, Bool.not_true, Bool.false_or,
    Bool.or_eq_true, decide_eq_true_eq, Bool.not_eq_true'] at this
  rw [hr] at this
  rcases this with (h1 | h1) | h1
  · rw [hph] at h1; cases h1
  · exact absurd h1 hT
  · have hm2 := mem_of_find (find_of_stat hs2 (by simp))
    have := (List.all_eq_true.mp h1) _ hm2
    simpa [stripPrefix_append] using this

theorem prefix_of_proper {p D : Path} {x : Str} (h : p <+: D ++ [x]) (hne : p ≠ D ++ [x]) :
    p <+: D := by
  obtain ⟨l, hl⟩ := h
  cases List.eq_nil_or_concat l with
  | inl e =>
    subst e
    exact absurd (by simpa using hl) hne
  | inr e =>
    obtain ⟨l', a, e⟩ := e
    rw [List.concat_eq_append] at e
    subst e
    rw [← List.append_assoc] at hl
    exact ⟨l', (List.append_inj' hl rfl).1⟩

theorem baseName_append_cons (p : Path) (a : Str) (l : Path) :
    baseName (p ++ a :: l) = baseName (a :: l) := by
  induction p with
  | nil => rfl
  | cons b p ih =>
    cases p with
    | nil => simp [baseName]
    | cons c p => simpa [baseName] using ih

theorem apart_of_ne {t : Path} {m m' : Str} (h : m' ≠ m) (tl : Path) :
    ¬ t ++ [m'] <+: t ++ m :: tl ∧ ¬ t ++ m :: tl <+: t ++ [m'] := by
  constructor
  · intro hp
    obtain ⟨l, hl⟩ := (List.prefix_append_right_inj t).mp hp
    simp only [List.singleton_append, List.cons.injEq] at hl
    exact h hl.1
  · intro hp
    obtain ⟨l, hl⟩ := (List.prefix_append_right_inj t).mp hp
    simp only [List.cons_append, List.cons.injEq] at hl
    exact h hl.1.symm

/-- Two entries of `t` with a common path at or below them are the same entry. -/
theorem entry_eq_of_common {t q : Path} {m m' : Str} (h1 : t ++ [m] <+: q)
    (h2 : t ++ [m'] <+: q) : m = m' := by
  have h4 : t ++ [m] <+: t ++ [m'] := List.prefix_of_prefix_length_le h1 h2 (by simp)
  obtain ⟨l, hl⟩ := (List.prefix_append_right_inj t).mp h4
  simp only [List.singleton_append, List.cons.injEq] at hl
  exact hl.1

/-- The directory pass over a subtree without a directory that has a placeholder in
its name changes nothing. -/
theorem renameFolder_noop (cfg : Config) (fuel : Nat) (s : FS) (t : Path) (r : FS × Bool)
    (hno : ∀ q, t <+: q → stat s q = some Obj.dir → hasPlaceholder cfg (baseName q) = false)
    (h : renameFolder cfg fuel s t = some r) : r.1 = s := by
  refine renameFolder_inv_dir cfg (fun y => y = s) t ?_ fuel s t r (List.prefix_refl _) rfl h
  intro y e y' hy hte hse hph _
  exfalso
  subst hy
  rw [hno e hte hse] at hph
  cases hph

/-- What the rename of a directory keeps and what it binds anew. -/
theorem rename_dir_frame {s s' : FS} {e T : Path} (hse : stat s e = some Obj.dir)
    (hrn : rename s e T = some s') :
    (∀ q o, ¬ e <+: q → stat s q = some o → stat s' q = some o) ∧
    (∀ q o, stat s' q = some o → stat s q = some o ∨
      ∃ r, q = T ++ r ∧ stat s (e ++ r) = some o) := by
  have hfree := rename_dir_free hse hrn
  rcases rename_dir_cases hse hrn with ⟨_, e1⟩ | ⟨_, hene, hTne, _, h1, h2, hch, hfs⟩
  · subst e1
    exact ⟨fun q o _ hq => hq, fun q o hq => Or.inl hq⟩
  · have hstat := stat_moveTree hene hTne h1 h2 hch
    rw [← hfs] at hstat
    have hnoT : ∀ q o, stat s q = some o → stripPrefix T q = none := by
      intro q o hq
      cases hsp : stripPrefix T q with
      | none => rfl
      | some r =>
        exfalso
        have hq0 := stripPrefix_eq_some.mp hsp
        cases r with
        | nil =>
          rw [List.append_nil] at hq0
          rw [hq0, hfree] at hq
          cases hq
        | cons a l =>
          have hqne : q ≠ [] := by rw [hq0]; simp
          have h7 := find_of_stat hq hqne
          rw [hq0] at h7
          rw [hasChildren_of_find h7] at hch
          cases hch
    refine ⟨?_, ?_⟩
    · intro q o hne hq
      rw [hstat, hnoT q o hq]
      have : (stripPrefix e q).isSome = false := by
        cases h5 : stripPrefix e q with
        | none => rfl
        | some r1 => exact absurd ⟨r1, (stripPrefix_eq_some.mp h5).symm⟩ hne
      simp only [this, Bool.false_eq_true, if_false]
      exact hq
    · intro q o hq
      rw [hstat] at hq
      cases hsp : stripPrefix T q with
      | some r =>
        simp only [hsp] at hq
        exact Or.inr ⟨r, stripPrefix_eq_some.mp hsp, hq⟩
      | none =>
        simp only [hsp] at hq
        by_cases h5 : (stripPrefix e q).isSome = true
        · simp [h5] at hq
        · simp only [h5, if_false] at hq
          exact Or.inl hq

/-- A rename of a directory that lies apart from `D/n` and `D/n'` keeps what is at
and below both, and the directories down to `D`. -/
theorem rename_dir_elsewhere {cfg : Config} {fs0 : FS} {root D : Path} {n n' : Str}
    (hother : otherDirsApart cfg fs0 root (D ++ [n]) (D ++ [n']) = true)
    {s s' : FS} {e : Path} (hroot : root <+: e)
    (hie1 : ¬ e <+: D ++ [n]) (hie2 : ¬ D ++ [n] <+: e)
    (hie3 : ¬ e <+: D ++ [n']) (hie4 : ¬ D ++ [n'] <+: e)
    (hs0 : stat fs0 e = some Obj.dir) (hdk : DirsKept s root D)
    (hb : (∃ o, stat s (D ++ [n]) = some o) ∨ (∃ o, stat s (D ++ [n']) = some o))
    (hse : stat s e = some Obj.dir) (hph : hasPlaceholder cfg (baseName e) = true)
    (hrn : rename s e (dirTarget cfg e) = some s') :
    DirsKept s' root D ∧
      (∀ r, stat s' (D ++ n :: r) = stat s (D ++ n :: r)) ∧
      (∀ r, stat s' (D ++ n' :: r) = stat s (D ++ n' :: r)) := by
  rcases rename_dir_cases hse hrn with ⟨_, e1⟩ | ⟨hon, hene, hTne, _, h1, h2, hch, hfs⟩
  · subst e1
    exact ⟨hdk, fun _ => rfl, fun _ => rfl⟩
  · have hed : e ≠ D ++ [n] := fun e1 => hie1 (e1 ▸ List.prefix_refl _)
    obtain ⟨ha1, ha2, _⟩ := otherDirsApart_stat hother hroot hene hs0 hed hph
      (fun e1 => hon e1.symm)
    have hstat := stat_moveTree hene hTne h1 h2 hch
    rw [← hfs] at hstat
    -- paths at or below `D/x` are not touched
    have hfix : ∀ (x : Str), stripPrefix (D ++ [x]) (dirTarget cfg e) = none →
        ¬ e <+: D ++ [x] → ¬ D ++ [x] <+: e →
        ∀ r, stat s' (D ++ x :: r) = stat s (D ++ x :: r) := by
      intro x hx1 hx2 hx3 r
      have hXq : D ++ [x] <+: D ++ x :: r := ⟨r, by simp⟩
      rw [hstat]
      cases hq : stripPrefix (dirTarget cfg e) (D ++ x :: r) with
      | some r0 =>
        exfalso
        have hTq : dirTarget cfg e <+: D ++ x :: r := ⟨r0, (stripPrefix_eq_some.mp hq).symm⟩
        rcases List.prefix_or_prefix_of_prefix hTq hXq with h3 | h3
        · by_cases h4 : dirTarget cfg e = D ++ [x]
          · rw [h4, (stripPrefix_eq_some (r := [])).mpr (by simp)] at hx1
            cases hx1
          · obtain ⟨l, hl⟩ := prefix_of_proper h3 h4
            have hunder : ∀ y : Str, ∀ o, stat s (D ++ [y]) = some o → False := by
              intro y o ho
              have h7 := find_of_stat ho (by simp)
              rw [← hl, List.append_assoc] at h7
              cases l with
              | nil =>
                rw [hasChildren_of_find (r := []) (by simpa using h7)] at hch
                cases hch
              | cons b l =>
                rw [hasChildren_of_find (by simpa using h7)] at hch
                cases hch
            rcases hb with ⟨o, ho⟩ | ⟨o, ho⟩
            · exact hunder n o ho
            · exact hunder n' o ho
        · obtain ⟨l, hl⟩ := h3
          rw [← hl, stripPrefix_append] at hx1
          cases hx1
      | none =>
        have : (stripPrefix e (D ++ x :: r)).isSome = false := by
          cases h5 : stripPrefix e (D ++ x :: r) with
          | none => rfl
          | some r1 =>
            exfalso
            have heq : e <+: D ++ x :: r := ⟨r1, (stripPrefix_eq_some.mp h5).symm⟩
            rcases List.prefix_or_prefix_of_prefix heq hXq with h3 | h3
            · exact hx2 h3
            · exact hx3 h3
        simp [this]
    refine ⟨?_, hfix n ha1 hie1 hie2, hfix n' ha2 hie3 hie4⟩
    intro a ha1' ha2'
    refine rename_keeps_dir hrn (hdk a ha1' ha2') (fun hea => ?_)
    exact absurd (hea.trans (ha2'.trans (List.prefix_append _ _))) hie1

theorem entriesKnownDirs_start {cfg : Config} {fs0 s : FS} {t : Path}
    (hk : KnownDirsAt cfg fs0 s t) : EntriesKnownDirs cfg fs0 s t (readDirNames s t) := by
  refine ⟨nodup_readDirNames s t, ?_⟩
  intro m hm
  obtain ⟨o, ho⟩ := (mem_readDirNames s t m).mp hm
  refine ⟨⟨o, by simp [stat, ho]⟩, ?_⟩
  intro q hq hs hp
  exact hk q ((List.prefix_append _ _).trans hq) hs hp

/-- The round of the entry `m` leaves the entries after it bound and known. -/
theorem entriesKnownDirs_step {cfg : Config} {fs0 y y' : FS} {t : Path} {m : Str}
    {rest : List Str} (hB : EntriesKnownDirs cfg fs0 y t (m :: rest))
    (hS : StaysOutside y y' (t ++ [m])) (hN : NewBound cfg y y' t (t ++ [m])) :
    EntriesKnownDirs cfg fs0 y' t rest := by
  obtain ⟨hnd, hall⟩ := hB
  have hmr : m ∉ rest := (List.nodup_cons.mp hnd).1
  refine ⟨(List.nodup_cons.mp hnd).2, ?_⟩
  intro m' hm'
  obtain ⟨⟨o1, hbound⟩, hK⟩ := hall m' (List.mem_cons_of_mem _ hm')
  have hmm : m' ≠ m := fun e => hmr (e ▸ hm')
  refine ⟨⟨o1, hS _ o1 (apart_of_ne (t := t) hmm []).2 hbound⟩, ?_⟩
  intro q hq hs hp
  rcases hN q _ hs with h1 | ⟨x, hx1, hx2⟩ | h1 | h1
  · exact hK q hq h1 hp
  · rw [entry_eq_of_common hx1 hq, hbound] at hx2
    cases hx2
  · exact absurd (entry_eq_of_common h1 hq ▸ hm') hmr
  · exact absurd ⟨rfl, hp⟩ h1

theorem newInside_round {cfg : Config} {s y y' : FS} {t : Path} {m : Str}
    (h0 : NewInside cfg s y t) (hN : NewBound cfg y y' t (t ++ [m])) :
    NewInside cfg s y' t := by
  intro q o hs
  rcases hN q o hs with h1 | ⟨x, hx1, _⟩ | h1 | h1
  · exact h0 q o h1
  · exact Or.inr (Or.inl ((List.prefix_append _ _).trans hx1))
  · exact Or.inr (Or.inl ((List.prefix_append _ _).trans h1))
  · exact Or.inr (Or.inr h1)

theorem staysOutside_round {s y y' : FS} {t : Path} {m : Str}
    (h0 : StaysOutside s y t) (hS : StaysOutside y y' (t ++ [m])) : StaysOutside s y' t := by
  intro q o hq hs
  exact hS q o (fun h => hq ((List.prefix_append _ _).trans h)) (h0 q o hq hs)

theorem newBound_of_inside {cfg : Config} {s y : FS} {u t : Path}
    (h : NewInside cfg s y t) : NewBound cfg s y u t := by
  intro q o hs
  rcases h q o hs with h1 | h1 | h1
  · exact Or.inl h1
  · exact Or.inr (Or.inr (Or.inl h1))
  · exact Or.inr (Or.inr (Or.inr h1))

/-- Paths apart from `t` are apart from everything at or below `t`. -/
theorem apart_below {t e X : Path} (hte : t <+: e) (h1 : ¬ t <+: X) (h2 : ¬ X <+: t) :
    ¬ e <+: X ∧ ¬ X <+: e := by
  constructor
  · intro h3; exact h1 (hte.trans h3)
  · intro h3
    rcases List.prefix_or_prefix_of_prefix hte h3 with h4 | h4
    · exact h1 h4
    · exact h2 h4

/-- The directory pass over a subtree that lies apart from `D/n` and `D/n'` keeps
what is at and below both; what it binds anew lies in the subtree, or at or below
a new entry of the directory of its root, or is no directory with a
placeholder in its name. -/
theorem renameFolder_elsewhere {cfg : Config} {fs0 : FS} {root D : Path} {n n' : Str}
    (hother : otherDirsApart cfg fs0 root (D ++ [n]) (D ++ [n']) = true)
    (hnest : noNestedPlaceholder cfg fs0 root = true) :
    ∀ (fuel : Nat) (s : FS) (t : Path) (r : FS × Bool), root <+: t →
      ¬ t <+: D ++ [n] → ¬ D ++ [n] <+: t → ¬ t <+: D ++ [n'] → ¬ D ++ [n'] <+: t →
      DirsKept s root D → KnownDirsAt cfg fs0 s t →
      ((∃ o, stat s (D ++ [n]) = some o) ∨ (∃ o, stat s (D ++ [n']) = some o)) →
      renameFolder cfg fuel s t = some r →
      DirsKept r.1 root D ∧ (StaysOutside s r.1 t ∧ NewBound cfg s r.1 (dirOf t) t) ∧
        (∀ r0, stat r.1 (D ++ n :: r0) = stat s (D ++ n :: r0)) ∧
        (∀ r0, stat r.1 (D ++ n' :: r0) = stat s (D ++ n' :: r0)) := by
  intro fuel
  induction fuel with
  | zero => intro s t r _ _ _ _ _ _ _ _ h; simp [renameFolder] at h
  | succ fuel ih =>
    intro s t r hroot hi1 hi2 hi3 hi4 hdk hk hb h
    have hrefl : DirsKept s root D ∧ (StaysOutside s s t ∧ NewBound cfg s s (dirOf t) t) ∧
        (∀ r0, stat s (D ++ n :: r0) = stat s (D ++ n :: r0)) ∧
        (∀ r0, stat s (D ++ n' :: r0) = stat s (D ++ n' :: r0)) :=
      ⟨hdk, ⟨fun _ _ _ hq => hq, fun _ _ hq => Or.inl hq⟩, fun _ => rfl, fun _ => rfl⟩
    rw [renameFolder] at h
    cases hst : stat s t with
    | none =>
      simp only [hst, Option.some.injEq] at h
      subst h; exact hrefl
    | some o =>
      cases o with
      | file c =>
        simp only [hst, Option.some.injEq] at h
        subst h; exact hrefl
      | dir =>
        simp only [hst] at h
        cases hl : forNames (fun x k => renameFolder cfg fuel x (t ++ [k]))
            (readDirNames s t) s with
        | none => exact absurd h (by rw [hl]; simp)
        | some r1 =>
          obtain ⟨s1, ok⟩ := r1
          -- the loop over the entries
          have hloop := forNames_inv_rest
            (fun y => (DirsKept y root D ∧ StaysOutside s y t ∧ NewInside cfg s y t ∧
                stat y t = some Obj.dir) ∧
              (∀ r0, stat y (D ++ n :: r0) = stat s (D ++ n :: r0)) ∧
              (∀ r0, stat y (D ++ n' :: r0) = stat s (D ++ n' :: r0)))
            (fun l y => EntriesKnownDirs cfg fs0 y t l) _
            (fun y m rest r' hy hB hbd => by
              obtain ⟨⟨hy1, hy2, hy3, hy6⟩, hy4, hy5⟩ := hy
              have hap := apart_below (List.prefix_append t [m]) hi1 hi2
              have hap' := apart_below (List.prefix_append t [m]) hi3 hi4
              have hby : (∃ o, stat y (D ++ [n]) = some o) ∨
                  (∃ o, stat y (D ++ [n']) = some o) := by
                rcases hb with ⟨o, ho⟩ | ⟨o, ho⟩
                · exact Or.inl ⟨o, by rw [hy4 []]; exact ho⟩
                · exact Or.inr ⟨o, by rw [hy5 []]; exact ho⟩
              obtain ⟨k1, ⟨k2, k3⟩, k4, k5⟩ := ih y (t ++ [m]) r'
                (hroot.trans (List.prefix_append _ _)) hap.1 hap.2 hap'.1 hap'.2 hy1
                (hB.2 m (List.mem_cons_self _ _)).2 hby hbd
              rw [dirOf_append_singleton] at k3
              have htm : ¬ t ++ [m] <+: t := by
                intro hp
                have := hp.length_le
                simp at this
              exact ⟨⟨⟨k1, staysOutside_round hy2 k2, newInside_round hy3 k3,
                  k2 t _ htm hy6⟩,
                fun r0 => (k4 r0).trans (hy4 r0), fun r0 => (k5 r0).trans (hy5 r0)⟩,
                entriesKnownDirs_step hB k2 k3⟩)
            (readDirNames s t) s (s1, ok)
            ⟨⟨hdk, fun _ _ _ hq => hq, fun _ _ hq => Or.inl hq, hst⟩,
              fun _ => rfl, fun _ => rfl⟩
            (entriesKnownDirs_start hk) hl
          obtain ⟨⟨⟨a1, a2, a3, a6⟩, a4, a5⟩, _⟩ := hloop
          have hdone : DirsKept s1 root D ∧
              (StaysOutside s s1 t ∧ NewBound cfg s s1 (dirOf t) t) ∧
              (∀ r0, stat s1 (D ++ n :: r0) = stat s (D ++ n :: r0)) ∧
              (∀ r0, stat s1 (D ++ n' :: r0) = stat s (D ++ n' :: r0)) :=
            ⟨a1, ⟨a2, newBound_of_inside a3⟩, a4, a5⟩
          cases ok with
          | false =>
            simp only [hl, Option.some.injEq] at h
            subst h; exact hdone
          | true =>
            simp only [hl] at h
            cases hp : hasPlaceholder cfg (baseName t) with
            | false =>
              simp only [hp, Bool.false_eq_true, if_false, Option.some.injEq] at h
              subst h; exact hdone
            | true =>
              simp only [hp, if_true] at h
              cases hrn : rename s1 t (parsePath (newPathStr cfg t)) with
              | none =>
                simp only [hrn, Option.some.injEq] at h
                subst h; exact hdone
              | some s2 =>
                simp only [hrn, Option.some.injEq] at h
                subst h
                -- the directory `t` is renamed
                have hs0 : stat fs0 t = some Obj.dir := hk t (List.prefix_refl _) hst hp
                have htne : t ≠ [] := by
                  intro e
                  subst e
                  exact hi1 List.nil_prefix
                have hTt : dirTarget cfg t ≠ t := by
                  intro e
                  have e' : parsePath (newPathStr cfg t) = t := e
                  rw [e', rename_dir_self a6] at hrn
                  cases hrn
                have hinner : ∀ a l, stat s (t ++ a :: l) = some Obj.dir →
                    hasPlaceholder cfg (baseName (t ++ a :: l)) = false := by
                  intro a l hsd
                  cases hpp : hasPlaceholder cfg (baseName (t ++ a :: l)) with
                  | false => rfl
                  | true =>
                    have hs1 := hk (t ++ a :: l) (List.prefix_append _ _) hsd hpp
                    have := noNestedPlaceholder_stat hnest hroot htne hs0 hp hTt a l hs1
                    rw [hpp] at this
                    cases this
                have hs1 : s1 = s :=
                  forNames_inv (fun y => y = s) _ (fun y m r' hy hbd => by
                    subst hy
                    refine renameFolder_noop cfg fuel y (t ++ [m]) r' ?_ hbd
                    intro q hq hsq
                    obtain ⟨l', hl'⟩ := hq
                    rw [← hl', List.append_assoc] at hsq ⊢
                    exact hinner m l' hsq) _ s (s1, true) rfl hl
                subst hs1
                have hrn' : rename s1 t (dirTarget cfg t) = some s2 := hrn
                obtain ⟨k1, k3, k4⟩ := rename_dir_elsewhere hother hroot hi1 hi2 hi3 hi4
                  hs0 hdk hb hst hp hrn'
                obtain ⟨f1, f2⟩ := rename_dir_frame hst hrn'
                have hfree := rename_dir_free hst hrn'
                obtain ⟨_, _, hsame⟩ := otherDirsApart_stat hother hroot htne hs0
                  (fun e1 => hi1 (e1 ▸ List.prefix_refl _)) hp hTt
                refine ⟨k1, ⟨f1, ?_⟩, k3, k4⟩
                intro q o hq
                rcases f2 q o hq with h1 | ⟨r0, hq0, hsr⟩
                · exact Or.inl h1
                · rcases hsame with hsd | hsd
                  · refine Or.inr (Or.inl ⟨baseName (dirTarget cfg t), ?_, ?_⟩)
                    · rw [← hsd, hq0]; exact List.prefix_append _ _
                    · rw [← hsd]; exact hfree
                  · refine Or.inr (Or.inr (Or.inr ?_))
                    rintro ⟨ho, hpq⟩
                    subst ho
                    cases r0 with
                    | nil =>
                      rw [List.append_nil] at hq0
                      rw [hq0, hsd] at hpq
                      cases hpq
                    | cons a l =>
                      have := hinner a l hsr
                      rw [baseName_append_cons] at this
                      rw [hq0, baseName_append_cons, this] at hpq
                      cases hpq

/-- The visit of `D/n` by the directory pass, when it ends without error, moves
the directory with everything below it to `D/n'`. -/
theorem renameFolder_at_dir {cfg : Config} {fs0 : FS} {root D : Path} {n n' : Str}
    (hnest : noNestedPlaceholder cfg fs0 root = true)
    (hT : dirTarget cfg (D ++ [n]) = D ++ [n']) (hne : n' ≠ n)
    (hphn : hasPlaceholder cfg n = true) (hd0 : stat fs0 (D ++ [n]) = some Obj.dir)
    (hrootD : root <+: D) (fuel : Nat) (s s' : FS)
    (hdk : DirsKept s root D)
    (hA1 : ∀ r, stat s (D ++ n :: r) = stat fs0 (D ++ n :: r))
    (hA2 : ∀ r, stat s (D ++ n' :: r) = none)
    (h : renameFolder cfg fuel s (D ++ [n]) = some (s', true)) :
    DirsKept s' root D ∧
      (StaysOutside s s' (D ++ [n]) ∧ NewBound cfg s s' D (D ++ [n])) ∧
      (∀ r, stat s' (D ++ n' :: r) = stat fs0 (D ++ n :: r)) ∧
      (∀ r, stat s' (D ++ n :: r) = none) := by
  have hdne : D ++ [n] ≠ [] := by simp
  have hrootd : root <+: D ++ [n] := hrootD.trans (List.prefix_append _ _)
  have hTd : dirTarget cfg (D ++ [n]) ≠ D ++ [n] := by
    rw [hT]; intro e; exact hne (by simpa using e)
  have hphd : hasPlaceholder cfg (baseName (D ++ [n])) = true := by
    rw [baseName_append_singleton]; exact hphn
  -- no directory below `D/n` has a placeholder in its name
  have hinside : ∀ (a : Str) (l : Path), stat s (D ++ [n] ++ a :: l) = some Obj.dir →
      hasPlaceholder cfg (baseName (D ++ [n] ++ a :: l)) = false := by
    intro a l hs
    have e : D ++ [n] ++ a :: l = D ++ n :: (a :: l) := by simp
    have hs0 : stat fs0 (D ++ [n] ++ a :: l) = some Obj.dir := by
      rw [e, ← hA1]; rw [e] at hs; exact hs
    exact noNestedPlaceholder_stat hnest hrootd hdne hd0 hphd hTd a l hs0
  cases fuel with
  | zero => simp [renameFolder] at h
  | succ fuel =>
    have hsd : stat s (D ++ [n]) = some Obj.dir := by
      rw [← hd0]; exact hA1 []
    rw [renameFolder] at h
    simp only [hsd] at h
    cases hl : forNames (fun x m => renameFolder cfg fuel x (D ++ [n] ++ [m]))
        (readDirNames s (D ++ [n])) s with
    | none => exact absurd h (by rw [hl]; simp)
    | some r1 =>
      obtain ⟨s1, ok⟩ := r1
      have hs1 : s1 = s :=
        forNames_inv (fun x => x = s) _ (fun x m r' hx hb => by
          subst hx
          refine renameFolder_noop cfg fuel x (D ++ [n] ++ [m]) r' ?_ hb
          intro q hq hsq
          obtain ⟨l', hl'⟩ := hq
          rw [← hl', List.append_assoc] at hsq ⊢
          exact hinside m l' hsq) _ s (s1, ok) rfl hl
      subst hs1
      cases ok with
      | false => exact absurd h (by rw [hl]; simp)
      | true =>
        simp only [hl, hphd, if_true] at h
        have hT' : parsePath (newPathStr cfg (D ++ [n])) = D ++ [n'] := hT
        rw [hT'] at h
        cases hrn : rename s1 (D ++ [n]) (D ++ [n']) with
        | none => simp [hrn] at h
        | some s2 =>
          simp only [hrn, Option.some.injEq, Prod.mk.injEq, and_true] at h
          subst h
          obtain ⟨f1, f2⟩ := rename_dir_frame hsd hrn
          rcases rename_dir_cases hsd hrn with ⟨e, _⟩ | ⟨_, hold, hnew, _, h1, h2, hch, hfs⟩
          · exact absurd (by simpa using e) (Ne.symm hne)
          · have hstat := stat_moveTree hold hnew h1 h2 hch
            rw [← hfs] at hstat
            have hnoT : ∀ r, stripPrefix (D ++ [n']) (D ++ n :: r) = none := by
              intro r
              rw [stripPrefix_eq_none]
              intro r0 e
              have : n :: r = n' :: r0 := by
                have := List.append_cancel_left
                  (show D ++ (n :: r) = D ++ (n' :: r0) by simpa using e)
                exact this
              exact hne (by injection this with h3 _; exact h3.symm)
            refine ⟨?_, ⟨f1, ?_⟩, ?_, ?_⟩
            · intro a ha1 ha2
              refine rename_keeps_dir hrn (hdk a ha1 ha2) (fun hda => ?_)
              have := (hda.trans ha2).length_le
              simp at this
            · intro q o hq
              rcases f2 q o hq with h3 | ⟨r0, hq0, _⟩
              · exact Or.inl h3
              · refine Or.inr (Or.inl ⟨n', ?_, ?_⟩)
                · rw [hq0]; exact List.prefix_append _ _
                · have := hA2 []
                  simpa using this
            · intro r
              rw [hstat]
              have : stripPrefix (D ++ [n']) (D ++ n' :: r) = some r :=
                stripPrefix_eq_some.mpr (by simp)
              simp only [this]
              have e : D ++ [n] ++ r = D ++ n :: r := by simp
              rw [e]; exact hA1 r
            · intro r
              rw [hstat, hnoT r]
              have : stripPrefix (D ++ [n]) (D ++ n :: r) = some r :=
                stripPrefix_eq_some.mpr (by simp)
              simp [this]

/-- The loop of the directory pass over the entries of a directory on the way to
`D/n`: the rounds before and after the one leading to `D/n` keep what is at and
below `D/n` and `D/n'`. -/
theorem renameFolder_loop {cfg : Config} {fs0 : FS} {root D : Path} {n n' : Str}
    (hother : otherDirsApart cfg fs0 root (D ++ [n]) (D ++ [n']) = true)
    (hnest : noNestedPlaceholder cfg fs0 root = true)
    (hd0 : stat fs0 (D ++ [n]) = some Obj.dir)
    (fuel : Nat) (t : Path) (ns : List Str) (m : Str) (s s1 : FS)
    (hroot : root <+: t) (hm : m ∈ ns)
    (hap : ∀ m', m' ∈ ns → m' ≠ m →
      (¬ t ++ [m'] <+: D ++ [n] ∧ ¬ D ++ [n] <+: t ++ [m']) ∧
      (¬ t ++ [m'] <+: D ++ [n'] ∧ ¬ D ++ [n'] <+: t ++ [m']))
    (hvisit : ∀ sa sb, DirsKept sa root D → KnownDirsAt cfg fs0 sa (t ++ [m]) →
      (∀ r, stat sa (D ++ n :: r) = stat fs0 (D ++ n :: r)) →
      (∀ r, stat sa (D ++ n' :: r) = none) →
      renameFolder cfg fuel sa (t ++ [m]) = some (sb, true) →
      DirsKept sb root D ∧
        (StaysOutside sa sb (t ++ [m]) ∧ NewBound cfg sa sb t (t ++ [m])) ∧
        (∀ r, stat sb (D ++ n' :: r) = stat fs0 (D ++ n :: r)) ∧
        (∀ r, stat sb (D ++ n :: r) = none))
    (hs : DirsKept s root D ∧
      (∀ r, stat s (D ++ n :: r) = stat fs0 (D ++ n :: r)) ∧
      (∀ r, stat s (D ++ n' :: r) = none))
    (hEK : EntriesKnownDirs cfg fs0 s t ns)
    (h : forNames (fun x k => renameFolder cfg fuel x (t ++ [k])) ns s = some (s1, true)) :
    DirsKept s1 root D ∧ (StaysOutside s s1 t ∧ NewInside cfg s s1 t) ∧
      (∀ r, stat s1 (D ++ n' :: r) = stat fs0 (D ++ n :: r)) ∧
      (∀ r, stat s1 (D ++ n :: r) = none) := by
  obtain ⟨pre, post, sa, sb, hns, hpre, hbody, hpost⟩ := forNames_split hm h
  have hnd := hEK.1
  rw [hns] at hnd
  have hmpost : m ∉ post := (List.nodup_cons.mp (List.nodup_append.mp hnd).2.1).1
  have hmpre : m ∉ pre := fun hmp =>
    (List.nodup_append.mp hnd).2.2 hmp (List.mem_cons_self _ _)
  -- a round on another entry
  have hround : ∀ (y : FS) (m' : Str) (rest : List Str) (r' : FS × Bool), m' ∈ ns → m' ≠ m →
      DirsKept y root D → StaysOutside s y t → NewInside cfg s y t →
      ((∃ o, stat y (D ++ [n]) = some o) ∨ (∃ o, stat y (D ++ [n']) = some o)) →
      EntriesKnownDirs cfg fs0 y t (m' :: rest) →
      renameFolder cfg fuel y (t ++ [m']) = some r' →
      (DirsKept r'.1 root D ∧ StaysOutside s r'.1 t ∧ NewInside cfg s r'.1 t) ∧
        ((∀ r0, stat r'.1 (D ++ n :: r0) = stat y (D ++ n :: r0)) ∧
          (∀ r0, stat r'.1 (D ++ n' :: r0) = stat y (D ++ n' :: r0))) ∧
        EntriesKnownDirs cfg fs0 r'.1 t rest := by
    intro y m' rest r' hm' hmm hy1 hy2 hy3 hby hB hbd
    obtain ⟨⟨a1, a2⟩, a3, a4⟩ := hap m' hm' hmm
    obtain ⟨k1, ⟨k2, k3⟩, k4, k5⟩ := renameFolder_elsewhere hother hnest fuel y (t ++ [m']) r'
      (hroot.trans (List.prefix_append _ _)) a1 a2 a3 a4 hy1
      (hB.2 m' (List.mem_cons_self _ _)).2 hby hbd
    rw [dirOf_append_singleton] at k3
    exact ⟨⟨k1, staysOutside_round hy2 k2, newInside_round hy3 k3⟩, ⟨k4, k5⟩,
      entriesKnownDirs_step hB k2 k3⟩
  have hEK' : EntriesKnownDirs cfg fs0 s t (pre ++ m :: post) := by rw [← hns]; exact hEK
  -- before the entry
  have hsa := forNames_inv_rest
    (fun y => (DirsKept y root D ∧ StaysOutside s y t ∧ NewInside cfg s y t) ∧
      (∀ r, stat y (D ++ n :: r) = stat fs0 (D ++ n :: r)) ∧
      (∀ r, stat y (D ++ n' :: r) = none))
    (fun l y => (∀ m' ∈ l, m' ∈ pre) ∧ EntriesKnownDirs cfg fs0 y t (l ++ m :: post)) _
    (fun y m' rest r' hy hB hbd => by
      obtain ⟨⟨hy1, hy2, hy3⟩, hy4, hy5⟩ := hy
      have hm'pre : m' ∈ pre := hB.1 m' (List.mem_cons_self _ _)
      obtain ⟨k1, ⟨k4, k5⟩, k6⟩ := hround y m' (rest ++ m :: post) r'
        (by rw [hns]; exact List.mem_append_left _ hm'pre) (fun e => hmpre (e ▸ hm'pre))
        hy1 hy2 hy3 (Or.inl ⟨Obj.dir, by rw [hy4 []]; exact hd0⟩) hB.2 hbd
      exact ⟨⟨k1, fun r => (k4 r).trans (hy4 r), fun r => (k5 r).trans (hy5 r)⟩,
        fun m'' hm'' => hB.1 m'' (List.mem_cons_of_mem _ hm''), k6⟩)
    pre s (sa, true)
    ⟨⟨hs.1, fun _ _ _ hq => hq, fun _ _ hq => Or.inl hq⟩, hs.2.1, hs.2.2⟩
    ⟨fun _ hh => hh, hEK'⟩ hpre
  obtain ⟨⟨⟨b1, b2, b3⟩, b4, b5⟩, hBa⟩ := hsa
  have hEKa : EntriesKnownDirs cfg fs0 sa t (m :: post) := (hBa rfl).2
  -- the entry
  obtain ⟨c1, ⟨c2, c3⟩, c4, c5⟩ := hvisit sa sb b1 (hEKa.2 m (List.mem_cons_self _ _)).2
    b4 b5 hbody
  have hEKb : EntriesKnownDirs cfg fs0 sb t post := entriesKnownDirs_step hEKa c2 c3
  -- after the entry
  have hfin := forNames_inv_rest
    (fun y => (DirsKept y root D ∧ StaysOutside s y t ∧ NewInside cfg s y t) ∧
      (∀ r, stat y (D ++ n' :: r) = stat fs0 (D ++ n :: r)) ∧
      (∀ r, stat y (D ++ n :: r) = none))
    (fun l y => (∀ m' ∈ l, m' ∈ post) ∧ EntriesKnownDirs cfg fs0 y t l) _
    (fun y m' rest r' hy hB hbd => by
      obtain ⟨⟨hy1, hy2, hy3⟩, hy4, hy5⟩ := hy
      have hm'post : m' ∈ post := hB.1 m' (List.mem_cons_self _ _)
      obtain ⟨k1, ⟨k4, k5⟩, k6⟩ := hround y m' rest r'
        (by rw [hns]; exact List.mem_append_right _ (List.mem_cons_of_mem _ hm'post))
        (fun e => hmpost (e ▸ hm'post))
        hy1 hy2 hy3 (Or.inr ⟨Obj.dir, by rw [hy4 []]; exact hd0⟩) hB.2 hbd
      exact ⟨⟨k1, fun r => (k5 r).trans (hy4 r), fun r => (k4 r).trans (hy5 r)⟩,
        fun m'' hm'' => hB.1 m'' (List.mem_cons_of_mem _ hm''), k6⟩)
    post sb (s1, true)
    ⟨⟨c1, staysOutside_round b2 c2, newInside_round b3 c3⟩, c4, c5⟩
    ⟨fun _ hh => hh, hEKb⟩ hpost
  obtain ⟨⟨⟨d1, d2, d3⟩, d4, d5⟩, _⟩ := hfin
  exact ⟨d1, ⟨d2, d3⟩, d4, d5⟩

/-- The directory pass from a directory on the way to `D/n`, when it ends without
error, has moved `D/n` with everything below it to `D/n'`. -/
theorem renameFolder_reaches_dir {cfg : Config} {fs0 : FS} {root D : Path} {n n' : Str}
    (hother : otherDirsApart cfg fs0 root (D ++ [n]) (D ++ [n']) = true)
    (hnest : noNestedPlaceholder cfg fs0 root = true)
    (hT : dirTarget cfg (D ++ [n]) = D ++ [n']) (hne : n' ≠ n)
    (hphn : hasPlaceholder cfg n = true) (hd0 : stat fs0 (D ++ [n]) = some Obj.dir)
    (hanc : ∀ a, root <+: a → a <+: D → hasPlaceholder cfg (baseName a) = true →
      dirTarget cfg a = a) :
    ∀ (fuel : Nat) (s : FS) (t rel : Path) (s' : FS), t ++ rel = D → root <+: t →
      KnownDirsAt cfg fs0 s t → DirsKept s root D →
      (∀ r, stat s (D ++ n :: r) = stat fs0 (D ++ n :: r)) →
      (∀ r, stat s (D ++ n' :: r) = none) →
      renameFolder cfg fuel s t = some (s', true) →
      DirsKept s' root D ∧ (StaysOutside s s' t ∧ NewBound cfg s s' (dirOf t) t) ∧
        (∀ r, stat s' (D ++ n' :: r) = stat fs0 (D ++ n :: r)) ∧
        (∀ r, stat s' (D ++ n :: r) = none) := by
  intro fuel
  induction fuel with
  | zero => intro s t rel s' _ _ _ _ _ _ h; simp [renameFolder] at h
  | succ fuel ih =>
    intro s t rel s' hrel hroot hk hdk hA1 hA2 h
    have htD : t <+: D := ⟨rel, hrel⟩
    have hst : stat s t = some Obj.dir := hdk t hroot htD
    rw [renameFolder] at h
    simp only [hst] at h
    cases hl : forNames (fun x k => renameFolder cfg fuel x (t ++ [k])) (readDirNames s t) s with
    | none => exact absurd h (by rw [hl]; simp)
    | some r1 =>
      obtain ⟨s1, ok⟩ := r1
      cases ok with
      | false => exact absurd h (by rw [hl]; simp)
      | true =>
        have hs1 : DirsKept s1 root D ∧ (StaysOutside s s1 t ∧ NewInside cfg s s1 t) ∧
            (∀ r, stat s1 (D ++ n' :: r) = stat fs0 (D ++ n :: r)) ∧
            (∀ r, stat s1 (D ++ n :: r) = none) := by
          have hsd : stat s (D ++ [n]) = some Obj.dir := by rw [← hd0]; exact hA1 []
          cases rel with
          | nil =>
            have htD' : t = D := by simpa using hrel
            subst htD'
            refine renameFolder_loop hother hnest hd0 fuel t (readDirNames s t) n s s1 hroot
              ((mem_readDirNames s t n).mpr ⟨_, find_of_stat hsd (by simp)⟩) ?_ ?_
              ⟨hdk, hA1, hA2⟩ (entriesKnownDirs_start hk) hl
            · intro m' hm' hmn
              refine ⟨apart_of_ne hmn [], apart_of_ne ?_ []⟩
              intro e
              rw [mem_readDirNames, e] at hm'
              obtain ⟨o, ho⟩ := hm'
              have : stat s (t ++ [n']) = some o := by simp [stat, ho]
              rw [hA2 []] at this
              cases this
            · intro sa sb h2 _ h3 h4 hv
              exact renameFolder_at_dir hnest hT hne hphn hd0 hroot fuel sa sb h2 h3 h4 hv
          | cons m rel' =>
            have hd1 : ∀ x : Str, D ++ [x] = t ++ m :: (rel' ++ [x]) := by
              intro x; rw [← hrel]; simp
            have htm : stat s (t ++ [m]) = some Obj.dir :=
              hdk _ (hroot.trans (List.prefix_append _ _)) ⟨rel', by rw [← hrel]; simp⟩
            refine renameFolder_loop hother hnest hd0 fuel t (readDirNames s t) m s s1 hroot
              ((mem_readDirNames s t m).mpr ⟨_, find_of_stat htm (by simp)⟩) ?_ ?_
              ⟨hdk, hA1, hA2⟩ (entriesKnownDirs_start hk) hl
            · intro m' _ hmn
              rw [hd1 n, hd1 n']
              exact ⟨apart_of_ne hmn _, apart_of_ne hmn _⟩
            · intro sa sb h2 hka h3 h4 hv
              have := ih sa (t ++ [m]) rel' sb (by rw [← hrel]; simp)
                (hroot.trans (List.prefix_append _ _)) hka h2 h3 h4 hv
              rwa [dirOf_append_singleton] at this
        have hst1 : stat s1 t = some Obj.dir := hs1.1 t hroot htD
        rw [hl] at h
        simp only at h
        cases hp : hasPlaceholder cfg (baseName t) with
        | true =>
          have hself : parsePath (newPathStr cfg t) = t := hanc t hroot htD hp
          have hrn : rename s1 t t = none := rename_dir_self hst1
          simp only [hp, if_true, hself, hrn, Option.some.injEq, Prod.mk.injEq] at h
          exact absurd h.2 (by decide)
        | false =>
          simp only [hp, Bool.false_eq_true, if_false, Option.some.injEq, Prod.mk.injEq,
            and_true] at h
          subst h
          exact ⟨hs1.1, ⟨hs1.2.1.1, newBound_of_inside hs1.2.1.2⟩, hs1.2.2.1, hs1.2.2.2⟩

/-- The loop of the directory pass over the entries of a directory on the way to
`D/n`, when it ends without error, has moved `D/n` with everything below it to
`D/n'`, whatever becomes of the directory itself afterwards. -/
theorem renameFolder_entries_reach_dir {cfg : Config} {fs0 : FS} {root D : Path} {n n' : Str}
    (hother : otherDirsApart cfg fs0 root (D ++ [n]) (D ++ [n']) = true)
    (hnest : noNestedPlaceholder cfg fs0 root = true)
    (hT : dirTarget cfg (D ++ [n]) = D ++ [n']) (hne : n' ≠ n)
    (hphn : hasPlaceholder cfg n = true) (hd0 : stat fs0 (D ++ [n]) = some Obj.dir)
    (hanc : ∀ a, root <+: a → a <+: D → hasPlaceholder cfg (baseName a) = true →
      dirTarget cfg a = a)
    (fuel : Nat) (s : FS) (t rel : Path) (s1 : FS) (hrel : t ++ rel = D) (hroot : root <+: t)
    (hk : KnownDirsAt cfg fs0 s t) (hdk : DirsKept s root D)
    (hA1 : ∀ r, stat s (D ++ n :: r) = stat fs0 (D ++ n :: r))
    (hA2 : ∀ r, stat s (D ++ n' :: r) = none)
    (hl : forNames (fun x k => renameFolder cfg fuel x (t ++ [k])) (readDirNames s t) s =
      some (s1, true)) :
    DirsKept s1 root D ∧ (StaysOutside s s1 t ∧ NewInside cfg s s1 t) ∧
      (∀ r, stat s1 (D ++ n' :: r) = stat fs0 (D ++ n :: r)) ∧
      (∀ r, stat s1 (D ++ n :: r) = none) := by
  have hsd : stat s (D ++ [n]) = some Obj.dir := by rw [← hd0]; exact hA1 []
  cases rel with
  | nil =>
    have htD' : t = D := by simpa using hrel
    subst htD'
    refine renameFolder_loop hother hnest hd0 fuel t (readDirNames s t) n s s1 hroot
      ((mem_readDirNames s t n).mpr ⟨_, find_of_stat hsd (by simp)⟩) ?_ ?_
      ⟨hdk, hA1, hA2⟩ (entriesKnownDirs_start hk) hl
    · intro m' hm' hmn
      refine ⟨apart_of_ne hmn [], apart_of_ne ?_ []⟩
      intro e
      rw [mem_readDirNames, e] at hm'
      obtain ⟨o, ho⟩ := hm'
      have : stat s (t ++ [n']) = some o := by simp [stat, ho]
      rw [hA2 []] at this
      cases this
    · intro sa sb h2 _ h3 h4 hv
      exact renameFolder_at_dir hnest hT hne hphn hd0 hroot fuel sa sb h2 h3 h4 hv
  | cons m rel' =>
    have hd1 : ∀ x : Str, D ++ [x] = t ++ m :: (rel' ++ [x]) := by
      intro x; rw [← hrel]; simp
    have htm : stat s (t ++ [m]) = some Obj.dir :=
      hdk _ (hroot.trans (List.prefix_append _ _)) ⟨rel', by rw [← hrel]; simp⟩
    refine renameFolder_loop hother hnest hd0 fuel t (readDirNames s t) m s s1 hroot
      ((mem_readDirNames s t m).mpr ⟨_, find_of_stat htm (by simp)⟩) ?_ ?_
      ⟨hdk, hA1, hA2⟩ (entriesKnownDirs_start hk) hl
    · intro m' _ hmn
      rw [hd1 n, hd1 n']
      exact ⟨apart_of_ne hmn _, apart_of_ne hmn _⟩
    · intro sa sb h2 hka h3 h4 hv
      have := renameFolder_reaches_dir hother hnest hT hne hphn hd0 hanc fuel sa (t ++ [m])
        rel' sb (by rw [← hrel]; simp)
        (hroot.trans (List.prefix_append _ _)) hka h2 h3 h4 hv
      rwa [dirOf_append_singleton] at this

/-- A test that holds of every initial segment of a path holds of every prefix. -/
theorem forall_prefix_of_inits (P : Path → Bool) (D : Path) (h : D.inits.all P = true) :
    ∀ a, a <+: D → P a = true := by
  intro a ha
  exact (List.all_eq_true.mp h) a ((List.mem_inits a D).mpr ha)

/-! ## The whole run -/

/-- The directory pass keeps a regular file `D/n'`, and keeps `D/n` free of a
regular file, when the substitution leaves the path of every directory from the
root down to `D` as it is. -/
theorem renameFolder_keeps_file (cfg : Config) (fuel : Nat) (fs1 : FS) (root D : Path)
    (n n' content : Str) (r : FS × Bool)
    (hanc : ∀ a, root <+: a → a <+: D → hasPlaceholder cfg (baseName a) = true →
      parsePath (newPathStr cfg a) = a)
    (hQ1 : stat fs1 (D ++ [n']) = some (Obj.file content) ∧
      (n' ≠ n → ∀ c', stat fs1 (D ++ [n]) ≠ some (Obj.file c')))
    (h : renameFolder cfg fuel fs1 root = some r) :
    stat r.1 (D ++ [n']) = some (Obj.file content) ∧
      (n' ≠ n → ∀ c', stat r.1 (D ++ [n]) ≠ some (Obj.file c')) := by
  refine renameFolder_inv_dir cfg
    (fun s => stat s (D ++ [n']) = some (Obj.file content) ∧
      (n' ≠ n → ∀ c', stat s (D ++ [n]) ≠ some (Obj.file c'))) root ?_
    fuel fs1 root r (List.prefix_refl _) hQ1 h
  rintro s d s' ⟨hs1, hs2⟩ hd hsd hphd hrn
  have hsrc : ∀ x : Str, d <+: D ++ [x] → stat s (D ++ [x]) ≠ some Obj.dir →
      d = parsePath (newPathStr cfg d) := by
    intro x hdx hx
    have hdD : d <+: D := by
      obtain ⟨l, hl⟩ := hdx
      cases List.eq_nil_or_concat l with
      | inl e =>
        subst e
        rw [List.append_nil] at hl
        rw [hl] at hsd
        exact absurd hsd hx
      | inr e =>
        obtain ⟨l', a, e⟩ := e
        rw [List.concat_eq_append] at e
        subst e
        rw [← List.append_assoc] at hl
        exact ⟨l', (List.append_inj' hl rfl).1⟩
    exact (hanc d hd hdD hphd).symm
  rcases rename_dir_cases hsd hrn with ⟨_, e⟩ | ⟨hon, _, _, _, _, _, hch, _⟩
  · rw [e]; exact ⟨hs1, hs2⟩
  · refine ⟨rename_dir_keeps_file hsd hrn hs1
      (fun hp => hsrc _ hp (by rw [hs1]; simp)), fun e c' => ?_⟩
    refine rename_dir_no_new_file hsd hrn (hs2 e) ?_ c'
    intro a l hl
    -- the target would be a directory holding `D/n'`
    have hF' : ∃ a' l', D ++ [n'] = parsePath (newPathStr cfg d) ++ a' :: l' := by
      cases List.eq_nil_or_concat l with
      | inl e2 =>
        subst e2
        have := List.append_inj' hl rfl
        exact ⟨n', [], by rw [this.1]⟩
      | inr e2 =>
        obtain ⟨l', x, e2⟩ := e2
        rw [List.concat_eq_append] at e2
        subst e2
        have : D ++ [n] = parsePath (newPathStr cfg d) ++ (a :: l') ++ [x] := by
          simpa using hl
        have hD := (List.append_inj' this rfl).1
        exact ⟨a, l' ++ [n'], by rw [hD]; simp⟩
    obtain ⟨a', l', hF'⟩ := hF'
    have h7 := find_of_stat hs1 (by simp)
    rw [hF'] at h7
    rw [hasChildren_of_find h7] at hch
    cases hch

/-- The loop of `copyItems` keeps what lies at or below no destination. -/
theorem copyPairs_keeps (fuel : Nat) {x : Path} {o : Obj} :
    ∀ (pairs : List (Path × Path)) (s : FS) (r : FS × Bool),
      (∀ p ∈ pairs, ¬ p.2 <+: x) → stat s x = some o → copyPairs fuel pairs s = some r →
      stat r.1 x = some o := by
  intro pairs
  induction pairs with
  | nil =>
    intro s r _ hs hc
    simp only [copyPairs, Option.some.injEq] at hc
    subst hc; exact hs
  | cons pr rest ih =>
    intro s r hap hs hc
    obtain ⟨src, dest⟩ := pr
    simp only [copyPairs] at hc
    cases hcp : copyDirectoriesAndFiles fuel s src dest with
    | none => simp [hcp] at hc
    | some r1 =>
      obtain ⟨s1, ok⟩ := r1
      have hs1 : stat s1 x = some o :=
        copy_frame fuel s src dest (s1, ok) (hap (src, dest) (List.mem_cons_self _ _)) hs hcp
      cases ok with
      | false =>
        simp only [hcp, Option.some.injEq] at hc
        subst hc; exact hs1
      | true =>
        simp only [hcp] at hc
        exact ih s1 r (fun p hp => hap p (List.mem_cons_of_mem _ hp)) hs1 hc

/-- The loop of `copyItems` copies every regular file of a source that lies in no
skipped directory, when no source overlaps with a destination and no destination
with another. -/
theorem copyPairs_file (fuel : Nat) {src dest rel : Path} {c : Str} :
    ∀ (pairs : List (Path × Path)) (s s' : FS), copyPairs fuel pairs s = some (s', true) →
      (src, dest) ∈ pairs →
      (∀ p ∈ pairs, ¬ src <+: p.2 ∧ ¬ p.2 <+: src) →
      pairs.Pairwise (fun p q => ¬ q.2 <+: p.2 ∧ ¬ p.2 <+: q.2) →
      stat s (src ++ rel) = some (Obj.file c) →
      (∀ r1 r2, rel = r1 ++ r2 → r2 ≠ [] →
        stat s (src ++ r1) = some Obj.dir ∧ baseName (src ++ r1) ∉ skipDirs) →
      stat s' (dest ++ rel) = some (Obj.file c) := by
  intro pairs
  induction pairs with
  | nil => intro s s' _ hm; cases hm
  | cons pr rest ih =>
    intro s s' hc hm hap hpw hf hdirs
    obtain ⟨a, b⟩ := pr
    simp only [copyPairs] at hc
    cases hcp : copyDirectoriesAndFiles fuel s a b with
    | none => simp [hcp] at hc
    | some r1 =>
      obtain ⟨s1, ok⟩ := r1
      cases ok with
      | false => simp [hcp] at hc
      | true =>
        simp only [hcp] at hc
        have hpw1 := List.pairwise_cons.mp hpw
        by_cases he : (src, dest) = (a, b)
        · -- this pair
          have ha : a = src := (Prod.mk.inj he).1.symm
          have hb : b = dest := (Prod.mk.inj he).2.symm
          subst ha; subst hb
          have hsd := hap (a, b) (List.mem_cons_self _ _)
          have h1 : stat s1 (b ++ rel) = some (Obj.file c) := by
            have := copy_file_rel hsd.1 hsd.2 fuel s [] rel c s1 (by simpa using hcp)
              (by simpa using hf) (by simpa using hdirs)
            simpa using this
          refine copyPairs_keeps fuel rest s1 (s', true) ?_ h1 hc
          intro q hq hpre
          have hq1 := hpw1.1 q hq
          rcases List.prefix_or_prefix_of_prefix hpre (List.prefix_append b rel) with h2 | h2
          · exact hq1.1 h2
          · exact hq1.2 h2
        · -- a later pair
          have hm' : (src, dest) ∈ rest := by
            rcases List.mem_cons.mp hm with e | e
            · exact absurd e he
            · exact e
          have hsb := hap (a, b) (List.mem_cons_self _ _)
          have hsame : ∀ q, src <+: q → stat s1 q = stat s q :=
            copy_source_same hsb.1 hsb.2 s fuel s a b (s1, true) (List.prefix_refl _)
              (fun _ _ => rfl) hcp
          refine ih s1 s' hc hm' (fun p hp => hap p (List.mem_cons_of_mem _ hp)) hpw1.2 ?_ ?_
          · rw [hsame _ (List.prefix_append _ _)]; exact hf
          · intro r1 r2 hr hr2
            rw [hsame _ (List.prefix_append _ _)]
            exact hdirs r1 r2 hr hr2

/-- The pairs of `copyItems` for the root of `startProcess`: every source is an
entry of the working directory other than the root, every destination lies below
the root. -/
theorem directoriesToCopy_newRootOf {value : Str} (hv : '/' ∉ value) :
    directoriesToCopy (newRootOf value) =
      [ (["src".toList], [newRootOf value, "aspnet-core".toList, "src".toList]),
        (["tests".toList], [newRootOf value, "aspnet-core".toList, "tests".toList]),
        ([".vscode".toList], [newRootOf value, "aspnet-core".toList, ".vscode".toList]),
        ([".github".toList], [newRootOf value, ".github".toList]),
        (["CommerceMono.sln".toList],
          [newRootOf value, "aspnet-core".toList, "CommerceMono.sln".toList]),
        ([".gitignore".toList], [newRootOf value, "aspnet-core".toList, ".gitignore".toList]),
        (["add_migration.bat".toList],
          [newRootOf value, "aspnet-core".toList, "add_migration.bat".toList]),
        (["Makefile".toList], [newRootOf value, "aspnet-core".toList, "Makefile".toList]),
        (["run.bat".toList], [newRootOf value, "aspnet-core".toList, "run.bat".toList]) ] := by
  unfold directoriesToCopy
  rw [parsePath_newRootOf hv]
  rfl

theorem directoriesToCopy_shape {value : Str} (hv : '/' ∉ value) :
    ∀ p ∈ directoriesToCopy (newRootOf value),
      ∃ name tl, p = ([name], newRootOf value :: tl) ∧ name ≠ newRootOf value := by
  intro p hp
  rw [directoriesToCopy_newRootOf hv] at hp
  simp only [List.mem_cons, List.mem_singleton, List.not_mem_nil, or_false] at hp
  rcases hp with rfl | rfl | rfl | rfl | rfl | rfl | rfl | rfl | rfl <;>
    exact ⟨_, _, rfl, by simp [newRootOf]⟩

theorem directoriesToCopy_pairwise {value : Str} (hv : '/' ∉ value) :
    (directoriesToCopy (newRootOf value)).Pairwise
      (fun p q => ¬ q.2 <+: p.2 ∧ ¬ p.2 <+: q.2) := by
  have hmap : directoriesToCopy (newRootOf value) =
      ([ ("src".toList, ["aspnet-core".toList, "src".toList]),
         ("tests".toList, ["aspnet-core".toList, "tests".toList]),
         (".vscode".toList, ["aspnet-core".toList, ".vscode".toList]),
         (".github".toList, [".github".toList]),
         ("CommerceMono.sln".toList, ["aspnet-core".toList, "CommerceMono.sln".toList]),
         (".gitignore".toList, ["aspnet-core".toList, ".gitignore".toList]),
         ("add_migration.bat".toList, ["aspnet-core".toList, "add_migration.bat".toList]),
         ("Makefile".toList, ["aspnet-core".toList, "Makefile".toList]),
         ("run.bat".toList, ["aspnet-core".toList, "run.bat".toList]) ] :
          List (Str × Path)).map (fun e => ([e.1], newRootOf value :: e.2)) := by
    rw [directoriesToCopy_newRootOf hv]
    rfl
  rw [hmap, List.pairwise_map]
  have hb : ([ ("src".toList, ["aspnet-core".toList, "src".toList]),
         ("tests".toList, ["aspnet-core".toList, "tests".toList]),
         (".vscode".toList, ["aspnet-core".toList, ".vscode".toList]),
         (".github".toList, [".github".toList]),
         ("CommerceMono.sln".toList, ["aspnet-core".toList, "CommerceMono.sln".toList]),
         (".gitignore".toList, ["aspnet-core".toList, ".gitignore".toList]),
         ("add_migration.bat".toList, ["aspnet-core".toList, "add_migration.bat".toList]),
         ("Makefile".toList, ["aspnet-core".toList, "Makefile".toList]),
         ("run.bat".toList, ["aspnet-core".toList, "run.bat".toList]) ] :
          List (Str × Path)).Pairwise (fun a b => ¬ b.2 <+: a.2 ∧ ¬ a.2 <+: b.2) := by
    decide
  refine hb.imp ?_
  intro a b h
  constructor
  · intro hp
    exact h.1 ((List.cons_prefix_cons.mp hp).2)
  · intro hp
    exact h.2 ((List.cons_prefix_cons.mp hp).2)

/-- What `Mkdir` does to every path. -/
theorem mkdir_stat {fs fs1 : FS} {p : Path} (h : mkdir fs p = some fs1) (hp : p ≠ []) (q : Path) :
    stat fs1 q = if q = p then some Obj.dir else stat fs q := by
  unfold mkdir at h
  split at h
  · cases h
  · split at h
    · rw [← Option.some.inj h, stat_put _ _ _ _ hp]
    · cases h

/-- The loop of `copyItems` keeps every directory. -/
theorem copyPairs_keeps_dir (fuel : Nat) {x : Path} :
    ∀ (pairs : List (Path × Path)) (s : FS) (r : FS × Bool),
      stat s x = some Obj.dir → copyPairs fuel pairs s = some r →
      stat r.1 x = some Obj.dir := by
  intro pairs
  induction pairs with
  | nil =>
    intro s r hs hc
    simp only [copyPairs, Option.some.injEq] at hc
    subst hc; exact hs
  | cons pr rest ih =>
    intro s r hs hc
    obtain ⟨src, dest⟩ := pr
    simp only [copyPairs] at hc
    cases hcp : copyDirectoriesAndFiles fuel s src dest with
    | none => simp [hcp] at hc
    | some r1 =>
      obtain ⟨s1, ok⟩ := r1
      have hs1 : stat s1 x = some Obj.dir :=
        copy_inv (fun t => stat t x = some Obj.dir) []
          (fun t d t' ht _ hm => mkdirFrom_keeps hm ht)
          (fun t d c t' ht _ hw => writeFile_keeps_dir hw ht)
          fuel s src dest (s1, ok) List.nil_prefix hs hcp
      cases ok with
      | false =>
        simp only [hcp, Option.some.injEq] at hc
        subst hc; exact hs1
      | true =>
        simp only [hcp] at hc
        exact ih s1 r hs1 hc

/-- The run of `renameFolderContent` on a root whose path the substitution leaves
as it is keeps the root. -/
theorem renameFolderContent_keeps_root (cfg : Config) (fuel : Nat) (s : FS) (R : Str)
    (r : FS × Bool) (hself : parsePath (newPathStr cfg [R]) = [R])
    (hs : stat s [R] = some Obj.dir) (h : renameFolderContent cfg fuel s [R] = some r) :
    stat r.1 [R] = some Obj.dir := by
  have hwalk : ∀ (r : FS × Bool), walkRoot cfg fuel s [R] = some r →
      stat r.1 [R] = some Obj.dir := by
    intro r hw
    unfold walkRoot at hw
    rw [hs] at hw
    exact walk_inv cfg (fun t => stat t [R] = some Obj.dir) [R]
      (fun t p c c' ht _ hp _ => by
        have ht' : stat t [R] = some Obj.dir := ht
        have hne : [R] ≠ p := by
          intro e; rw [← e, ht'] at hp; cases hp
        show stat (put t p (Obj.file c')) [R] = some Obj.dir
        rw [stat_put _ _ _ _ (stat_file_ne_nil hp), if_neg hne, ht'])
      (fun t p c t' ht _ hp _ hrn =>
        rename_keeps_dir hrn ht (fun hpre => by
          exfalso
          obtain ⟨r, hr⟩ := hpre
          have hp0 := stat_file_ne_nil hp
          cases p with
          | nil => exact hp0 rfl
          | cons a p =>
            cases p with
            | nil =>
              simp only [List.singleton_append, List.cons.injEq] at hr
              rw [hr.1, ht] at hp; cases hp
            | cons b p => simp at hr))
      fuel s [R] Obj.dir r (List.prefix_refl _) hs hw
  have hdir : ∀ (s : FS) (r : FS × Bool), stat s [R] = some Obj.dir →
      renameFolder cfg fuel s [R] = some r → stat r.1 [R] = some Obj.dir := by
    intro s r hs hrf
    refine renameFolder_inv cfg (fun t => stat t [R] = some Obj.dir) [R]
      ?_ fuel s [R] r (List.prefix_refl _) hs hrf
    intro t d t' ht hpre _ hrn
    refine rename_keeps_dir hrn ht (fun hpre' => ?_)
    have hd : d = [R] := by
      obtain ⟨r1, hr1⟩ := hpre
      obtain ⟨r2, hr2⟩ := hpre'
      rw [← hr1] at hr2
      have : r1 ++ r2 = [] := by simpa using hr2
      have : r1 = [] := (List.append_eq_nil.mp this).1
      rw [← hr1, this]; simp
    subst hd
    rw [hself]
  unfold renameFolderContent at h
  cases hwr : walkRoot cfg fuel s [R] with
  | none => simp [hwr] at h
  | some r4 =>
    obtain ⟨fs4, ok4⟩ := r4
    have hq4 := hwalk (fs4, ok4) hwr
    cases ok4 with
    | false =>
      simp only [hwr, Option.some.injEq] at h
      rw [← h]; exact hq4
    | true =>
      simp only [hwr] at h
      exact hdir fs4 r hq4 h

/-! ## The interface and the operating-system filesystem -/

theorem processBuildTestYmlOn_osFs (fs : FS) (path : Path) (name : Str) :
    processBuildTestYmlOn osFs fs path name = processBuildTestYml fs path name := rfl

theorem walkFnOn_osFs (cfg : Config) (fs : FS) (path : Path) (info : Option Obj) :
    walkFnOn osFs cfg fs path info = walkFn cfg fs path info := by
  cases info with
  | none => rfl
  | some o => cases o <;> rfl

theorem walkOn_osFs (cfg : Config) :
    ∀ (fuel : Nat) (fs : FS) (path : Path) (info : Obj),
      walkOn osFs cfg fuel fs path info = walk cfg fuel fs path info := by
  intro fuel
  induction fuel with
  | zero => intro fs path info; rfl
  | succ fuel ih =>
    intro fs path info
    have hbody : (fun (s : FS) (n : Str) =>
          match osFs.stat s (path ++ [n]) with
          | none => some (walkFnOn osFs cfg s (path ++ [n]) none)
          | some o => walkOn osFs cfg fuel s (path ++ [n]) o) =
        (fun (s : FS) (n : Str) =>
          match stat s (path ++ [n]) with
          | none => some (walkFn cfg s (path ++ [n]) none)
          | some o => walk cfg fuel s (path ++ [n]) o) := by
      funext s n
      show (match stat s (path ++ [n]) with
          | none => some (walkFnOn osFs cfg s (path ++ [n]) none)
          | some o => walkOn osFs cfg fuel s (path ++ [n]) o) = _
      cases stat s (path ++ [n]) with
      | none => simp only [walkFnOn_osFs]
      | some o => simp only [ih]
    unfold walkOn walk
    rw [walkFnOn_osFs]
    rcases walkFn cfg fs path (some info) with ⟨fs1, ok⟩
    cases ok with
    | false => rfl
    | true =>
      cases info with
      | file c => rfl
      | dir =>
        simp only
        rw [hbody]
        show (match (if isDir fs1 path then some (readDirNames fs1 path) else none) with
          | none => some (walkFnOn osFs cfg fs1 path none)
          | some names => forNames _ names fs1) = _
        by_cases hd : isDir fs1 path = true
        · rw [if_pos hd, if_pos hd]
        · rw [if_neg hd, if_neg hd, walkFnOn_osFs]

theorem walkRootOn_osFs (cfg : Config) (fuel : Nat) (fs : FS) (root : Path) :
    walkRootOn osFs cfg fuel fs root = walkRoot cfg fuel fs root := by
  unfold walkRootOn walkRoot
  show (match stat fs root with
    | none => some (walkFnOn osFs cfg fs root none)
    | some info => walkOn osFs cfg fuel fs root info) = _
  cases stat fs root with
  | none => simp only [walkFnOn_osFs]
  | some o => simp only [walkOn_osFs]

theorem renameFolderOn_osFs (cfg : Config) :
    ∀ (fuel : Nat) (fs : FS) (target : Path),
      renameFolderOn osFs cfg fuel fs target = renameFolder cfg fuel fs target := by
  intro fuel
  induction fuel with
  | zero => intro fs target; rfl
  | succ fuel ih =>
    intro fs target
    have hbody : (fun (s : FS) (n : Str) => renameFolderOn osFs cfg fuel s (target ++ [n])) =
        (fun (s : FS) (n : Str) => renameFolder cfg fuel s (target ++ [n])) := by
      funext s n
      exact ih s (target ++ [n])
    unfold renameFolderOn renameFolder
    have e1 : osFs.stat = stat := rfl
    have e2 : osFs.rename = rename := rfl
    have e3 : osFs.readDir fs target =
        if isDir fs target then some (readDirNames fs target) else none := rfl
    simp only [e1, e2, e3]
    cases hs : stat fs target with
    | none => rfl
    | some o =>
      cases o with
      | file c => rfl
      | dir =>
        have hd : isDir fs target = true := by simp [isDir, hs]
        simp only [hd, if_true, hbody]
        rcases forNames (fun s n => renameFolder cfg fuel s (target ++ [n]))
          (readDirNames fs target) fs with _ | ⟨s1, ok⟩
        · rfl
        · cases ok with
          | false => rfl
          | true =>
            show (if _ then _ else _) = (if _ then _ else _)
            by_cases hp : hasPlaceholder cfg (baseName target) = true
            · rw [if_pos hp, if_pos hp]
              rcases rename s1 target (parsePath (newPathStr cfg target)) with _ | s2 <;> rfl
            · rw [if_neg hp, if_neg hp]

theorem renameFolderContentOn_osFs (cfg : Config) (fuel : Nat) (fs : FS) (target : Path) :
    renameFolderContentOn osFs cfg fuel fs target = renameFolderContent cfg fuel fs target := by
  unfold renameFolderContentOn renameFolderContent
  rw [walkRootOn_osFs]
  rcases walkRoot cfg fuel fs target with _ | ⟨fs1, ok⟩
  · rfl
  · cases ok with
    | false => rfl
    | true => simp only [renameFolderOn_osFs]

/-- The loop over a list of names continues after a first part that has returned
no error. -/
theorem forNames_append {σ : Type} (body : σ → Str → Option (σ × Bool)) :
    ∀ (pre post : List Str) (s0 s : σ), forNames body pre s0 = some (s, true) →
      forNames body (pre ++ post) s0 = forNames body post s := by
  intro pre
  induction pre with
  | nil =>
    intro post s0 s h
    simp only [forNames, Option.some.injEq, Prod.mk.injEq, and_true] at h
    subst h; rfl
  | cons m pre ih =>
    intro post s0 s h
    simp only [forNames, List.cons_append] at h ⊢
    cases hb : body s0 m with
    | none => simp [hb] at h
    | some r =>
      obtain ⟨s1, ok⟩ := r
      cases ok with
      | false => simp [hb] at h
      | true =>
        simp only [hb] at h ⊢
        exact ih post s1 s h

/-! ## Absent sources -/

theorem blockedByFile_congr {a b : FS} :
    ∀ (rest pre : Path), (∀ q, q ≠ [] → q <+: pre ++ rest → stat a q = stat b q) →
      blockedByFile a pre rest = blockedByFile b pre rest := by
  intro rest
  induction rest with
  | nil => intro pre _; rfl
  | cons x rest ih =>
    intro pre h
    cases rest with
    | nil => rfl
    | cons y rest =>
      have h1 : stat a (pre ++ [x]) = stat b (pre ++ [x]) :=
        h _ (by simp) ⟨y :: rest, by simp⟩
      have h2 := ih (pre ++ [x]) (fun q hq hp => h q hq (by simpa using hp))
      simp only [blockedByFile, h1, h2]

/-- A copy into another entry of the working directory leaves a source as
absent or present as it was. -/
theorem copy_absent_same {fuel : Nat} {s : FS} {a d p : Path} {r : FS × Bool}
    (hap : otherTop d p = true) (h : copyDirectoriesAndFiles fuel s a d = some r) :
    absent r.1 p = absent s p := by
  cases d with
  | nil => simp [otherTop] at hap
  | cons d0 d1 =>
    cases p with
    | nil => simp [otherTop] at hap
    | cons p0 p1 =>
      have hne : d0 ≠ p0 := by simpa [otherTop] using hap
      have hd1 : ¬ [p0] <+: d0 :: d1 := by
        intro hp
        rcases hp with ⟨t, ht⟩
        simp at ht
        exact hne ht.1.symm
      have hd2 : ¬ d0 :: d1 <+: [p0] := by
        rintro ⟨t, ht⟩
        simp at ht
        exact hne ht.1
      have hsame : ∀ q, [p0] <+: q → stat r.1 q = stat s q :=
        copy_source_same hd1 hd2 s fuel s a (d0 :: d1) r (List.prefix_refl _)
          (fun _ _ => rfl) h
      have hpre : ∀ q, q ≠ [] → q <+: [] ++ p0 :: p1 → stat r.1 q = stat s q := by
        intro q hq hp
        apply hsame
        cases q with
        | nil => exact absurd rfl hq
        | cons q0 q1 =>
          rcases hp with ⟨t, ht⟩
          simp at ht
          rw [ht.1]
          exact ⟨q1, rfl⟩
      have e1 : stat r.1 (p0 :: p1) = stat s (p0 :: p1) := hsame (p0 :: p1) ⟨p1, rfl⟩
      unfold absent
      rw [e1, blockedByFile_congr (p0 :: p1) [] hpre]

theorem copy_of_absent {fs : FS} {src : Path} (h : absent fs src = true) (fuel : Nat)
    (dest : Path) : copyDirectoriesAndFiles (fuel + 1) fs src dest = some (fs, true) := by
  unfold absent at h
  simp only [Bool.and_eq_true, Option.isNone_iff_eq_none, Bool.not_eq_true'] at h
  simp [copyDirectoriesAndFiles, h.1, h.2]

/-- The loop of `copyItems` over pairs none of which writes into the entry of a
later source is the loop over the pairs whose sources are not absent. -/
theorem copyPairs_filter (fuel : Nat) (fs0 : FS) :
    ∀ (pairs : List (Path × Path)) (s : FS),
      pairs.Pairwise (fun a b => otherTop a.2 b.1 = true) →
      (∀ p ∈ pairs, absent s p.1 = absent fs0 p.1) →
      copyPairs (fuel + 1) pairs s =
        copyPairs (fuel + 1) (pairs.filter (fun p => !absent fs0 p.1)) s := by
  intro pairs
  induction pairs with
  | nil => intro s _ _; rfl
  | cons p rest ih =>
    intro s hpw hs
    obtain ⟨src, dest⟩ := p
    have hpw1 := List.pairwise_cons.mp hpw
    have hhead := hs (src, dest) (List.mem_cons_self _ _)
    cases hab : absent fs0 src with
    | true =>
      simp only at hhead
      rw [hab] at hhead
      have h1 := copy_of_absent hhead fuel dest
      have hf : ((src, dest) :: rest).filter (fun p => !absent fs0 p.1) =
          rest.filter (fun p => !absent fs0 p.1) := by
        simp [List.filter_cons, hab]
      rw [hf, ← ih s hpw1.2 (fun p hp => hs p (List.mem_cons_of_mem _ hp))]
      simp only [copyPairs, h1]
    | false =>
      have hf : ((src, dest) :: rest).filter (fun p => !absent fs0 p.1) =
          (src, dest) :: rest.filter (fun p => !absent fs0 p.1) := by
        simp [List.filter_cons, hab]
      rw [hf]
      simp only [copyPairs]
      cases hc : copyDirectoriesAndFiles (fuel + 1) s src dest with
      | none => rfl
      | some r =>
        obtain ⟨s1, b⟩ := r
        cases b with
        | false => rfl
        | true =>
          simp only
          apply ih s1 hpw1.2
          intro p hp
          rw [← hs p (List.mem_cons_of_mem _ hp)]
          exact copy_absent_same (hpw1.1 p hp) hc

/-! ## Claims -/

/-- C6, as stated, fails: a source path that runs through a regular file does not
exist, yet `copyDirectoriesAndFiles` returns the error of `Stat`; and `copyItems`
fails when `src`, `tests` and `.vscode` are absent and `Makefile` is present,
because nothing has created the directory `aspnet-core` of its destination. -/
theorem copyItems_fails_for_absent_sources :
    (stat plainFileTree ["src".toList, "main.go".toList] = none ∧
      copyDirectoriesAndFiles 1 plainFileTree ["src".toList, "main.go".toList]
        ["out".toList] = some (plainFileTree, false)) ∧
    (stat makefileTree ["src".toList] = none ∧ stat makefileTree ["tests".toList] = none ∧
      stat makefileTree [".vscode".toList] = none ∧
      copyItems 1 "Cloned_HRMS".toList makefileTree = some (makefileTree, false)) :=
  ⟨⟨by decide, by decide⟩, by decide, by decide, by decide, by decide⟩

/-- C6, amended. A source that is absent (`Stat` reports that it does not exist)
is skipped: `copyDirectoriesAndFiles` returns no error and the filesystem it was
given.  So the loop of `copyItems` never fails at an absent source: over pairs
none of which writes into the entry of a later source it is the loop over the
pairs whose sources are not absent, and it returns no error and the filesystem it
was given when every source is absent. -/
theorem copy_missing_source_skipped (fuel : Nat) (fs : FS) (pairs : List (Path × Path))
    (hap : pairs.Pairwise (fun a b => otherTop a.2 b.1 = true)) :
    (∀ src dest, absent fs src = true →
      copyDirectoriesAndFiles (fuel + 1) fs src dest = some (fs, true)) ∧
    copyPairs (fuel + 1) pairs fs =
      copyPairs (fuel + 1) (pairs.filter (fun p => !absent fs p.1)) fs ∧
    ((∀ p ∈ pairs, absent fs p.1 = true) → copyPairs (fuel + 1) pairs fs = some (fs, true)) := by
  have h2 := copyPairs_filter fuel fs pairs fs hap (fun _ _ => rfl)
  refine ⟨fun src dest h => copy_of_absent h fuel dest, h2, ?_⟩
  intro hall
  rw [h2]
  have : pairs.filter (fun p => !absent fs p.1) = [] := by
    rw [List.filter_eq_nil_iff]
    intro p hp
    simp [hall p hp]
  rw [this]
  rfl

/-- Witness for C6 on the tree of `TestCopyItems`, where only `src` and `tests`
exist: the seven other pairs of `copyItems` are skipped and no error is
returned. -/
theorem copy_missing_source_skipped_witness :
    (directoriesToCopy []).Pairwise (fun a b => otherTop a.2 b.1 = true) ∧
    absent copyItemsTree [".vscode".toList] = true ∧
    copyDirectoriesAndFiles 3 copyItemsTree [".vscode".toList]
        ["aspnet-core".toList, ".vscode".toList] = some (copyItemsTree, true) ∧
    copyItems 3 [] copyItemsTree =
      copyPairs 3 [(["src".toList], ["aspnet-core".toList, "src".toList]),
        (["tests".toList], ["aspnet-core".toList, "tests".toList])] copyItemsTree ∧
    (copyItems 3 [] copyItemsTree).map Prod.snd = some true :=
  ⟨by decide, by decide,
   (copy_missing_source_skipped 2 copyItemsTree (directoriesToCopy []) (by decide)).1
      [".vscode".toList] ["aspnet-core".toList, ".vscode".toList] (by decide),
   (copy_missing_source_skipped 2 copyItemsTree (directoriesToCopy []) (by decide)).2.1,
   by decide⟩

/-- C3. On an existing regular file whose base name is `build-and-test.yml`,
`processBuildTestYml` returns no error and leaves at that path the content with
the three literal replacements applied in order, every other path keeping its
object; on a file with any other base name it returns no error and the
filesystem it was given. -/
theorem processBuildTestYml_spec (fs : FS) (p : Path) (c : Str)
    (h : stat fs p = some (Obj.file c)) :
    (baseName p = "build-and-test.yml".toList →
      (processBuildTestYml fs p (baseName p)).2 = true ∧
      stat (processBuildTestYml fs p (baseName p)).1 p =
        some (Obj.file
          (replaceAll
            (replaceAll
              (replaceAll c "\"src/".toList "\"aspnet-core/src/".toList)
              "\"tests/".toList "\"aspnet-core/tests/".toList)
            "\"./tests".toList "\"./aspnet-core/tests".toList)) ∧
      ∀ q, q ≠ p → stat (processBuildTestYml fs p (baseName p)).1 q = stat fs q) ∧
    (baseName p ≠ "build-and-test.yml".toList →
      processBuildTestYml fs p (baseName p) = (fs, true)) := by
  have hp := stat_file_ne_nil h
  constructor
  · intro hb
    have hr : readFile fs p = some c := by simp [readFile, h]
    have hw := writeFile_existing (patchYml c) h
    simp only [processBuildTestYml, hb, ne_eq, not_true_eq_false, if_false, hr, hw,
      Option.getD_some]
    refine ⟨trivial, ?_, ?_⟩
    · simp [stat_put _ _ _ _ hp, patchYml]
    · intro q hq
      simp [stat_put _ _ _ _ hp, hq]
  · intro hb
    unfold processBuildTestYml
    rw [if_pos hb]

/-- Witness for C3: the three path fragments of the repository's test. -/
theorem processBuildTestYml_spec_witness :
    stat (processBuildTestYml
        [(["build-and-test.yml".toList], Obj.file "- \"src/**\" \"tests/**\" \"./tests/U\"".toList)]
        ["build-and-test.yml".toList] "build-and-test.yml".toList).1 ["build-and-test.yml".toList] =
      some (Obj.file "- \"aspnet-core/src/**\" \"aspnet-core/tests/**\" \"./aspnet-core/tests/U\"".toList) := by
  have h := (processBuildTestYml_spec
    [(["build-and-test.yml".toList], Obj.file "- \"src/**\" \"tests/**\" \"./tests/U\"".toList)]
    ["build-and-test.yml".toList] "- \"src/**\" \"tests/**\" \"./tests/U\"".toList (by decide)).1
    (by decide)
  exact h.2.1.trans (by decide)

/-- C8, as stated, fails: cloning for key `Shop` and value `ShopApi` completes
without error, but the directory pass renames the root `Cloned_ShopApi`, whose
name contains the key, to `Cloned_ShopApiApi`; nothing is left at
`Cloned_ShopApi`. -/
theorem startProcess_root_renamed_away :
    (startProcess 6 shopTree "Shop".toList "ShopApi".toList).map
        (fun r => (r.2, stat r.1 ["Cloned_ShopApi".toList],
          stat r.1 ["Cloned_ShopApiApi".toList])) =
      some (true, none, some Obj.dir) := by
  decide

/-- C8, amended.  When the value contains no path separator and the key does not
occur in `Cloned_` followed by the value, a run of `startProcess(key, value)`
that completes without error leaves a directory named `Cloned_` followed by
exactly the value, and that directory contains the copied, renamed tree.  The
copy has put every regular file of every source that lies in no skipped
directory at the same place below the destination of that source; the tree the
run leaves is the copied tree as `renameFolderContent` on the root leaves it;
and a copied file `D/n` whose name contains a placeholder is found in the end at
`D/n'` with its content rewritten, under the conditions of the content pass on
the copied tree (no file is renamed onto it, the walk is not aborted, the
directories from the root down to `D` are not renamed). -/
theorem startProcess_root_exists (fuel : Nat) (fs fs1 fs2 fs' : FS) (key value : Str)
    (hv : '/' ∉ value) (hk : containsSub (newRootOf value) key = false)
    (hmk : mkdir fs [newRootOf value] = some fs1)
    (hcp : copyItems fuel (newRootOf value) fs1 = some (fs2, true))
    (h : startProcess fuel fs key value = some (fs', true)) :
    stat fs' [newRootOf value] = some Obj.dir ∧
    (∀ src dest rel c, (src, dest) ∈ directoriesToCopy (newRootOf value) →
      stat fs (src ++ rel) = some (Obj.file c) →
      (∀ r1 r2, rel = r1 ++ r2 → r2 ≠ [] →
        stat fs (src ++ r1) = some Obj.dir ∧ baseName (src ++ r1) ∉ skipDirs) →
      stat fs2 (dest ++ rel) = some (Obj.file c)) ∧
    (∃ ok, renameFolderContent (startConfig key value) fuel fs2 [newRootOf value] =
      some (fs', ok)) ∧
    (∀ (D : Path) (n c : Str) (fsw : FS), [newRootOf value] <+: D →
      (∀ a, [newRootOf value] <+: a → a <+: D → stat fs2 a = some Obj.dir) →
      stat fs2 (D ++ [n]) = some (Obj.file c) →
      hasPlaceholder (startConfig key value) n = true → n ≠ "build-and-test.yml".toList →
      joinStr D (substBoth (startConfig key value) n) =
        D ++ [substBoth (startConfig key value) n] →
      (substBoth (startConfig key value) n ≠ n →
        stat fs2 (D ++ [substBoth (startConfig key value) n]) = none) →
      otherFilesApart (startConfig key value) fs2 [newRootOf value] (D ++ [n])
        (D ++ [substBoth (startConfig key value) n]) = true →
      (∀ a, [newRootOf value] <+: a → a <+: D →
        hasPlaceholder (startConfig key value) (baseName a) = true →
        parsePath (newPathStr (startConfig key value) a) = a) →
      walkRoot (startConfig key value) fuel fs2 [newRootOf value] = some (fsw, true) →
      stat fs' (D ++ [substBoth (startConfig key value) n]) =
          some (Obj.file (substBoth (startConfig key value) c)) ∧
        (substBoth (startConfig key value) n ≠ n →
          ∀ c', stat fs' (D ++ [n]) ≠ some (Obj.file c'))) := by
  have hR := parsePath_newRootOf hv
  have hRne : [newRootOf value] ≠ ([] : Path) := by simp
  -- the three stages
  unfold startProcess at h
  rw [hR, hmk] at h
  simp only [hcp] at h
  have hrc : ∃ ok, renameFolderContent (startConfig key value) fuel fs2 [newRootOf value] =
      some (fs', ok) := by
    cases hrc : renameFolderContent (startConfig key value) fuel fs2 [newRootOf value] with
    | none => simp [hrc] at h
    | some r3 =>
      obtain ⟨fs3, ok3⟩ := r3
      simp only [hrc, Option.some.injEq, Prod.mk.injEq, and_true] at h
      subst h
      exact ⟨ok3, rfl⟩
  obtain ⟨ok3, hrc⟩ := hrc
  have hq1 : stat fs1 [newRootOf value] = some Obj.dir := by
    rw [mkdir_stat hmk hRne, if_pos rfl]
  have hq2 : stat fs2 [newRootOf value] = some Obj.dir :=
    copyPairs_keeps_dir fuel _ fs1 (fs2, true) hq1 hcp
  have hself : parsePath (newPathStr (startConfig key value) [newRootOf value]) =
      [newRootOf value] := by
    have : newPathStr (startConfig key value) [newRootOf value] = newRootOf value := by
      simp [newPathStr, startConfig, pathStr, replaceAll_of_not_contains value hk]
    rw [this, hR]
  refine ⟨?_, ?_, ⟨ok3, hrc⟩, ?_⟩
  · exact renameFolderContent_keeps_root (startConfig key value) fuel fs2 (newRootOf value)
      (fs', ok3) hself hq2 hrc
  · -- the copy
    intro src dest rel c hm hf hdirs
    obtain ⟨name, tl, hp, hname⟩ := directoriesToCopy_shape hv (src, dest) hm
    have hsrc : src = [name] := (Prod.mk.inj hp).1
    subst hsrc
    have hsame : ∀ q, [name] <+: q → stat fs1 q = stat fs q := by
      intro q hq
      rw [mkdir_stat hmk hRne, if_neg]
      intro e
      rw [e] at hq
      exact hname (List.cons_prefix_cons.mp hq).1
    refine copyPairs_file fuel (directoriesToCopy (newRootOf value)) fs1 fs2 hcp hm ?_
      (directoriesToCopy_pairwise hv) ?_ ?_
    · intro p hpm
      obtain ⟨name2, tl2, hp2, _⟩ := directoriesToCopy_shape hv p hpm
      rw [hp2]
      constructor
      · intro hpre
        exact hname (List.cons_prefix_cons.mp hpre).1
      · intro hpre
        exact hname (List.cons_prefix_cons.mp hpre).1.symm
    · rw [hsame _ (List.prefix_append _ _)]; exact hf
    · intro r1 r2 hr hr2
      rw [hsame _ (List.prefix_append _ _)]
      exact hdirs r1 r2 hr hr2
  · -- the content pass and the directory pass on a copied file
    intro D n c fsw hD hdirs hf hph hyml hjoin hfree hother hanc hw
    have hne : D ++ [substBoth (startConfig key value) n] ≠ D ++ [n] ↔
        substBoth (startConfig key value) n ≠ n := by simp
    have hwalk : walk (startConfig key value) fuel fs2 [newRootOf value] Obj.dir =
        some (fsw, true) := by
      unfold walkRoot at hw
      rw [hq2] at hw
      exact hw
    obtain ⟨_, hafter1, hafter2⟩ :=
      walk_reaches_file (c := c) hother hph hyml hjoin hD fuel fs2 [newRootOf value] Obj.dir
        fsw (List.prefix_refl _) (hD.trans (List.prefix_append _ _)) hq2
        (fun _ hq => hq) (fun q o _ hq => Or.inl ⟨o, hq⟩) hdirs
        ⟨hf, fun e => hfree (hne.mp e)⟩ hwalk
    unfold renameFolderContent at hrc
    rw [hw] at hrc
    have hQ1 : stat fsw (D ++ [substBoth (startConfig key value) n]) =
        some (Obj.file (substBoth (startConfig key value) c)) ∧
        (substBoth (startConfig key value) n ≠ n →
          ∀ c', stat fsw (D ++ [n]) ≠ some (Obj.file c')) := by
      refine ⟨hafter1, fun e c' => ?_⟩
      rw [hafter2 (hne.mpr e)]
      simp
    exact renameFolder_keeps_file (startConfig key value) fuel fsw [newRootOf value] D n
      (substBoth (startConfig key value) n) (substBoth (startConfig key value) c) (fs', ok3)
      hanc hQ1 hrc

/-- Witness for C8, amended: cloning the template `shopTree` for key `Shop` and
value `Market`; `src/Shop.cs` is copied to `Cloned_Market/aspnet-core/src/Shop.cs`
and ends as `Cloned_Market/aspnet-core/src/Market.cs` with its content
rewritten. -/
theorem startProcess_root_exists_witness :
    startProcess 6 shopTree "Shop".toList "Market".toList = some (marketTree, true) ∧
    stat marketTree ["Cloned_Market".toList] = some Obj.dir ∧
    stat shopCopied ["Cloned_Market".toList, "aspnet-core".toList, "src".toList,
      "Shop.cs".toList] = some (Obj.file "namespace Shop".toList) ∧
    stat marketTree ["Cloned_Market".toList, "aspnet-core".toList, "src".toList,
      "Market.cs".toList] = some (Obj.file "namespace Market".toList) ∧
    stat marketTree ["Cloned_Market".toList, "aspnet-core".toList, "src".toList,
      "Shop.cs".toList] = none := by
  have key := startProcess_root_exists 6 shopTree shopRooted shopCopied marketTree
    "Shop".toList "Market".toList (by decide) (by decide) (by decide) (by decide) (by decide)
  have hpre : ∀ a : Path, ["Cloned_Market".toList] <+: a →
      a <+: ["Cloned_Market".toList, "aspnet-core".toList, "src".toList] →
      stat shopCopied a = some Obj.dir := fun a h1 h2 =>
    of_decide_eq_true
      (forall_prefix_of_inits
        (fun a => decide (["Cloned_Market".toList] <+: a → stat shopCopied a = some Obj.dir))
        _ (by decide) a h2) h1
  have hanc : ∀ a : Path, ["Cloned_Market".toList] <+: a →
      a <+: ["Cloned_Market".toList, "aspnet-core".toList, "src".toList] →
      hasPlaceholder (startConfig "Shop".toList "Market".toList) (baseName a) = true →
      parsePath (newPathStr (startConfig "Shop".toList "Market".toList) a) = a :=
    fun a h1 h2 h3 => of_decide_eq_true
      (forall_prefix_of_inits
        (fun a => decide (["Cloned_Market".toList] <+: a →
          hasPlaceholder (startConfig "Shop".toList "Market".toList) (baseName a) = true →
          parsePath (newPathStr (startConfig "Shop".toList "Market".toList) a) = a))
        _ (by decide) a h2) h1 h3
  have hfile := key.2.2.2 ["Cloned_Market".toList, "aspnet-core".toList, "src".toList]
    "Shop.cs".toList "namespace Shop".toList shopWalked (by decide) hpre (by decide)
    (by decide) (by decide) (by decide) (fun _ => by decide) (by decide) hanc (by decide)
  exact ⟨by decide, key.1,
    key.2.1 ["src".toList] ["Cloned_Market".toList, "aspnet-core".toList, "src".toList]
      ["Shop.cs".toList] "namespace Shop".toList (by decide) (by decide)
      (fun r1 r2 hr hr2 => by
        cases r1 with
        | nil => exact ⟨by decide, by decide⟩
        | cons a r1 =>
          cases r1 with
          | nil =>
            cases r2 with
            | nil => exact absurd rfl hr2
            | cons b r2 => simp at hr
          | cons b r1 => simp at hr),
    hfile.1.trans (by decide), by decide⟩

/-- C7, the code at the failing input: on `src/CommerceMono/CommerceMono.Api` the
directory pass first visits the inner directory and asks for a rename to
`src/HRMS/HRMS.Api`, the substitution having been made in the whole path; the
directory `src/HRMS` does not exist, the rename fails, `renameFolder` returns an
error and nothing has been renamed. -/
theorem renameFolder_nested_fails :
    parsePath (newPathStr (startConfig "CommerceMono".toList "HRMS".toList)
        ["src".toList, "CommerceMono".toList, "CommerceMono.Api".toList]) =
      ["src".toList, "HRMS".toList, "HRMS.Api".toList] ∧
    renameFolder (startConfig "CommerceMono".toList "HRMS".toList) 4 nestedTree ["src".toList] =
      some (nestedTree, false) ∧
    stat nestedTree ["src".toList, "HRMS".toList] = none := by
  decide

/-- C9, as stated, fails.  On a filesystem that refuses to read `ci/a.txt` the
callback returns the error of the read, the walk is aborted,
`renameFolderContent` returns an error and `ci/b.txt` has not been rewritten.
On the operating-system filesystem itself, with key `test`, the file
`ci/build-and-test.yml` is rewritten and renamed to `ci/build-and-check.yml`, the
read of `processBuildTestYml` at the old path fails, and the pass is aborted
in the same way before `ci/notes.txt`. -/
theorem renameFolderContent_read_failure_aborts :
    (renameFolderContentOn (guardedFs [["ci".toList, "a.txt".toList]] [])
        (startConfig "Shop".toList "Market".toList) 4 notesTree ["ci".toList]).map
        (fun r => (r.2, stat r.1 ["ci".toList, "b.txt".toList])) =
      some (false, some (Obj.file "Cloned b".toList)) ∧
    (renameFolderContent (startConfig "test".toList "check".toList) 4 ciTree ["ci".toList]).map
        (fun r => (r.2, stat r.1 ["ci".toList, "build-and-check.yml".toList],
          stat r.1 ["ci".toList, "notes.txt".toList])) =
      some (false, some (Obj.file "- \"src/**\"".toList), some (Obj.file "test plan".toList)) :=
  ⟨by decide, by decide⟩

/-- C9, amended.  Over every implementation of the filesystem interface, in the
callback on a regular file `t/n`: a failed read is returned at once, with the
state as it was; a failed write or rename is only reported, so that the callback
goes on to `processBuildTestYml` and returns an error exactly when a read has
failed; after a failed write the rename is tried on the unchanged state.  The
walk goes on with the next entry when the callback returns no error, and is
aborted with that error, no further entry being visited, when it returns one;
`renameFolderContent` returns the error of the walk. -/
theorem walk_failure_policy {σ : Type} (F : Fs σ) (cfg : Config) (s : σ) (t : Path) (n c : Str)
    (h : F.stat s (t ++ [n]) = some (Obj.file c)) :
    (F.readFile s (t ++ [n]) = none →
      walkFnOn F cfg s (t ++ [n]) (some (Obj.file c)) = (s, false)) ∧
    (∀ c1, F.readFile s (t ++ [n]) = some c1 →
      walkFnOn F cfg s (t ++ [n]) (some (Obj.file c)) =
          processBuildTestYmlOn F (afterRewriteOn F cfg s (t ++ [n]) c1) (t ++ [n]) n ∧
        ((walkFnOn F cfg s (t ++ [n]) (some (Obj.file c))).2 = false ↔
          n = "build-and-test.yml".toList ∧
            F.readFile (afterRewriteOn F cfg s (t ++ [n]) c1) (t ++ [n]) = none)) ∧
    (∀ c1, F.writeFile s (t ++ [n]) (substBoth cfg c1) = none →
      afterRewriteOn F cfg s (t ++ [n]) c1 =
        if hasPlaceholder cfg n = true ∧ joinStr t (substBoth cfg n) ≠ t ++ [n] then
          (F.rename s (t ++ [n]) (joinStr t (substBoth cfg n))).getD s
        else s) ∧
    (∀ (fuel : Nat) (pre rest : List Str) (s0 : σ),
      walkEntriesOn F cfg (fuel + 1) t pre s0 = some (s, true) →
      walkEntriesOn F cfg (fuel + 1) t (pre ++ n :: rest) s0 =
        if (walkFnOn F cfg s (t ++ [n]) (some (Obj.file c))).2 = true then
          walkEntriesOn F cfg (fuel + 1) t rest (walkFnOn F cfg s (t ++ [n]) (some (Obj.file c))).1
        else some ((walkFnOn F cfg s (t ++ [n]) (some (Obj.file c))).1, false)) ∧
    (∀ (fuel : Nat) (root : Path) (s0 s1 : σ), walkRootOn F cfg fuel s0 root = some (s1, false) →
      renameFolderContentOn F cfg fuel s0 root = some (s1, false)) := by
  have hb : baseName (t ++ [n]) = n := baseName_append_singleton t n
  have hd : dirOf (t ++ [n]) = t := dirOf_append_singleton t n
  refine ⟨?_, ?_, ?_, ?_, ?_⟩
  · intro hr
    simp only [walkFnOn, hr]
  · intro c1 hr
    have e : walkFnOn F cfg s (t ++ [n]) (some (Obj.file c)) =
        processBuildTestYmlOn F (afterRewriteOn F cfg s (t ++ [n]) c1) (t ++ [n]) n := by
      simp only [walkFnOn, hr, afterRewriteOn, hb]
    refine ⟨e, ?_⟩
    rw [e]
    unfold processBuildTestYmlOn
    by_cases hy : n = "build-and-test.yml".toList
    · rw [if_neg (not_not.mpr hy)]
      cases hrd : F.readFile (afterRewriteOn F cfg s (t ++ [n]) c1) (t ++ [n]) with
      | none => exact ⟨fun _ => ⟨hy, rfl⟩, fun _ => rfl⟩
      | some c2 =>
        constructor
        · intro hf; cases hf
        · rintro ⟨_, e2⟩; cases e2
    · rw [if_pos hy]
      constructor
      · intro hf; cases hf
      · rintro ⟨e2, _⟩; exact absurd e2 hy
  · intro c1 hw
    simp only [afterRewriteOn, hw, Option.getD_none, hb, hd]
    by_cases hp : hasPlaceholder cfg n = true
    · by_cases hne : joinStr t (substBoth cfg n) ≠ t ++ [n]
      · rw [if_pos hp, if_pos hne, if_pos ⟨hp, hne⟩]
      · rw [if_pos hp, if_neg hne, if_neg (fun hh => hne hh.2)]
    · rw [if_neg hp, if_neg (fun hh => hp hh.1)]
  · intro fuel pre rest s0 hpre
    unfold walkEntriesOn at hpre ⊢
    rw [forNames_append _ pre (n :: rest) s0 s hpre]
    simp only [forNames, h]
    have hw : walkOn F cfg (fuel + 1) s (t ++ [n]) (Obj.file c) =
        some (walkFnOn F cfg s (t ++ [n]) (some (Obj.file c))) := by
      unfold walkOn
      rcases walkFnOn F cfg s (t ++ [n]) (some (Obj.file c)) with ⟨s1, ok⟩
      cases ok <;> rfl
    rw [hw]
    rcases walkFnOn F cfg s (t ++ [n]) (some (Obj.file c)) with ⟨s1, ok⟩
    cases ok <;> simp
  · intro fuel root s0 s1 hw
    unfold renameFolderContentOn
    rw [hw]

/-- Witness for C9, amended, on `notesTree`.  Where the write of `ci/a.txt` is
refused the callback returns no error, the walk goes on to `ci/b.txt`, which is
rewritten, and `renameFolderContent` returns no error.  Where the read of
`ci/a.txt` is refused the callback returns the error. -/
theorem walk_failure_policy_witness :
    (guardedFs [] [["ci".toList, "a.txt".toList]]).writeFile notesTree
      ["ci".toList, "a.txt".toList] " a".toList = none ∧
    ¬ (walkFnOn (guardedFs [] [["ci".toList, "a.txt".toList]])
      (startConfig "Shop".toList "Market".toList) notesTree ["ci".toList, "a.txt".toList]
      (some (Obj.file "Cloned a".toList))).2 = false ∧
    renameFolderContentOn (guardedFs [] [["ci".toList, "a.txt".toList]])
      (startConfig "Shop".toList "Market".toList) 4 notesTree ["ci".toList] =
      some (notesWriteRefused, true) ∧
    stat notesWriteRefused ["ci".toList, "a.txt".toList] = some (Obj.file "Cloned a".toList) ∧
    stat notesWriteRefused ["ci".toList, "b.txt".toList] = some (Obj.file " b".toList) ∧
    walkFnOn (guardedFs [["ci".toList, "a.txt".toList]] [])
      (startConfig "Shop".toList "Market".toList) notesTree ["ci".toList, "a.txt".toList]
      (some (Obj.file "Cloned a".toList)) = (notesTree, false) :=
  ⟨by decide,
   fun hf => absurd (((walk_failure_policy (guardedFs [] [["ci".toList, "a.txt".toList]])
      (startConfig "Shop".toList "Market".toList) notesTree ["ci".toList] "a.txt".toList
      "Cloned a".toList (by decide)).2.1 "Cloned a".toList (by decide)).2.mp hf).1 (by decide),
   by decide, by decide, by decide,
   (walk_failure_policy (guardedFs [["ci".toList, "a.txt".toList]] [])
      (startConfig "Shop".toList "Market".toList) notesTree ["ci".toList] "a.txt".toList
      "Cloned a".toList (by decide)).1 (by decide)⟩

/-- C4, as stated, fails: a regular file named `bin` is copied; only directories
are tested against the skip set. -/
theorem copy_keeps_file_named_bin :
    stat binFileTree ["newpath".toList] = none ∧
    copyDirectoriesAndFiles 3 binFileTree ["src".toList] ["newpath".toList, "src".toList] =
      some (binFileCopied, true) ∧
    stat binFileCopied ["newpath".toList, "src".toList, "bin".toList] =
      some (Obj.file "#!/bin/sh".toList) := by
  decide

/-- C4, amended. After `copyDirectoriesAndFiles(src, dest)` succeeds into a
destination at and below which nothing existed, no directory whose base name is
in the skip set lies below the destination, at any depth. -/
theorem copy_skips_directories (fuel : Nat) (fs fs' : FS) (src dest : Path)
    (hnew : ∀ r, stat fs (dest ++ r) = none)
    (h : copyDirectoriesAndFiles fuel fs src dest = some (fs', true)) :
    ∀ (r : Path) (n : Str), stat fs' (dest ++ r ++ [n]) = some Obj.dir → n ∉ skipDirs := by
  have key := copy_inv_skip
    (fun s => ∀ (r : Path) (n : Str), stat s (dest ++ r ++ [n]) = some Obj.dir → n ∉ skipDirs)
    dest
    (fun s rel s' hs hall hmk r n hst => by
      rcases mkdirFrom_new hmk hst with h1 | ⟨_, l1, l2, _, hl, hq⟩
      · exact hs r n h1
      · simp only [List.nil_append] at hq
        rw [← hq, List.append_assoc, List.append_assoc] at hl
        have : rel = r ++ [n] ++ l2 := by
          have := List.append_cancel_left hl
          simpa using this
        apply hall n
        rw [this]; simp)
    (fun s d c s' hs hwf r n hst => hs r n (writeFile_dir_inv hwf hst))
    fuel fs src [] (fs', true) (by simp) (by simp)
    (fun r n hst => by
      have := hnew (r ++ [n])
      rw [← List.append_assoc, hst] at this
      cases this)
    (by simpa using h)
  exact key

/-- Witness for C4, amended: the directory `obj` of `binFileTree` is not copied. -/
theorem copy_skips_directories_witness :
    "obj".toList ∈ skipDirs ∧
    stat binFileCopied ["newpath".toList, "src".toList, "obj".toList] ≠ some Obj.dir :=
  ⟨by decide, fun hst =>
    copy_skips_directories 3 binFileTree binFileCopied ["src".toList]
      ["newpath".toList, "src".toList]
      (fun r => by
        cases r with
        | nil => decide
        | cons a r => simp [stat, binFileTree, find])
      (by decide) [] "obj".toList hst (by decide)⟩

/-- C5, as stated, fails when source and destination overlap: copying `a/b` to `a`
succeeds, but `a/b/b/x` is copied onto the source file `a/b/x` before that file
is copied, so the source tree has changed and `a/x` holds the content of
`a/b/b/x`, not that of `a/b/x`. -/
theorem copy_overlapping_changes_source :
    stat overlapTree ["a".toList, "b".toList, "x".toList] = some (Obj.file "one".toList) ∧
    copyDirectoriesAndFiles 4 overlapTree ["a".toList, "b".toList] ["a".toList] =
      some (overlapCopied, true) ∧
    stat overlapCopied ["a".toList, "x".toList] = some (Obj.file "two".toList) ∧
    stat overlapCopied ["a".toList, "b".toList, "x".toList] = some (Obj.file "two".toList) := by
  decide

/-- C5, amended. When neither of source and destination lies at or below the
other, and `src/rel` is a regular file every containing directory of which, from
`src` down, is a directory whose base name is not in the skip set, then after
`copyDirectoriesAndFiles(src, dest)` succeeds `dest/rel` is a regular file with
the same content, and every path at or below the source holds what it held. -/
theorem copy_file_content (fuel : Nat) (fs fs' : FS) (src dest rel : Path) (c : Str)
    (hd1 : ¬ src <+: dest) (hd2 : ¬ dest <+: src)
    (hf : stat fs (src ++ rel) = some (Obj.file c))
    (hdirs : ∀ r1 r2, rel = r1 ++ r2 → r2 ≠ [] →
      stat fs (src ++ r1) = some Obj.dir ∧ baseName (src ++ r1) ∉ skipDirs)
    (h : copyDirectoriesAndFiles fuel fs src dest = some (fs', true)) :
    stat fs' (dest ++ rel) = some (Obj.file c) ∧
    ∀ q, src <+: q → stat fs' q = stat fs q := by
  constructor
  · have := copy_file_rel hd1 hd2 fuel fs [] rel c fs' (by simpa using h) (by simpa using hf)
      (by simpa using hdirs)
    simpa using this
  · exact copy_source_same hd1 hd2 fs fuel fs src dest (fs', true) (List.prefix_refl _)
      (fun _ _ => rfl) h

/-- Witness for C5, amended: `src/testfile.txt` of `TestCopyItems`. -/
theorem copy_file_content_witness :
    copyDirectoriesAndFiles 3 copyItemsTree ["src".toList]
        ["aspnet-core".toList, "src".toList] = some (srcCopied, true) ∧
    stat (srcCopied) ["aspnet-core".toList, "src".toList, "testfile.txt".toList] =
      some (Obj.file "content".toList) :=
  ⟨by decide,
   (copy_file_content 3 copyItemsTree (srcCopied) ["src".toList]
      ["aspnet-core".toList, "src".toList] ["testfile.txt".toList] "content".toList
      (by decide) (by decide) (by decide)
      (fun r1 r2 e hr2 => by
        cases r1 with
        | nil => exact ⟨by decide, by decide⟩
        | cons a r1 =>
          cases r1 with
          | nil =>
            simp only [List.singleton_append, List.cons.injEq] at e
            exact absurd e.2.symm hr2
          | cons b r1 => simp at e)
      (by decide)).1⟩

/-- C10, as stated, fails.  For key `stage` and value `test` the first run renames
`ci/build-and-stage.yml` to `ci/build-and-test.yml` without patching it (it was
visited under its old name); no placeholder is left, yet the second run finds
the file under the pipeline name and patches its content.  For key `test` and
value `check` the first run over the root `test` renames
`test/build-and-test.yml`, fails to read it under its old name and stops before
the directory pass; no placeholder is left below the root, yet the second run
renames the root. -/
theorem second_run_patches_renamed_yml :
    (renameFolderContent (startConfig "stage".toList "test".toList) 4 stageTree ["ci".toList] =
        some (stageOnce, true) ∧
      placeholderFree (startConfig "stage".toList "test".toList) stageOnce ["ci".toList] = true ∧
      stat stageOnce ["ci".toList, "build-and-test.yml".toList] =
        some (Obj.file "- \"src/**\"".toList) ∧
      (renameFolderContent (startConfig "stage".toList "test".toList) 4 stageOnce
          ["ci".toList]).map (fun r => stat r.1 ["ci".toList, "build-and-test.yml".toList]) =
        some (some (Obj.file "- \"aspnet-core/src/**\"".toList))) ∧
    (renameFolderContent (startConfig "test".toList "check".toList) 4 testRootTree
        ["test".toList] = some (testRootOnce, false) ∧
      placeholderFree (startConfig "test".toList "check".toList) testRootOnce
        ["test".toList] = true ∧
      ymlPatched testRootOnce ["test".toList] = true ∧
      stat testRootOnce ["test".toList] = some Obj.dir ∧
      (renameFolderContent (startConfig "test".toList "check".toList) 4 testRootOnce
          ["test".toList]).map (fun r => stat r.1 ["test".toList]) = some none) :=
  ⟨⟨by decide, by decide, by decide, by decide⟩,
   by decide, by decide, by decide, by decide, by decide⟩

/-- C10, amended. On a tree in which no name below the root and no file content
at or below it contains a placeholder, in which every `build-and-test.yml`
contains none of the three path fragments the patch replaces, and whose root
the run does not rename (its name contains no placeholder, or it is a directory
whose path the substitution leaves as it is), a run of `renameFolderContent`
changes nothing: every path holds what it held. -/
theorem rewrite_idempotent (cfg : Config) (fuel : Nat) (fs : FS) (root : Path) (r : FS × Bool)
    (h1 : placeholderFree cfg fs root = true) (h2 : ymlPatched fs root = true)
    (h3 : rootStays cfg fs root = true)
    (h : renameFolderContent cfg fuel fs root = some r) :
    ∀ q, stat r.1 q = stat fs q := by
  have hbelow : ∀ (t : FS) (d n : Path) (t' : FS), (∀ q, stat t q = stat fs q) → root <+: d →
      d ≠ root → hasPlaceholder cfg (baseName d) = true → rename t d n = some t' → False := by
    intro t d n t' ht hd hdr hph hrn
    obtain ⟨o, ho⟩ := rename_some_stat hrn
    by_cases hdn : d = []
    · subst hdn
      exact hdr (List.prefix_nil.mp hd).symm
    · rw [ht d] at ho
      rw [(placeholderFree_stat h1 hd hdn ho).1 hdr] at hph
      cases hph
  unfold renameFolderContent at h
  have hwalk : ∀ r1, walkRoot cfg fuel fs root = some r1 → ∀ q, stat r1.1 q = stat fs q := by
    intro r1 hw
    unfold walkRoot at hw
    cases hs : stat fs root with
    | none =>
      simp only [hs, Option.some.injEq] at hw
      subst hw
      intro q; rfl
    | some info =>
      simp only [hs] at hw
      refine walk_inv cfg (fun t => ∀ q, stat t q = stat fs q) root ?_ ?_
        fuel fs root info r1 (List.prefix_refl _) (fun _ => rfl) hw
      · intro t p c c' ht hp hst hc q
        have hpne := stat_file_ne_nil hst
        have hst0 : stat fs p = some (Obj.file c) := by rw [← ht p]; exact hst
        have hcc : c' = c := by
          rcases hc with e | ⟨hb, e⟩
          · rw [e]
            exact substBoth_of_not_hasPlaceholder ((placeholderFree_stat h1 hp hpne hst0).2 c rfl)
          · rw [e]
            exact ymlPatched_stat h2 hp hst0 hb
        rw [stat_put _ _ _ _ hpne, hcc]
        by_cases hqp : q = p
        · rw [if_pos hqp, hqp, hst0]
        · rw [if_neg hqp]; exact ht q
      · intro t p c t' ht hp hst hph hrn
        by_cases hpr : p = root
        · exfalso
          subst hpr
          have hst0 : stat fs p = some (Obj.file c) := by rw [← ht p]; exact hst
          unfold rootStays at h3
          rw [hph, hst0] at h3
          simp at h3
        · exact (hbelow t p _ t' ht hp hpr hph hrn).elim
  have hdirs : ∀ (t : FS) (d : Path) (t' : FS), (∀ q, stat t q = stat fs q) → root <+: d →
      hasPlaceholder cfg (baseName d) = true →
      rename t d (parsePath (newPathStr cfg d)) = some t' → ∀ q, stat t' q = stat fs q := by
    intro t d t' ht hd hph hrn
    exfalso
    by_cases hdr : d = root
    · subst hdr
      obtain ⟨o, ho⟩ := rename_some_stat hrn
      unfold rootStays at h3
      rw [hph, ← ht d, ho] at h3
      cases o with
      | file c => simp at h3
      | dir =>
        simp only [Bool.not_true, Bool.false_or, decide_eq_true_eq] at h3
        rw [h3, rename_dir_self ho] at hrn
        cases hrn
    · exact hbelow t d _ t' ht hd hdr hph hrn
  cases hw : walkRoot cfg fuel fs root with
  | none => simp [hw] at h
  | some r1 =>
    obtain ⟨fs1, ok⟩ := r1
    have hq1 := hwalk (fs1, ok) hw
    cases ok with
    | false =>
      simp only [hw, Option.some.injEq] at h
      subst h; exact hq1
    | true =>
      simp only [hw] at h
      exact renameFolder_inv cfg (fun t => ∀ q, stat t q = stat fs q) root hdirs
        fuel fs1 root r (List.prefix_refl _) hq1 h

/-- Witness for C10, amended: the second run over the root `Cloned_Market` that
`startProcess` has made for key `Shop` and value `Market`; the root has the
company placeholder in its name, and the rename of it to its own path is
refused. -/
theorem rewrite_idempotent_witness :
    placeholderFree (startConfig "Shop".toList "Market".toList) marketTree
      ["Cloned_Market".toList] = true ∧
    hasPlaceholder (startConfig "Shop".toList "Market".toList) "Cloned_Market".toList = true ∧
    renameFolderContent (startConfig "Shop".toList "Market".toList) 6 marketTree
      ["Cloned_Market".toList] = some (marketTwice, false) ∧
    stat marketTree ["Cloned_Market".toList, "aspnet-core".toList, "src".toList,
      "Market.cs".toList] = some (Obj.file "namespace Market".toList) ∧
    stat marketTwice ["Cloned_Market".toList, "aspnet-core".toList, "src".toList,
      "Market.cs".toList] = some (Obj.file "namespace Market".toList) :=
  ⟨by decide, by decide, by decide, by decide,
   (rewrite_idempotent (startConfig "Shop".toList "Market".toList) 6 marketTree
      ["Cloned_Market".toList] (marketTwice, false) (by decide) (by decide) (by decide)
      (by decide)
      ["Cloned_Market".toList, "aspnet-core".toList, "src".toList, "Market.cs".toList]).trans
      (by decide)⟩

/-- C1, as stated, fails: with the company placeholder `Cloned` replaced by the
empty string, `src/ClonedX.txt` and `src/XCloned.txt` are both renamed to
`src/X.txt`, at which nothing was; the second rename replaces the first file, and
`src/X.txt` ends with the content of `XCloned.txt`, not that of `ClonedX.txt`. -/
theorem renamed_file_overwritten_by_sibling :
    stat collideTree ["src".toList, "ClonedX.txt".toList] = some (Obj.file "first".toList) ∧
    substBoth (startConfig "CommerceMono".toList "HRMS".toList) "ClonedX.txt".toList =
      "X.txt".toList ∧
    substBoth (startConfig "CommerceMono".toList "HRMS".toList) "first".toList =
      "first".toList ∧
    stat collideTree ["src".toList, "X.txt".toList] = none ∧
    (renameFolderContent (startConfig "CommerceMono".toList "HRMS".toList) 4 collideTree
        ["src".toList]).map (fun r => (r.2, stat r.1 ["src".toList, "X.txt".toList])) =
      some (true, some (Obj.file "second".toList)) := by
  decide

/-- C1, amended. Let `D/n` be a regular file with content `c` in directories from
the root down, its name containing a placeholder and other than
`build-and-test.yml`, its new name `n'` a plain name of `D` at which nothing is,
no other regular file under the root being renamed to `D/n` or `D/n'` (nor out
of its directory to a name that still contains a placeholder), and the directory
pass leaving the path of every directory from the root down to `D` as it is.  If
the content walk of `renameFolderContent(root)` ends without error, then after
`renameFolderContent(root)` the file `D/n'` holds `c` with the company and then
the project substitution applied, and when `n'` differs from `n` no regular
file is at `D/n`. -/
theorem content_pass_renames_file (cfg : Config) (fuel : Nat) (fs fs1 : FS) (root D : Path)
    (n c : Str) (r : FS × Bool)
    (hroot : root <+: D)
    (hdirs : ∀ a, root <+: a → a <+: D → stat fs a = some Obj.dir)
    (hf : stat fs (D ++ [n]) = some (Obj.file c))
    (hph : hasPlaceholder cfg n = true) (hyml : n ≠ "build-and-test.yml".toList)
    (hjoin : joinStr D (substBoth cfg n) = D ++ [substBoth cfg n])
    (hfree : substBoth cfg n ≠ n → stat fs (D ++ [substBoth cfg n]) = none)
    (hother : otherFilesApart cfg fs root (D ++ [n]) (D ++ [substBoth cfg n]) = true)
    (hanc : ∀ a, root <+: a → a <+: D → hasPlaceholder cfg (baseName a) = true →
      parsePath (newPathStr cfg a) = a)
    (hw : walkRoot cfg fuel fs root = some (fs1, true))
    (h : renameFolderContent cfg fuel fs root = some r) :
    stat r.1 (D ++ [substBoth cfg n]) =
      some (Obj.file
        (replaceAll (replaceAll c cfg.oldCompanyName cfg.newCompanyName)
          cfg.oldProjectName cfg.newProjectName)) ∧
    (substBoth cfg n ≠ n → ∀ c', stat r.1 (D ++ [n]) ≠ some (Obj.file c')) := by
  have hne : D ++ [substBoth cfg n] ≠ D ++ [n] ↔ substBoth cfg n ≠ n := by simp
  -- the content walk
  have hrootdir := hdirs root (List.prefix_refl _) hroot
  have hwalk : walk cfg fuel fs root Obj.dir = some (fs1, true) := by
    unfold walkRoot at hw
    rw [hrootdir] at hw
    exact hw
  obtain ⟨_, hafter1, hafter2⟩ :=
    walk_reaches_file (c := c) hother hph hyml hjoin hroot fuel fs root Obj.dir fs1
      (List.prefix_refl _) (hroot.trans (List.prefix_append _ _)) hrootdir
      (fun _ hq => hq) (fun q o _ hq => Or.inl ⟨o, hq⟩) hdirs
      ⟨hf, fun e => hfree (hne.mp e)⟩ hwalk
  -- the directory pass
  unfold renameFolderContent at h
  rw [hw] at h
  have hQ1 : stat fs1 (D ++ [substBoth cfg n]) = some (Obj.file (substBoth cfg c)) ∧
      (substBoth cfg n ≠ n → ∀ c', stat fs1 (D ++ [n]) ≠ some (Obj.file c')) := by
    refine ⟨hafter1, fun e c' => ?_⟩
    rw [hafter2 (hne.mpr e)]
    simp
  exact renameFolder_keeps_file cfg fuel fs1 root D n (substBoth cfg n) (substBoth cfg c) r
    hanc hQ1 h

/-- Witness for C1, amended: for key `Shop` and value `ShopApi` the file
`src/Shop.cs` next to `src/Shop.sln`, both getting a name that contains the key
again; and the scenario of the claim, `src/CommerceMono.sln` for key
`CommerceMono` and value `HRMS`. -/
theorem content_pass_renames_file_witness :
    renameFolderContent (startConfig "Shop".toList "ShopApi".toList) 3 shopPairTree
      ["src".toList] = some (shopPairRenamed, true) ∧
    stat shopPairRenamed ["src".toList, "ShopApi.cs".toList] =
      some (Obj.file "namespace ShopApi".toList) ∧
    stat shopPairRenamed ["src".toList, "Shop.cs".toList] = none ∧
    (renameFolderContent (startConfig "CommerceMono".toList "HRMS".toList) 3 slnTree
        ["src".toList]).map (fun r => (r.2, stat r.1 ["src".toList, "HRMS.sln".toList],
          stat r.1 ["src".toList, "CommerceMono.sln".toList])) =
      some (true, some (Obj.file "namespace HRMS".toList), none) := by
  have hpre : ∀ a : Path, ["src".toList] <+: a → a <+: ["src".toList] → a = ["src".toList] :=
    fun a h1 h2 => (List.IsPrefix.eq_of_length h2
      (Nat.le_antisymm h2.length_le h1.length_le))
  have key := content_pass_renames_file (startConfig "Shop".toList "ShopApi".toList) 3
    shopPairTree shopPairWalked ["src".toList]
    ["src".toList] "Shop.cs".toList "namespace Shop".toList (shopPairRenamed, true)
    (List.prefix_refl _)
    (fun a h1 h2 => by rw [hpre a h1 h2]; decide)
    (by decide) (by decide) (by decide) (by decide) (fun _ => by decide) (by decide)
    (fun a h1 h2 _ => by rw [hpre a h1 h2]; decide)
    (by decide) (by decide)
  exact ⟨by decide, key.1.trans (by decide), by decide, by decide⟩

/-- C2, as stated, fails: for key `AppApp` and value `App` the directory
`src/AppApp` (ancestor `src` unchanged) is renamed to `src/App`, and then
`src/AppAppApp` is renamed to `src/AppApp`; `renameFolder` returns without error
and the old path of `src/AppApp` holds a directory again. -/
theorem renamed_dir_path_taken_again :
    stat appTree ["src".toList, "AppApp".toList] = some Obj.dir ∧
    containsSub "AppApp".toList
      (startConfig "AppApp".toList "App".toList).oldProjectName = true ∧
    parsePath (newPathStr (startConfig "AppApp".toList "App".toList)
      ["src".toList, "AppApp".toList]) = ["src".toList, "App".toList] ∧
    renameFolder (startConfig "AppApp".toList "App".toList) 4 appTree ["src".toList] =
      some (appRenamed, true) ∧
    stat appRenamed ["src".toList, "App".toList, "main.go".toList] =
      some (Obj.file "package main".toList) ∧
    stat appRenamed ["src".toList, "AppApp".toList] = some Obj.dir ∧
    stat appRenamed ["src".toList, "AppApp".toList, "lib.go".toList] =
      some (Obj.file "package lib".toList) := by
  decide

/-- C2, amended. Let `D/n` be a directory, in directories from the root down,
whose base name contains `oldProjectName`, whose substituted path is `D/n'` with
`n'` other than `n` (the segments of its ancestors unchanged), nothing being at
or below `D/n'`; let the substitution leave the path of every directory from the
root down to `D` as it is, let every other directory under the root that is
renamed get a path outside `D/n` and `D/n'` (and no path out of its directory
with a name that still contains a placeholder), and let no directory with a
placeholder in its name lie below a renamed one.  After
`renameFolder(root)` returns without error, `D/n'` is a directory, every path
below it holds what the same path below `D/n` held, and nothing is at or below
`D/n`. -/
theorem renameFolder_moves_dir (cfg : Config) (fuel : Nat) (fs fs' : FS) (root D : Path)
    (n n' : Str)
    (hroot : root <+: D)
    (hdirs : ∀ a, root <+: a → a <+: D ++ [n] → stat fs a = some Obj.dir)
    (hph : containsSub n cfg.oldProjectName = true)
    (hT : parsePath (newPathStr cfg (D ++ [n])) = D ++ [n'])
    (hne : n' ≠ n)
    (hfree : ∀ r, stat fs (D ++ [n'] ++ r) = none)
    (hanc : ∀ a, root <+: a → a <+: D → hasPlaceholder cfg (baseName a) = true →
      parsePath (newPathStr cfg a) = a)
    (hother : otherDirsApart cfg fs root (D ++ [n]) (D ++ [n']) = true)
    (hnest : noNestedPlaceholder cfg fs root = true)
    (h : renameFolder cfg fuel fs root = some (fs', true)) :
    stat fs' (D ++ [n']) = some Obj.dir ∧
    (∀ r, stat fs' (D ++ [n'] ++ r) = stat fs (D ++ [n] ++ r)) ∧
    (∀ r, stat fs' (D ++ [n] ++ r) = none) := by
  have hd0 : stat fs (D ++ [n]) = some Obj.dir :=
    hdirs _ (hroot.trans (List.prefix_append _ _)) (List.prefix_refl _)
  have hphn : hasPlaceholder cfg n = true := by simp [hasPlaceholder, hph]
  obtain ⟨rel, hrel⟩ := hroot
  obtain ⟨_, _, hB1, hB2⟩ := renameFolder_reaches_dir hother hnest hT hne hphn hd0 hanc
    fuel fs root rel fs' hrel (List.prefix_refl _)
    (fun q _ hq _ => hq)
    (fun a h1 h2 => hdirs a h1 (h2.trans (List.prefix_append _ _)))
    (fun _ => rfl)
    (fun r => by have := hfree r; simpa using this) h
  refine ⟨?_, ?_, ?_⟩
  · rw [hB1 []]; exact hd0
  · intro r
    have := hB1 r
    simpa using this
  · intro r
    have := hB2 r
    simpa using this

/-- Witness for C2, amended: for key `Shop` and value `ShopApi` the directory
`src/Shop.Application` next to `src/Shop.Api`, both getting a name that contains
the key again; and the directories of `TestRenameFolder`. -/
theorem renameFolder_moves_dir_witness :
    renameFolder (startConfig "Shop".toList "ShopApi".toList) 4 shopDirsTree
      ["src".toList] = some (shopDirsRenamed, true) ∧
    stat shopDirsRenamed ["src".toList, "ShopApi.Application".toList] = some Obj.dir ∧
    stat shopDirsRenamed ["src".toList, "ShopApi.Application".toList, "App.cs".toList] =
      some (Obj.file "class App".toList) ∧
    stat shopDirsRenamed ["src".toList, "Shop.Application".toList] = none ∧
    stat shopDirsRenamed ["src".toList, "ShopApi.Api".toList] = some Obj.dir ∧
    (renameFolder (startConfig "CommerceMono".toList "HRMS".toList) 4 projectTree
        ["src".toList]).map (fun r => (r.2,
          stat r.1 ["src".toList, "HRMS.Application".toList, "App.cs".toList],
          stat r.1 ["src".toList, "HRMS.Api".toList],
          stat r.1 ["src".toList, "CommerceMono.Application".toList],
          stat r.1 ["src".toList, "CommerceMono.Api".toList])) =
      some (true, some (Obj.file "class App".toList), some Obj.dir, none, none) := by
  have key := renameFolder_moves_dir (startConfig "Shop".toList "ShopApi".toList) 4
    shopDirsTree shopDirsRenamed ["src".toList] ["src".toList]
    "Shop.Application".toList "ShopApi.Application".toList
    (List.prefix_refl _)
    (fun a h1 h2 => of_decide_eq_true
      (forall_prefix_of_inits
        (fun a => decide (["src".toList] <+: a → stat shopDirsTree a = some Obj.dir))
        _ (by decide) a h2) h1)
    (by decide) (by decide) (by decide)
    (fun r => by
      cases r with
      | nil => decide
      | cons a r => simp [stat, shopDirsTree, find])
    (fun a h1 h2 h3 => of_decide_eq_true
      (forall_prefix_of_inits
        (fun a => decide (["src".toList] <+: a →
          hasPlaceholder (startConfig "Shop".toList "ShopApi".toList) (baseName a) = true →
          parsePath (newPathStr (startConfig "Shop".toList "ShopApi".toList) a) = a))
        _ (by decide) a h2) h1 h3)
    (by decide) (by decide) (by decide)
  exact ⟨by decide, key.1, (key.2.1 ["App.cs".toList]).trans (by decide),
    key.2.2 [], by decide, by decide⟩

end GoRename
